import Mathlib

/-!
# 3ei: a solver for 3x3x3 tic-tac-toe with gravity

A shallow embedding of `3ei.c` and a verification of its specification.

Conventions of the embedding:
* the `int` bitmasks `x`, `o` and the win-line masks are natural numbers (they only
  ever hold 27 bits), the heights `h[9]` are a list of natural numbers, the ply
  counter `m` and the search values are integers;
* `assert` is modelled by failure (`none` / `Except.error`);
* the global `winlines`, `board` and the cache are passed explicitly.
-/

namespace ThreeEI

/-! ## Bit and field macros -/

/-- `#define BIT(n) (1<<n)`. -/
def BIT (n : Nat) : Nat := 1 <<< n

/-- `#define FLD(i,j,k) (3*(i) + (j) + 9*(k))`. -/
def FLD (i j k : Nat) : Nat := 3 * i + j + 9 * k

/-- `#define OCC(i,j,k) (BIT(FLD(i,j,k)))`. -/
def OCC (i j k : Nat) : Nat := BIT (FLD i j k)

/-- The bitwise complement of a 32-bit `int`, as a bit pattern. -/
def NOT32 (a : Nat) : Nat := 2 ^ 32 - 1 - a % 2 ^ 32

/-! ## The board -/

/-- `struct board { int x, o, h[9], m; }`. -/
structure Board where
  x : Nat
  o : Nat
  h : List Nat
  m : Int
deriving DecidableEq, Repr

/-- The zero-initialised global `board`. -/
def emptyBoard : Board := { x := 0, o := 0, h := List.replicate 9 0, m := 0 }

/-- Reading `h[n]`. -/
def hget (h : List Nat) (n : Nat) : Nat := h.getD n 0

/-- `is_valid_move`: `i >= 0 && i < 3 && j >= 0 && j < 3 && board->h[3*i + j] < 3`. -/
def is_valid_move (b : Board) (i j : Int) : Bool :=
  decide (0 ≤ i) && decide (i < 3) && decide (0 ≤ j) && decide (j < 3) &&
    decide (hget b.h (3 * i + j).toNat < 3)

/-- `do_move`; `none` when one of its two assertions fails. -/
def do_move (b : Board) (i j : Int) : Option Board :=
  if is_valid_move b i j = false then none
  else
    let odd : Bool := decide (b.m % 2 ≠ 0)
    let m1 := b.m + 1
    let n := (3 * i + j).toNat
    let k := hget b.h n
    let h1 := b.h.set n (k + 1)
    let bit := OCC i.toNat j.toNat k
    let cur := if odd then b.o else b.x
    if cur &&& bit ≠ 0 then none
    else if odd then some { x := b.x, o := b.o ||| bit, h := h1, m := m1 }
    else some { x := b.x ||| bit, o := b.o, h := h1, m := m1 }

/-- `undo_move`; `none` when one of its two assertions fails. -/
def undo_move (b : Board) (i j : Int) : Option Board :=
  let m1 := b.m - 1
  let odd : Bool := decide (m1 % 2 ≠ 0)
  let n := (3 * i + j).toNat
  if ¬ (hget b.h n > 0) then none
  else
    let k := hget b.h n - 1
    let h1 := b.h.set n k
    let bit := OCC i.toNat j.toNat k
    let cur := if odd then b.o else b.x
    if cur &&& bit = 0 then none
    else if odd then some { x := b.x, o := b.o &&& NOT32 bit, h := h1, m := m1 }
    else some { x := b.x &&& NOT32 bit, o := b.o, h := h1, m := m1 }

/-! ## The win-line table -/

/-- The global `winlines[27][16]`, as rows of 16 entries. -/
abbrev WinTable := List (List Nat)

/-- The zero-initialised table. -/
def winlines0 : WinTable := List.replicate 27 (List.replicate 16 0)

/-- Row `f` of the table read up to the `0` terminator, as the loops
`for (w = &winlines[f][0]; *w != 0; ++w)` do. -/
def winrow (W : WinTable) (f : Nat) : List Nat :=
  (W.getD f []).takeWhile (fun w => decide (w ≠ 0))

/-- The order `qsort` with `cmp_int` produces. -/
def qsort (l : List Nat) : List Nat := l.insertionSort (fun a b => a ≤ b)

/-- The compaction loop of `remove_duplicates`: keep every element that differs from
its predecessor `prev` in the sorted array. -/
def uniq_loop : Nat → List Nat → List Nat
  | _, [] => []
  | prev, a :: rest => if a ≠ prev then a :: uniq_loop a rest else uniq_loop a rest

/-- `remove_duplicates`: the array up to the returned `new_end`. -/
def remove_duplicates (l : List Nat) : List Nat :=
  match l with
  | [] => []
  | _ :: _ =>
    match qsort l with
    | [] => []
    | a :: rest => a :: uniq_loop a rest

/-- The inner `FOR(n, -2, 3) if (n)` loop of `init_winlines`: the pair `(line, bits)`. -/
def line_bits (i j k : Nat) (di dj dk : Int) : Nat × Nat :=
  ([-2, -1, 0, 1, 2] : List Int).foldl
    (fun acc n =>
      if n ≠ 0 then
        let ni := (i : Int) + n * di
        let nj := (j : Int) + n * dj
        let nk := (k : Int) + n * dk
        if 0 ≤ ni ∧ ni < 3 ∧ 0 ≤ nj ∧ nj < 3 ∧ 0 ≤ nk ∧ nk < 3 then
          (acc.1 ||| OCC ni.toNat nj.toNat nk.toNat, acc.2 + 1)
        else acc
      else acc)
    (OCC i j k, 1)

/-- The `FOR(di..) FOR(dj..) FOR(dk..)` loops of `init_winlines`: the array `lines`
up to `end`. -/
def cell_lines (i j k : Nat) : List Nat :=
  ([-1, 0, 1] : List Int).foldl
    (fun acc di => ([-1, 0, 1] : List Int).foldl
      (fun acc dj => ([-1, 0, 1] : List Int).foldl
        (fun acc dk =>
          if di ≠ 0 ∨ dj ≠ 0 ∨ dk ≠ 0 then
            let lb := line_bits i j k di dj dk
            if lb.2 = 3 then acc ++ [lb.1] else acc
          else acc)
        acc)
      acc)
    []

/-- The final loop `winlines[FLD(i,j,k)][n] = lines[n]` on one row. -/
def write_row (row lines : List Nat) : List Nat :=
  lines ++ row.drop lines.length

/-- The body of the `REP(i,3) REP(j,3) REP(k,3)` loop of `init_winlines`. -/
def init_cell (W : WinTable) (i j k : Nat) : Option WinTable :=
  let lines := cell_lines i j k
  if ¬ (lines.length ≤ 26) then none
  else
    let lines := remove_duplicates lines
    if ¬ (lines.length < 16) then none
    else some (W.set (FLD i j k) (write_row (W.getD (FLD i j k) []) lines))

/-- `init_winlines`. -/
def init_winlines (W : WinTable) : Option WinTable :=
  (List.range 3).foldlM
    (fun W i => (List.range 3).foldlM
      (fun W j => (List.range 3).foldlM (fun W k => init_cell W i j k) W)
      W)
    W

/-- The table after `init_winlines` has run on the zero-initialised global. -/
def winlines : WinTable := (init_winlines winlines0).getD winlines0

/-- `is_winning_move`; `none` when its assertion fails. -/
def is_winning_move (W : WinTable) (b : Board) (i j : Int) : Option Bool :=
  if is_valid_move b i j = false then none
  else
    let f := FLD i.toNat j.toNat (hget b.h (3 * i + j).toNat)
    let nx := (if b.m % 2 ≠ 0 then b.o else b.x) ||| BIT f
    some ((winrow W f).any (fun w => decide (nx &&& w = w)))

/-! ## The transposition cache -/

/-- `struct cache_entry { struct cache_entry *next; int x, o, value; }`; the `next`
pointer is represented by the position of the entry in its chain. -/
structure CacheEntry where
  x : Nat
  o : Nat
  value : Int
deriving DecidableEq, Repr

/-- `#define MAXCACHE 10000007`. -/
def MAXCACHE : Nat := 10000007

/-- The globals `cache`, `cache_entries` and `cache_size`: `cache b` is the chain of
entries hanging off bucket `b`, head first. -/
structure Cache where
  cache : Nat → List CacheEntry
  cache_size : Nat

/-- The zero-initialised cache. -/
def emptyCache : Cache := { cache := fun _ => [], cache_size := 0 }

/-- The bucket index `((46351u*x) ^ o) % MAXCACHE` (32-bit unsigned arithmetic). -/
def bucket (x o : Nat) : Nat := (((46351 * x) % 2 ^ 32) ^^^ o) % MAXCACHE

/-- The chain walk
`while (*p != NULL && (*p)->x != x && (*p)->o != o) p = &(*p)->next;`:
the entry `*p` it stops at, or `none` when it stops at the `NULL` tail. -/
def chain_walk (x o : Nat) : List CacheEntry → Option CacheEntry
  | [] => none
  | e :: rest => if e.x ≠ x ∧ e.o ≠ o then chain_walk x o rest else some e

/-- `ce = *p = &cache_entries[cache_size++]; ce->next = NULL; ce->x = x; ce->o = o;`
at the tail of chain `b`. The entry comes from zero-initialised static storage, so
its `value` is `0`. -/
def cache_alloc (c : Cache) (b x o : Nat) : Cache :=
  { cache := Function.update c.cache b (c.cache b ++ [{ x := x, o := o, value := 0 }]),
    cache_size := c.cache_size + 1 }

/-- Writing `value` into the entry at position `k` of a chain. -/
def chain_set_value (value : Int) : Nat → List CacheEntry → List CacheEntry
  | _, [] => []
  | 0, e :: rest => { e with value := value } :: rest
  | k + 1, e :: rest => e :: chain_set_value value k rest

/-- `ce->value = value`, where `ce` is the entry at position `k` of chain `b`. -/
def set_value (c : Cache) (b k : Nat) (value : Int) : Cache :=
  { cache := Function.update c.cache b (chain_set_value value k (c.cache b)),
    cache_size := c.cache_size }

/-! ## The solver -/

/-- The ways a run can stop without returning: the two assertions of `solve`
(`cache_size < MAXCACHE` and `value != -99`), an assertion of `do_move`, `undo_move`
or `is_winning_move`, and the recursion budget of the embedding. -/
inductive Abort where
  | cache_full
  | no_move
  | bad_move
  | out_of_fuel
deriving DecidableEq, Repr

/-- A cache hit: the queried pair and the entry the chain walk stopped at. -/
structure Hit where
  qx : Nat
  qo : Nat
  e : CacheEntry
deriving DecidableEq, Repr

/-- The hit is on an entry whose `x` and `o` both equal the query. -/
def Hit.exact (t : Hit) : Prop := t.e.x = t.qx ∧ t.e.o = t.qo

instance (t : Hit) : Decidable t.exact := by unfold Hit.exact; infer_instance

/-- What a call of `solve` leaves behind: the returned value, the cache and the
heights array `h`, which the call mutates in place. The last two fields are ghost
observations of the run, not program state: the cache hits in the order they
happened, and the nesting depth of the recursive calls below the call. -/
structure Outcome where
  value : Int
  c : Cache
  h : List Nat
  hits : List Hit
  depth : Nat

/-- The test `(nx&*w) == *w` for some `w` of row `f`, with `nx = x|BIT(f)`. -/
def completes (W : WinTable) (x f : Nat) : Bool :=
  (winrow W f).any (fun w => decide ((x ||| BIT f) &&& w = w))

/-- The loop "check for winning moves": does it reach `goto solved`? -/
def has_win (W : WinTable) (x : Nat) (h : List Nat) : Bool :=
  (List.range 9).any (fun n => decide (hget h n < 3) && completes W x (n + 9 * hget h n))

/-- The loop "solve recursively" over the columns `ns`, with `rec` the recursive
call; `s` holds the current `value`, cache and `h` (and the ghost fields). -/
def solve_loop (rec : Cache → Nat → Nat → List Nat → Int → Except Abort Outcome)
    (x o : Nat) (m : Int) : List Nat → Outcome → Except Abort Outcome
  | [], s => .ok s
  | n :: ns, s =>
    if hget s.h n < 3 then
      let f := n + 9 * hget s.h n
      match rec s.c o (x ||| BIT f) (s.h.set n (hget s.h n + 1)) (m + 1) with
      | .error e => .error e
      | .ok r =>
        let v := - r.value
        solve_loop rec x o m ns
          { value := if v > s.value then v else s.value,
            c := r.c,
            h := r.h.set n (hget r.h n - 1),
            hits := s.hits ++ r.hits,
            depth := max s.depth (r.depth + 1) }
    else solve_loop rec x o m ns s

/-- `solve`, with a bound on the depth of the recursion. -/
def solve_fuel (W : WinTable) :
    Nat → Cache → Nat → Nat → List Nat → Int → Except Abort Outcome
  | 0, _, _, _, _, _ => .error .out_of_fuel
  | fuel + 1, c, x, o, h, m =>
    match chain_walk x o (c.cache (bucket x o)) with
    | some e =>
      .ok { value := e.value, c := c, h := h, hits := [{ qx := x, qo := o, e := e }],
            depth := 0 }
    | none =>
      if ¬ (c.cache_size < MAXCACHE) then .error .cache_full
      else
        let k := (c.cache (bucket x o)).length
        let c1 := cache_alloc c (bucket x o) x o
        if m = 27 then .ok { value := 0, c := c1, h := h, hits := [], depth := 0 }
        else if has_win W x h then
          .ok { value := 27, c := set_value c1 (bucket x o) k 27, h := h, hits := [],
                depth := 0 }
        else
          match solve_loop (solve_fuel W fuel) x o m (List.range 9)
              { value := -99, c := c1, h := h, hits := [], depth := 0 } with
          | .error e => .error e
          | .ok r =>
            if r.value = -99 then .error .no_move
            else
              let value := if r.value < 0 then r.value + 1 else r.value
              let value := if value > 0 then value - 1 else value
              .ok { value := value, c := set_value r.c (bucket x o) k value, h := r.h,
                    hits := r.hits, depth := r.depth }

/-- `solve`: every recursive call sees one more height below 3 incremented, so 28
levels of recursion are always enough. -/
def solve (W : WinTable) (c : Cache) (x o : Nat) (h : List Nat) (m : Int) :
    Except Abort Outcome :=
  solve_fuel W 28 c x o h m

/-- `solve_board`; the heights of the board are the array `solve` works on. -/
def solve_board (W : WinTable) (c : Cache) (b : Board) : Except Abort (Int × Cache × Board) :=
  match solve W c (if b.m % 2 ≠ 0 then b.o else b.x) (if b.m % 2 ≠ 0 then b.x else b.o)
      b.h b.m with
  | .error e => .error e
  | .ok r => .ok (r.value, r.c, { b with h := r.h })

/-! ## Move selection -/

/-- The state of the loop of `pick_move`: the cache, the board, `best_v`, and the
first `n` entries of the arrays `best_i`, `best_j` as a list of pairs. -/
structure PickState where
  c : Cache
  b : Board
  best_v : Int
  best : List (Int × Int)

/-- The value `v` that the loop of `pick_move` computes for a valid column `(i, j)`:
`+27` for a winning move, otherwise `do_move; v = -solve_board(board); undo_move`.
It comes with the cache and the board the computation leaves behind. -/
def column_value (W : WinTable) (c : Cache) (b : Board) (i j : Int) :
    Except Abort (Int × Cache × Board) :=
  match is_winning_move W b i j with
  | none => .error .bad_move
  | some true => .ok (27, c, b)
  | some false =>
    match do_move b i j with
    | none => .error .bad_move
    | some b1 =>
      match solve_board W c b1 with
      | .error e => .error e
      | .ok (r, c1, b2) =>
        match undo_move b2 i j with
        | none => .error .bad_move
        | some b3 => .ok (- r, c1, b3)

/-- The body of the `REP(i, 3) REP(j, 3)` loop of `pick_move` for one `(i, j)`. -/
def pick_step (W : WinTable) (s : PickState) (i j : Int) : Except Abort PickState :=
  if is_valid_move s.b i j then
    match column_value W s.c s.b i j with
    | .error e => .error e
    | .ok (v, c1, b1) =>
      let best_v := if v > s.best_v then v else s.best_v
      let best := if v > s.best_v then [] else s.best
      .ok { c := c1, b := b1, best_v := best_v,
            best := if v ≥ best_v then best ++ [(i, j)] else best }
  else .ok s

/-- The loop of `pick_move` over the columns `cols`, in order. -/
def pick_loop (W : WinTable) : List (Int × Int) → PickState → Except Abort PickState
  | [], s => .ok s
  | (i, j) :: rest, s =>
    match pick_step W s i j with
    | .error e => .error e
    | .ok s1 => pick_loop W rest s1

/-- The columns in the order `REP(i, 3) REP(j, 3)` visits them. -/
def columns : List (Int × Int) :=
  [(0, 0), (0, 1), (0, 2), (1, 0), (1, 1), (1, 2), (2, 0), (2, 1), (2, 2)]

/-- `pick_move`, with `r` the value `rand()` returns: the result is `none` for
`return false` and the pair `(*i_out, *j_out)` for `return true`, together with the
cache and the board the call leaves behind. The `printf` calls are not modelled. -/
def pick_move (W : WinTable) (c : Cache) (b : Board) (r : Nat) :
    Except Abort (Option (Int × Int) × Cache × Board) :=
  match pick_loop W columns { c := c, b := b, best_v := -99, best := [] } with
  | .error e => .error e
  | .ok s =>
    if s.best.length = 0 then .ok (none, s.c, s.b)
    else .ok (some (s.best.getD (r % s.best.length) (0, 0)), s.c, s.b)

/-! ## Definitions used by the specification and the proofs -/

/-- The number of set bits of a 32-bit `int`. -/
def popcount (a : Nat) : Nat := (List.range 32).countP (fun n => a.testBit n)

/-- The invariant of the data model: nine heights in `0..3`, two disjoint 27-bit
masks, in every column exactly the lowest `h[col]` cells occupied, and
`m = popcount(x) + popcount(o)`. -/
def BoardInv (b : Board) : Prop :=
  b.h.length = 9 ∧ b.x < 2 ^ 27 ∧ b.o < 2 ^ 27 ∧ b.x &&& b.o = 0 ∧
  (∀ n < 9, hget b.h n ≤ 3) ∧
  (∀ n < 9, ∀ k < 3, (b.x ||| b.o).testBit (n + 9 * k) = decide (k < hget b.h n)) ∧
  b.m = ((popcount b.x + popcount b.o : Nat) : Int)

instance (b : Board) : Decidable (BoardInv b) := by unfold BoardInv; infer_instance

/-- The coordinate `i + n*(a-1)` lies in `0..2`. -/
def inb (i a : Fin 3) (n : Int) : Prop :=
  0 ≤ (i.val : Int) + n * ((a.val : Int) - 1) ∧ (i.val : Int) + n * ((a.val : Int) - 1) < 3

instance (i a : Fin 3) (n : Int) : Decidable (inb i a n) := by unfold inb; infer_instance

/-- The index `3i' + j' + 9k'` of the cell `p + n*d`, for `p = (i, j, k)` and the
direction `d = (a-1, b-1, c-1)`. -/
def cellAt (i j k a b c : Fin 3) (n : Int) : Nat :=
  (3 * ((i.val : Int) + n * ((a.val : Int) - 1)) + ((j.val : Int) + n * ((b.val : Int) - 1))
    + 9 * ((k.val : Int) + n * ((c.val : Int) - 1))).toNat

/-- The mask of the three cells `p`, `p + d`, `p + 2d`. -/
def lineMask (i j k a b c : Fin 3) : Nat :=
  BIT (cellAt i j k a b c 0) ||| BIT (cellAt i j k a b c 1) ||| BIT (cellAt i j k a b c 2)

/-- Spec: `w` is the mask of a 3-cell straight line of the cube: three in-bounds
cells `p`, `p + d`, `p + 2d` for a non-zero direction `d` in `{-1,0,1}^3`, written
`d = (a-1, b-1, c-1)`. -/
def IsCubeLine (w : Nat) : Prop :=
  ∃ i j k a b c : Fin 3, ¬ (a = 1 ∧ b = 1 ∧ c = 1) ∧
    inb i a 2 ∧ inb j b 2 ∧ inb k c 2 ∧ w = lineMask i j k a b c

/-- The masks of the lines of the cube, enumerated by start cell and direction (so
every line appears twice, once for each direction). -/
def cubeLineList : List Nat :=
  (List.finRange 3).flatMap fun i => (List.finRange 3).flatMap fun j =>
  (List.finRange 3).flatMap fun k => (List.finRange 3).flatMap fun a =>
  (List.finRange 3).flatMap fun b => (List.finRange 3).flatMap fun c =>
    if ¬ (a = 1 ∧ b = 1 ∧ c = 1) ∧ inb i a 2 ∧ inb j b 2 ∧ inb k c 2 then [lineMask i j k a b c]
    else []

/-- The value of `cubeLineList`, written out. -/
def cubeLineValues : List Nat :=
  [262657, 7, 1049601, 73, 16781313, 273, 67117057, 3584, 37376, 139776, 262657, 263172,
   1835008, 266304, 19136512, 270592, 71565312, 525314, 146, 33562626, 74752, 525314, 532608,
   38273024, 7, 263172, 1050628, 84, 16785412, 292, 67125252, 3584, 43008, 149504, 1049601,
   1835008, 1050628, 1056832, 22020096, 1065216, 76546048, 2101256, 56, 8396808, 28672,
   2101256, 2105376, 14680064, 4202512, 4202512, 56, 2105376, 8405024, 28672, 8396808,
   14680064, 8405024, 73, 266304, 84, 1056832, 16810048, 448, 67174464, 37376, 43008, 229376,
   16781313, 19136512, 16785412, 22020096, 16810048, 16843008, 117440512, 146, 532608,
   33620096, 74752, 33562626, 38273024, 33620096, 273, 270592, 292, 1065216, 448, 16843008,
   67240192, 139776, 149504, 229376, 67117057, 71565312, 67125252, 76546048, 67174464,
   117440512, 67240192]

/-- The value of `winlines`, written out: what `init_winlines` leaves in the table. -/
def winlinesValues : WinTable :=
  [[7, 73, 273, 262657, 1049601, 16781313, 67117057, 0, 0, 0, 0, 0, 0, 0, 0, 0],
   [7, 146, 525314, 33562626, 0, 0, 0, 0, 0, 0, 0, 0, 0, 0, 0, 0],
   [7, 84, 292, 263172, 1050628, 16785412, 67125252, 0, 0, 0, 0, 0, 0, 0, 0, 0],
   [56, 73, 2101256, 8396808, 0, 0, 0, 0, 0, 0, 0, 0, 0, 0, 0, 0],
   [56, 84, 146, 273, 4202512, 0, 0, 0, 0, 0, 0, 0, 0, 0, 0, 0],
   [56, 292, 2105376, 8405024, 0, 0, 0, 0, 0, 0, 0, 0, 0, 0, 0, 0],
   [73, 84, 448, 266304, 1056832, 16810048, 67174464, 0, 0, 0, 0, 0, 0, 0, 0, 0],
   [146, 448, 532608, 33620096, 0, 0, 0, 0, 0, 0, 0, 0, 0, 0, 0, 0],
   [273, 292, 448, 270592, 1065216, 16843008, 67240192, 0, 0, 0, 0, 0, 0, 0, 0, 0],
   [3584, 37376, 139776, 262657, 0, 0, 0, 0, 0, 0, 0, 0, 0, 0, 0, 0],
   [3584, 74752, 263172, 525314, 1049601, 0, 0, 0, 0, 0, 0, 0, 0, 0, 0, 0],
   [3584, 43008, 149504, 1050628, 0, 0, 0, 0, 0, 0, 0, 0, 0, 0, 0, 0],
   [28672, 37376, 266304, 2101256, 16781313, 0, 0, 0, 0, 0, 0, 0, 0, 0, 0, 0],
   [28672, 43008, 74752, 139776, 270592, 532608, 1056832, 2105376, 4202512, 8396808, 16785412, 33562626, 67117057, 0, 0, 0],
   [28672, 149504, 1065216, 8405024, 67125252, 0, 0, 0, 0, 0, 0, 0, 0, 0, 0, 0],
   [37376, 43008, 229376, 16810048, 0, 0, 0, 0, 0, 0, 0, 0, 0, 0, 0, 0],
   [74752, 229376, 16843008, 33620096, 67174464, 0, 0, 0, 0, 0, 0, 0, 0, 0, 0, 0],
   [139776, 149504, 229376, 67240192, 0, 0, 0, 0, 0, 0, 0, 0, 0, 0, 0, 0],
   [262657, 263172, 266304, 270592, 1835008, 19136512, 71565312, 0, 0, 0, 0, 0, 0, 0, 0, 0],
   [525314, 532608, 1835008, 38273024, 0, 0, 0, 0, 0, 0, 0, 0, 0, 0, 0, 0],
   [1049601, 1050628, 1056832, 1065216, 1835008, 22020096, 76546048, 0, 0, 0, 0, 0, 0, 0, 0, 0],
   [2101256, 2105376, 14680064, 19136512, 0, 0, 0, 0, 0, 0, 0, 0, 0, 0, 0, 0],
   [4202512, 14680064, 22020096, 38273024, 71565312, 0, 0, 0, 0, 0, 0, 0, 0, 0, 0, 0],
   [8396808, 8405024, 14680064, 76546048, 0, 0, 0, 0, 0, 0, 0, 0, 0, 0, 0, 0],
   [16781313, 16785412, 16810048, 16843008, 19136512, 22020096, 117440512, 0, 0, 0, 0, 0, 0, 0, 0, 0],
   [33562626, 33620096, 38273024, 117440512, 0, 0, 0, 0, 0, 0, 0, 0, 0, 0, 0, 0],
   [67117057, 67125252, 67174464, 67240192, 71565312, 76546048, 117440512, 0, 0, 0, 0, 0, 0, 0, 0, 0]]

/-- The number of lines of the cube through cell `f`: 13 through the centre of the
cube, 7 through a corner, 5 through the centre of a face and 4 through the middle
of an edge. -/
def lineCount (f : Nat) : Nat :=
  if f = 13 then 13
  else if f ∈ [0, 2, 6, 8, 18, 20, 24, 26] then 7
  else if f ∈ [4, 10, 12, 14, 16, 22] then 5
  else 4

/-- The mask of the player to move: `(board->m)&1 ? board->o : board->x`. -/
def Board.mover (b : Board) : Nat := if b.m % 2 ≠ 0 then b.o else b.x

/-- A board after six moves in which the player to move owns the cells 0, 1 and
13, the other player the cells 4, 8 and 17. -/
def diagBoard : Board :=
  { x := BIT 0 ||| BIT 1 ||| BIT 13, o := BIT 4 ||| BIT 8 ||| BIT 17,
    h := [1, 1, 0, 0, 2, 0, 0, 0, 2], m := 6 }

/-- Every chain of `c` is an initial segment of the same chain of `c'`, entries
unchanged. -/
def Extends (c c' : Cache) : Prop := ∀ b, ∃ suf, c'.cache b = c.cache b ++ suf

/-- The number of pieces that still fit on the board. -/
def slack (h : List Nat) : Nat := ((List.range 9).map (fun n => 3 - hget h n)).sum

/-- The position with the mover on cells 1, 4, 5, 6, 8, 12, 19 and the opponent on
cells 0, 2, 3, 7, 10, 14, 23, after 14 moves. -/
def posA : Board := { x := 528754, o := 8406157, h := [1, 3, 1, 2, 1, 3, 1, 1, 1], m := 14 }

/-- The position with the mover on cells 1, 4, 5, 6, 12, 15, 16 and the same
opponent cells as `posA`, after 14 moves. -/
def posB : Board := { x := 102514, o := 8406157, h := [1, 2, 1, 2, 1, 3, 2, 2, 0], m := 14 }

/-- The value and the cache hits of a run, when it returns. -/
def observe (r : Except Abort Outcome) : Option (Int × List Hit) :=
  match r with
  | .ok r => some (r.value, r.hits)
  | .error _ => none

/-- The cache states that a sequence of top-level calls of `solve` (each of which
returns) leads to from a given one. -/
inductive SolveCalls (W : WinTable) : Cache → Cache → Prop where
  | done (c : Cache) : SolveCalls W c c
  | call {c c' : Cache} {x o : Nat} {h : List Nat} {m : Int} {r : Outcome} :
      solve W c x o h m = .ok r → SolveCalls W r.c c' → SolveCalls W c c'

/-- Spec: the cell `f` and two cells of the mask `x` form a 3-cell straight line of
the cube. -/
def CompletesLine (x f : Nat) : Prop :=
  ∃ a c, x.testBit a = true ∧ x.testBit c = true ∧ IsCubeLine (BIT a ||| BIT c ||| BIT f)

/-- Spec: some non-full column's landing cell completes a win line for the mover. -/
def Wins (x : Nat) (h : List Nat) : Prop :=
  ∃ n < 9, hget h n < 3 ∧ CompletesLine x (n + 9 * hget h n)

/-- Spec: a non-zero value moves one step toward 0, and 0 stays. -/
def adj (v : Int) : Int := if v < 0 then v + 1 else if v > 0 then v - 1 else v

/-- The maximum of a list of values (0 for the empty list, which does not occur
below: a position with `m < 27` has a non-full column). -/
def maxValue : List Int → Int
  | [] => 0
  | a :: rest => rest.foldl max a

/-- The columns that are not full, in increasing order. -/
def openColumns (h : List Nat) : List Nat := (List.range 9).filter (fun n => hget h n < 3)

/-- Every value stored in the cache lies in `[-27, 27]`. -/
def InRange (c : Cache) : Prop := ∀ b, ∀ e ∈ c.cache b, -27 ≤ e.value ∧ e.value ≤ 27

/-- A position as `solve` is given it in a game: it satisfies the invariant, and
since the players alternate the opponent of the mover has as many pieces as the
mover or one more. -/
def GamePos (x o : Nat) (h : List Nat) (m : Int) : Prop :=
  BoardInv { x := x, o := o, h := h, m := m } ∧
    (popcount o = popcount x ∨ popcount o = popcount x + 1)

instance (x o : Nat) (h : List Nat) (m : Int) : Decidable (GamePos x o h m) := by
  unfold GamePos; infer_instance

/-- The entry `e` of chain `b` is keyed by the masks of a position of the game, lies
in the chain of its bucket, and holds 0 if its board is full. -/
def KeyOK (b : Nat) (e : CacheEntry) : Prop :=
  bucket e.x e.o = b ∧ e.x < 2 ^ 27 ∧ e.o < 2 ^ 27 ∧ e.x &&& e.o = 0 ∧
    (popcount e.o = popcount e.x ∨ popcount e.o = popcount e.x + 1) ∧
    (popcount e.x + popcount e.o = 27 → e.value = 0)

/-- Every entry of the cache satisfies `KeyOK`. -/
def KeysOK (c : Cache) : Prop := ∀ b, ∀ e ∈ c.cache b, KeyOK b e

/-- The caches that top-level calls of `solve` on positions of the game build from
the empty cache. -/
inductive Played (W : WinTable) : Cache → Prop where
  | empty : Played W emptyCache
  | call {c : Cache} {x o : Nat} {h : List Nat} {m : Int} {r : Outcome} :
      Played W c → GamePos x o h m → solve W c x o h m = .ok r → Played W r.c

/-- A full board of the game: the mover on the cells 0..12, the opponent on the
cells 13..26. -/
def fullBoard : Board :=
  { x := 8191, o := 134209536, h := [3, 3, 3, 3, 3, 3, 3, 3, 3], m := 27 }

/-- Spec: the legal columns of `cols` on the board `b`, in order, each with its value
`column_value`, the cache being handed from one column to the next. -/
def scores (W : WinTable) (b : Board) :
    List (Int × Int) → Cache → Except Abort (List ((Int × Int) × Int) × Cache)
  | [], c => .ok ([], c)
  | (i, j) :: rest, c =>
    if is_valid_move b i j then
      match column_value W c b i j with
      | .error e => .error e
      | .ok (v, c1, _) =>
        match scores W b rest c1 with
        | .error e => .error e
        | .ok (vs, c2) => .ok (((i, j), v) :: vs, c2)
    else scores W b rest c

/-- Spec: the columns whose value is the maximum of the values, in order. -/
def bestColumns (vs : List ((Int × Int) × Int)) : List (Int × Int) :=
  (vs.filter (fun p => decide (p.2 = maxValue (vs.map (fun q => q.2))))).map (fun p => p.1)

/-- Spec: the column `best[r mod n]`, or nothing when there is no column. -/
def choose (vs : List ((Int × Int) × Int)) (r : Nat) : Option (Int × Int) :=
  if (bestColumns vs).length = 0 then none
  else some ((bestColumns vs).getD (r % (bestColumns vs).length) (0, 0))

/-- The update of `best_v` and of the list of best columns by one scored column. -/
def track_step (t : Int × List (Int × Int)) (p : (Int × Int) × Int) : Int × List (Int × Int) :=
  let best_v := if p.2 > t.1 then p.2 else t.1
  let best := if p.2 > t.1 then [] else t.2
  (best_v, if p.2 ≥ best_v then best ++ [p.1] else best)

/-- The column a run of `pick_move` reports, when it returns. -/
def picked (r : Except Abort (Option (Int × Int) × Cache × Board)) : Option (Option (Int × Int)) :=
  match r with
  | .ok (col, _, _) => some col
  | .error _ => none

/-- The board `do_move` produces on column `n = 3i + j`: the bit `n + 9*h[n]` set in
`x` when `m` is even and in `o` when `m` is odd, `h[n]` and `m` incremented. -/
def moved (b : Board) (n : Nat) : Board :=
  if b.m % 2 = 0 then
    { x := b.x ||| BIT (n + 9 * hget b.h n), o := b.o, h := b.h.set n (hget b.h n + 1),
      m := b.m + 1 }
  else
    { x := b.x, o := b.o ||| BIT (n + 9 * hget b.h n), h := b.h.set n (hget b.h n + 1),
      m := b.m + 1 }

/-- The boards reached from the empty board by `do_move` on valid columns and by
`undo_move` of the most recent move that is not yet undone; the list holds the
moves that are not yet undone, the most recent first. -/
inductive Reach : Board → List (Int × Int) → Prop where
  | start : Reach emptyBoard []
  | move {b b1 : Board} {st : List (Int × Int)} {i j : Int} :
      Reach b st → is_valid_move b i j = true → do_move b i j = some b1 →
      Reach b1 ((i, j) :: st)
  | undo {b b1 : Board} {st : List (Int × Int)} {i j : Int} :
      Reach b ((i, j) :: st) → undo_move b i j = some b1 → Reach b1 st

/-- The board is the empty board with the moves of the list played on it, each on a
column valid at its time. -/
def Hist : Board → List (Int × Int) → Prop
  | b, [] => b = emptyBoard
  | b, (i, j) :: st => ∃ b0, Hist b0 st ∧ is_valid_move b0 i j = true ∧ do_move b0 i j = some b

/-- The sum of the nine heights. -/
def heightSum (h : List Nat) : Nat := ((List.range 9).map (fun n => hget h n)).sum

/-- The part of the invariant that `solve` relies on for its arguments `h` and `m`:
nine heights in `0..3` and `m` equal to their sum. -/
def HeightInv (h : List Nat) (m : Int) : Prop :=
  h.length = 9 ∧ (∀ n < 9, hget h n ≤ 3) ∧ m = ((heightSum h : Nat) : Int)

instance (h : List Nat) (m : Int) : Decidable (HeightInv h m) := by
  unfold HeightInv; infer_instance

/-- The nesting depth of the recursive calls below a run, when it returns. -/
def depthOf (r : Except Abort Outcome) : Option Nat :=
  match r with
  | .ok r => some r.depth
  | .error _ => none

/-- A value is `0`, a positive odd number up to 27, or a negative even number down
to `-26`. -/
def SignParity (v : Int) : Prop :=
  v = 0 ∨ (0 < v ∧ v ≤ 27 ∧ v % 2 = 1) ∨ (-26 ≤ v ∧ v < 0 ∧ v % 2 = 0)

instance (v : Int) : Decidable (SignParity v) := by unfold SignParity; infer_instance

/-- Every value stored in the cache has the sign and parity of `SignParity`. -/
def ParityOK (c : Cache) : Prop := ∀ b, ∀ e ∈ c.cache b, SignParity e.value

/-- The cache a run leaves behind; the cache is not looked at after a run that
stops, for which this is the empty cache. -/
def cacheOf (r : Except Abort Outcome) : Cache :=
  match r with
  | .ok r => r.c
  | .error _ => emptyCache

/-- The pair `(x, o)` of an entry. -/
def keyOf (e : CacheEntry) : Nat × Nat := (e.x, e.o)

/-- The list `es` holds the pairs `(x, o)` of the allocated entries
`cache_entries[0 .. cache_size)` in the order of their allocation: no pair occurs
twice, there are `cache_size` of them, and the chain of every bucket links exactly
the entries of `es` whose pair hashes to that bucket, in that order. -/
def EntriesOf (c : Cache) (es : List (Nat × Nat)) : Prop :=
  es.Nodup ∧ es.length = c.cache_size ∧
  ∀ b, (c.cache b).map keyOf = es.filter (fun p => decide (bucket p.1 p.2 = b))

/-- The board a run of `pick_move` leaves behind, when it returns. -/
def boardOf (r : Except Abort (Option (Int × Int) × Cache × Board)) : Option Board :=
  match r with
  | .ok (_, _, b) => some b
  | .error _ => none

/-! # Theorems -/

/-! ## Bit lemmas -/

theorem BIT_eq (f : Nat) : BIT f = 2 ^ f := by
  simp [BIT, Nat.shiftLeft_eq]

theorem testBit_BIT (f i : Nat) : (BIT f).testBit i = decide (f = i) := by
  rw [BIT_eq]; exact Nat.testBit_two_pow

theorem and_BIT_of_not {a f : Nat} (h : a.testBit f = false) : a &&& BIT f = 0 := by
  apply Nat.eq_of_testBit_eq
  intro i
  simp only [Nat.testBit_and, testBit_BIT, Nat.zero_testBit]
  by_cases hfi : f = i
  · subst hfi; simp [h]
  · simp [hfi]

theorem and_BIT_of_mem {a f : Nat} (h : a.testBit f = true) : a &&& BIT f = BIT f := by
  apply Nat.eq_of_testBit_eq
  intro i
  simp only [Nat.testBit_and, testBit_BIT]
  by_cases hfi : f = i
  · subst hfi; simp [h]
  · simp [hfi]

theorem BIT_ne_zero (f : Nat) : BIT f ≠ 0 := by
  rw [BIT_eq]; positivity

theorem testBit_NOT32 (a i : Nat) :
    (NOT32 a).testBit i = (decide (i < 32) && !(a % 2 ^ 32).testBit i) := by
  unfold NOT32
  have h : a % 2 ^ 32 < 2 ^ 32 := Nat.mod_lt _ (by positivity)
  have := Nat.testBit_two_pow_sub_succ h i
  rw [← this]
  congr 1
  omega

theorem testBit_of_lt {a n i : Nat} (h : a < 2 ^ n) (hi : n ≤ i) : a.testBit i = false :=
  Nat.testBit_lt_two_pow (lt_of_lt_of_le h (Nat.pow_le_pow_right (by decide) hi))

theorem or_BIT_and_NOT32 {a f : Nat} (ha : a < 2 ^ 32) (hf : f < 32)
    (h : a.testBit f = false) : (a ||| BIT f) &&& NOT32 (BIT f) = a := by
  apply Nat.eq_of_testBit_eq
  intro i
  have hb : BIT f % 2 ^ 32 = BIT f := by
    apply Nat.mod_eq_of_lt
    rw [BIT_eq]; exact Nat.pow_lt_pow_right (by decide) hf
  simp only [Nat.testBit_and, Nat.testBit_or, testBit_NOT32, hb, testBit_BIT]
  by_cases hfi : f = i
  · subst hfi; simp [h]
  · by_cases hi : i < 32
    · simp [hfi, hi]
    · simp [hfi, hi, testBit_of_lt ha (Nat.le_of_not_lt hi)]

/-! ## Heights -/

theorem hget_set_self {h : List Nat} {n : Nat} (hn : n < h.length) (v : Nat) :
    hget (h.set n v) n = v := by
  simp [hget, List.getD_eq_getElem?_getD, hn]

theorem hget_set_ne {h : List Nat} {n k : Nat} (hk : n ≠ k) (v : Nat) :
    hget (h.set n v) k = hget h k := by
  simp [hget, List.getD_eq_getElem?_getD, List.getElem?_set_ne hk]

theorem set_hget_self (h : List Nat) (n : Nat) : h.set n (hget h n) = h := by
  apply List.ext_getElem?
  intro k
  by_cases hk : n = k
  · subst hk
    by_cases hn : n < h.length
    · simp [hget, List.getD_eq_getElem?_getD, hn]
    · rw [List.set_eq_of_length_le (Nat.le_of_not_lt hn)]
  · simp [List.getElem?_set_ne hk]

theorem set_set_back (h : List Nat) (n v : Nat) : (h.set n v).set n (hget h n) = h := by
  rw [List.set_set]; exact set_hget_self h n

/-! ## Moves -/

theorem valid_bounds {b : Board} {i j : Int} (hv : is_valid_move b i j = true) :
    0 ≤ i ∧ i < 3 ∧ 0 ≤ j ∧ j < 3 ∧ hget b.h (3 * i + j).toNat < 3 := by
  simpa [is_valid_move, and_assoc] using hv

theorem OCC_toNat {i j : Int} (hi : 0 ≤ i) (hj : 0 ≤ j) (k : Nat) :
    OCC i.toNat j.toNat k = BIT ((3 * i + j).toNat + 9 * k) := by
  unfold OCC FLD
  congr 1
  omega

/-- What `do_move` does on a board that satisfies the invariant, and that `undo_move`
takes it back. -/
theorem do_move_spec (b : Board) (i j : Int) (hb : BoardInv b)
    (hv : is_valid_move b i j = true) :
    ∃ b1, do_move b i j = some b1 ∧ undo_move b1 i j = some b ∧
      b1 = (if b.m % 2 = 0 then
              { x := b.x ||| BIT ((3 * i + j).toNat + 9 * hget b.h (3 * i + j).toNat), o := b.o,
                h := b.h.set (3 * i + j).toNat (hget b.h (3 * i + j).toNat + 1), m := b.m + 1 }
            else
              { x := b.x, o := b.o ||| BIT ((3 * i + j).toNat + 9 * hget b.h (3 * i + j).toNat),
                h := b.h.set (3 * i + j).toNat (hget b.h (3 * i + j).toNat + 1),
                m := b.m + 1 }) := by
  obtain ⟨hlen, hx, ho, hdisj, hle, hgrav, hm⟩ := hb
  obtain ⟨hi0, hi3, hj0, hj3, hh⟩ := valid_bounds hv
  have hn : (3 * i + j).toNat < 9 := by omega
  set n := (3 * i + j).toNat with hn_def
  set k := hget b.h n with hk_def
  have hfree : (b.x ||| b.o).testBit (n + 9 * k) = false := by
    rw [hgrav n hn k hh]; simp
  rw [Nat.testBit_or, Bool.or_eq_false_iff] at hfree
  have hf32 : n + 9 * k < 32 := by omega
  have hx32 : b.x < 2 ^ 32 := lt_trans hx (by norm_num)
  have ho32 : b.o < 2 ^ 32 := lt_trans ho (by norm_num)
  have hnl : n < b.h.length := by omega
  have hocc : OCC i.toNat j.toNat k = BIT (n + 9 * k) := OCC_toNat hi0 hj0 k
  have hor : ∀ a : Nat, (a ||| BIT (n + 9 * k)) &&& BIT (n + 9 * k) ≠ 0 := by
    intro a
    rw [and_BIT_of_mem (by simp [Nat.testBit_or, testBit_BIT])]
    exact BIT_ne_zero _
  by_cases hodd : b.m % 2 = 0
  · have hodd1 : ¬ ((b.m + 1 - 1) % 2 ≠ 0) := by simp [hodd]
    refine ⟨{ x := b.x ||| BIT (n + 9 * k), o := b.o, h := b.h.set n (k + 1), m := b.m + 1 },
      ?_, ?_, ?_⟩
    · simp [do_move, hv, hodd, ← hn_def, ← hk_def, hocc, and_BIT_of_not hfree.1]
    · simp only [undo_move, ← hn_def, hget_set_self hnl]
      simp [hodd, hocc, hor, or_BIT_and_NOT32 hx32 hf32 hfree.1, List.set_set, hk_def,
        set_hget_self]
    · rw [if_pos hodd]
  · have hodd1 : (b.m + 1 - 1) % 2 ≠ 0 := by simpa using hodd
    refine ⟨{ x := b.x, o := b.o ||| BIT (n + 9 * k), h := b.h.set n (k + 1), m := b.m + 1 },
      ?_, ?_, ?_⟩
    · simp [do_move, hv, hodd, ← hn_def, ← hk_def, hocc, and_BIT_of_not hfree.2]
    · simp only [undo_move, ← hn_def, hget_set_self hnl]
      simp [hodd, hocc, hor, or_BIT_and_NOT32 ho32 hf32 hfree.2, List.set_set, hk_def,
        set_hget_self]
    · rw [if_neg hodd]

/-- C4: for every board satisfying the data-model invariant and every column
`(i, j)` that `is_valid_move` accepts, `do_move` succeeds and `undo_move` on its
result gives back exactly the board before the move (`x`, `o`, all heights and `m`). -/
theorem do_move_undo_move (b : Board) (i j : Int) (hb : BoardInv b)
    (hv : is_valid_move b i j = true) :
    ∃ b1, do_move b i j = some b1 ∧ undo_move b1 i j = some b := by
  obtain ⟨b1, h1, h2, _⟩ := do_move_spec b i j hb hv
  exact ⟨b1, h1, h2⟩

theorem do_move_undo_move_witness :
    BoardInv emptyBoard ∧ is_valid_move emptyBoard 1 2 = true ∧
      ∃ b1, do_move emptyBoard 1 2 = some b1 ∧ undo_move b1 1 2 = some emptyBoard :=
  ⟨by decide, by decide, do_move_undo_move emptyBoard 1 2 (by decide) (by decide)⟩

/-! ## The table computed by `init_winlines` -/

theorem mem_cubeLineList (w : Nat) : w ∈ cubeLineList ↔ IsCubeLine w := by
  simp only [cubeLineList, IsCubeLine, List.mem_flatMap, List.mem_finRange, true_and]
  constructor
  · rintro ⟨i, j, k, a, b, c, h⟩
    split at h
    · next hc =>
      simp only [List.mem_singleton] at h
      exact ⟨i, j, k, a, b, c, hc.1, hc.2.1, hc.2.2.1, hc.2.2.2, h⟩
    · simp at h
  · rintro ⟨i, j, k, a, b, c, h1, h2, h3, h4, h5⟩
    refine ⟨i, j, k, a, b, c, ?_⟩
    rw [if_pos ⟨h1, h2, h3, h4⟩]
    simp [h5]

theorem cubeLineList_eq : cubeLineList = cubeLineValues := by decide!

theorem isCubeLine_iff (w : Nat) : IsCubeLine w ↔ w ∈ cubeLineValues := by
  rw [← cubeLineList_eq, mem_cubeLineList]

theorem init_winlines_values : init_winlines winlines0 = some winlinesValues := by decide!

theorem winlines_eq : winlines = winlinesValues := by
  unfold winlines
  rw [init_winlines_values]
  rfl

theorem init_winlines_eq : init_winlines winlines0 = some winlines := by
  rw [winlines_eq]; exact init_winlines_values

theorem winrow_sound : ∀ f ∈ List.range 27, ∀ w ∈ winrow winlines f,
    IsCubeLine w ∧ w.testBit f = true ∧ popcount w = 3 := by
  have h : ∀ f ∈ List.range 27, ∀ w ∈ winrow winlinesValues f,
      w ∈ cubeLineValues ∧ w.testBit f = true ∧ popcount w = 3 := by decide!
  intro f hf w hw
  rw [winlines_eq] at hw
  rw [isCubeLine_iff]
  exact h f hf w hw

theorem cubeLine_lt : ∀ w ∈ cubeLineValues, w < 2 ^ 27 := by decide!

theorem IsCubeLine.lt {w : Nat} (hw : IsCubeLine w) : w < 2 ^ 27 :=
  cubeLine_lt w ((isCubeLine_iff w).mp hw)

theorem IsCubeLine.cell_lt {w a : Nat} (hw : IsCubeLine w) (ha : w.testBit a = true) :
    a < 27 := by
  by_contra hge
  rw [testBit_of_lt hw.lt (Nat.le_of_not_lt hge)] at ha
  exact Bool.false_ne_true ha

theorem winrow_complete {w f : Nat} (hw : IsCubeLine w) (hf : w.testBit f = true) :
    w ∈ winrow winlines f := by
  have h : ∀ w ∈ cubeLineValues, ∀ f ∈ List.range 27, w.testBit f = true →
      w ∈ winrow winlinesValues f := by decide!
  rw [winlines_eq]
  exact h w ((isCubeLine_iff w).mp hw) f (List.mem_range.mpr (hw.cell_lt hf)) hf

theorem winrow_nodup : ∀ f ∈ List.range 27, (winrow winlines f).Nodup := by
  rw [winlines_eq]; decide!

theorem winrow_terminated : ∀ f ∈ List.range 27,
    (winlines.getD f []).length = 16 ∧ (winrow winlines f).length < 16 ∧
      (winlines.getD f []).getD (winrow winlines f).length 1 = 0 := by
  rw [winlines_eq]; decide!

theorem cells_distinct : ∀ i j k a b c : Fin 3, ¬ (a = 1 ∧ b = 1 ∧ c = 1) →
    inb i a 2 → inb j b 2 → inb k c 2 →
    cellAt i j k a b c 0 ≠ cellAt i j k a b c 1 ∧ cellAt i j k a b c 0 ≠ cellAt i j k a b c 2 ∧
      cellAt i j k a b c 1 ≠ cellAt i j k a b c 2 := by decide!

theorem lor_rot (a b c : Nat) : a ||| b ||| c = b ||| c ||| a := by
  apply Nat.eq_of_testBit_eq
  intro i
  simp only [Nat.testBit_or]
  cases a.testBit i <;> cases b.testBit i <;> cases c.testBit i <;> rfl

theorem lor_swap (a b c : Nat) : a ||| b ||| c = a ||| c ||| b := by
  apply Nat.eq_of_testBit_eq
  intro i
  simp only [Nat.testBit_or]
  cases a.testBit i <;> cases b.testBit i <;> cases c.testBit i <;> rfl

/-- A line through `f` is `f` and two other cells. -/
theorem IsCubeLine.split {w f : Nat} (hw : IsCubeLine w) (hf : w.testBit f = true) :
    ∃ a c, a ≠ c ∧ a ≠ f ∧ c ≠ f ∧ w = BIT a ||| BIT c ||| BIT f := by
  obtain ⟨i, j, k, a, b, c, hd, hi, hj, hk, rfl⟩ := hw
  obtain ⟨h01, h02, h12⟩ := cells_distinct i j k a b c hd hi hj hk
  simp only [lineMask, Nat.testBit_or, testBit_BIT, Bool.or_eq_true, decide_eq_true_eq] at hf
  unfold lineMask
  rcases hf with (hf | hf) | hf
  · refine ⟨_, _, h12, ?_, ?_, ?_⟩
    · rw [← hf]; exact Ne.symm h01
    · rw [← hf]; exact Ne.symm h02
    · rw [← hf]; exact lor_rot _ _ _
  · refine ⟨_, _, h02, ?_, ?_, ?_⟩
    · rw [← hf]; exact h01
    · rw [← hf]; exact Ne.symm h12
    · rw [← hf]; exact lor_swap _ _ _
  · exact ⟨_, _, h01, by rw [← hf]; exact h02, by rw [← hf]; exact h12, by rw [← hf]⟩

theorem winrow_counts :
    (List.range 27).map (fun f => (winrow winlines f).length) =
      [7, 4, 7, 4, 5, 4, 7, 4, 7, 4, 5, 4, 5, 13, 5, 4, 5, 4, 7, 4, 7, 4, 5, 4, 7, 4, 7] := by
  rw [winlines_eq]; decide!

theorem winrow_of_ge {f : Nat} (hf : 27 ≤ f) : winrow winlines f = [] := by
  have hl : winlines.length = 27 := by rw [winlines_eq]; decide
  simp [winrow, List.getD_eq_getElem?_getD, List.getElem?_eq_none (hl ▸ hf)]

theorem mem_winrow_iff (f w : Nat) :
    w ∈ winrow winlines f ↔ IsCubeLine w ∧ w.testBit f = true := by
  constructor
  · intro h
    by_cases hf : f < 27
    · have := winrow_sound f (List.mem_range.mpr hf) w h
      exact ⟨this.1, this.2.1⟩
    · rw [winrow_of_ge (Nat.le_of_not_lt hf)] at h; simp at h
  · rintro ⟨h1, h2⟩; exact winrow_complete h1 h2

/-! ## The claims on the table and on `is_winning_move` -/

/-- C5: `init_winlines` succeeds on the zero-initialised table, and in the table
it produces every row `f` in `0..26` is zero-terminated within its 16 entries, lists
no mask twice, lists exactly the masks of the 3-cell straight lines of the cube that
contain `f`, and every listed mask has exactly three bits set, bit `f` among them. -/
theorem init_winlines_correct :
    ∃ W, init_winlines winlines0 = some W ∧ ∀ f < 27,
      ((W.getD f []).length = 16 ∧ (winrow W f).length < 16 ∧
        (W.getD f []).getD (winrow W f).length 1 = 0) ∧
      (winrow W f).Nodup ∧
      (∀ w, w ∈ winrow W f ↔ IsCubeLine w ∧ w.testBit f = true) ∧
      (∀ w ∈ winrow W f, popcount w = 3 ∧ w.testBit f = true) := by
  refine ⟨winlines, init_winlines_eq, ?_⟩
  intro f hf
  have hm := List.mem_range.mpr hf
  refine ⟨winrow_terminated f hm, winrow_nodup f hm, fun w => mem_winrow_iff f w, ?_⟩
  intro w hw
  have := winrow_sound f hm w hw
  exact ⟨this.2.2, this.2.1⟩

/-- C6 (as stated, refuted): `init_winlines` leaves 7 masks, not 13, in the row of
cell `0`, a corner of the cube. -/
theorem winlines_count_corner :
    init_winlines winlines0 = some winlines ∧ (winrow winlines 0).length = 7 ∧
      (winrow winlines 0).length ≠ 13 :=
  ⟨init_winlines_eq, by rw [winlines_eq]; decide, by rw [winlines_eq]; decide⟩

/-- C6 (amended): after `init_winlines` the number of masks stored in row `f` before
the terminator is 13 for the centre cell of the cube, 7 for the eight corners, 5
for the six face centres and 4 for the twelve edge cells; so it is at most 13, and
13 only for the centre. -/
theorem winlines_count :
    ∃ W, init_winlines winlines0 = some W ∧ ∀ f < 27,
      (winrow W f).length = lineCount f ∧ (winrow W f).length ≤ 13 ∧
      ((winrow W f).length = 13 ↔ f = 13) := by
  refine ⟨winlines, init_winlines_eq, ?_⟩
  have h : ∀ f ∈ List.range 27, (winrow winlines f).length = lineCount f ∧
      (winrow winlines f).length ≤ 13 ∧ ((winrow winlines f).length = 13 ↔ f = 13) := by
    rw [winlines_eq]; decide!
  intro f hf
  exact h f (List.mem_range.mpr hf)

theorem completes_iff (x f : Nat) :
    completes winlines x f = true ↔
      ∃ a c, x.testBit a = true ∧ x.testBit c = true ∧ IsCubeLine (BIT a ||| BIT c ||| BIT f) := by
  simp only [completes, List.any_eq_true, decide_eq_true_eq]
  constructor
  · rintro ⟨w, hw, he⟩
    have hf : f < 27 := by
      by_contra hge
      rw [winrow_of_ge (Nat.le_of_not_lt hge)] at hw; simp at hw
    have hcl := ((mem_winrow_iff f w).mp hw).1
    obtain ⟨a, c, hac, haf, hcf, rfl⟩ := hcl.split ((mem_winrow_iff f w).mp hw).2
    have ha := congrArg (fun t => Nat.testBit t a) he
    have hc := congrArg (fun t => Nat.testBit t c) he
    simp only [Nat.testBit_and, Nat.testBit_or, testBit_BIT] at ha hc
    refine ⟨a, c, ?_, ?_, hcl⟩
    · simpa [haf, Ne.symm haf] using ha
    · simpa [hcf, Ne.symm hcf] using hc
  · rintro ⟨a, c, ha, hc, hcl⟩
    refine ⟨BIT a ||| BIT c ||| BIT f, ?_, ?_⟩
    · exact winrow_complete hcl (by simp [Nat.testBit_or, testBit_BIT])
    · apply Nat.eq_of_testBit_eq
      intro i
      simp only [Nat.testBit_and, Nat.testBit_or, testBit_BIT]
      by_cases hai : a = i
      · subst hai; simp [ha]
      · by_cases hci : c = i
        · subst hci; simp [hc]
        · simp only [hai, hci, decide_False, Bool.false_or, Bool.or_false]
          by_cases hfi : f = i <;> simp [hfi]

/-- C7: on a column `(i, j)` that `is_valid_move` accepts, `is_winning_move` (with
the table of `init_winlines`) returns true exactly when the landing cell
`f = 3i + j + 9*h[3i+j]` and two cells `a`, `c` of the mask of the player to move
form a 3-cell straight line of the cube; the other player's mask plays no part. In
particular it returns true on column `(2, 2)` at height 2 when the player to move
owns the cells `(0,0,0)` and `(1,1,1)`. -/
theorem is_winning_move_iff :
    (∀ (b : Board) (i j : Int), is_valid_move b i j = true →
      ∃ r, is_winning_move winlines b i j = some r ∧
        (r = true ↔ ∃ a c, b.mover.testBit a = true ∧ b.mover.testBit c = true ∧
          IsCubeLine (BIT a ||| BIT c |||
            BIT (FLD i.toNat j.toNat (hget b.h (3 * i + j).toNat))))) ∧
    (∀ b : Board, is_valid_move b 2 2 = true → hget b.h 8 = 2 →
      b.mover.testBit (FLD 0 0 0) = true → b.mover.testBit (FLD 1 1 1) = true →
      is_winning_move winlines b 2 2 = some true) := by
  have key : ∀ (b : Board) (i j : Int), is_valid_move b i j = true →
      is_winning_move winlines b i j =
        some (completes winlines b.mover (FLD i.toNat j.toNat (hget b.h (3 * i + j).toNat))) := by
    intro b i j hv
    simp [is_winning_move, hv, completes, Board.mover]
  refine ⟨fun b i j hv => ⟨_, key b i j hv, completes_iff _ _⟩, ?_⟩
  intro b hv h8 h0 h13
  rw [key b 2 2 hv]
  congr 1
  rw [completes_iff]
  refine ⟨FLD 0 0 0, FLD 1 1 1, h0, h13, ?_⟩
  have e : (3 * (2 : Int) + 2).toNat = 8 := by decide
  rw [e, h8, isCubeLine_iff]
  decide

theorem is_winning_move_iff_witness :
    BoardInv diagBoard ∧ is_valid_move diagBoard 2 2 = true ∧
      is_winning_move winlines diagBoard 2 2 = some true :=
  ⟨by decide, by decide,
    is_winning_move_iff.2 diagBoard (by decide) (by decide) (by decide) (by decide)⟩

/-! ## Chains and caches -/

theorem Extends.same (c : Cache) : Extends c c := fun _ => ⟨[], by simp⟩

theorem Extends.chain {c1 c2 c3 : Cache} (h12 : Extends c1 c2) (h23 : Extends c2 c3) :
    Extends c1 c3 := by
  intro b
  obtain ⟨s1, h1⟩ := h12 b
  obtain ⟨s2, h2⟩ := h23 b
  exact ⟨s1 ++ s2, by rw [h2, h1, List.append_assoc]⟩

theorem cache_alloc_same (c : Cache) (b x o : Nat) :
    (cache_alloc c b x o).cache b = c.cache b ++ [{ x := x, o := o, value := 0 }] := by
  simp [cache_alloc]

theorem cache_alloc_other (c : Cache) {b b' : Nat} (x o : Nat) (hb : b' ≠ b) :
    (cache_alloc c b x o).cache b' = c.cache b' := by
  simp [cache_alloc, Function.update_noteq hb]

theorem extends_alloc (c : Cache) (b x o : Nat) : Extends c (cache_alloc c b x o) := by
  intro b'
  by_cases hb : b' = b
  · subst hb; exact ⟨_, cache_alloc_same c b' x o⟩
  · exact ⟨[], by simp [cache_alloc_other c x o hb]⟩

theorem chain_set_value_append (v : Int) (l : List CacheEntry) (e : CacheEntry)
    (s : List CacheEntry) :
    chain_set_value v l.length (l ++ e :: s) = l ++ { e with value := v } :: s := by
  induction l with
  | nil => simp [chain_set_value]
  | cons a l ih => simp [chain_set_value, ih]

theorem set_value_same (c : Cache) (b k : Nat) (v : Int) :
    (set_value c b k v).cache b = chain_set_value v k (c.cache b) := by
  simp [set_value]

theorem set_value_other (c : Cache) {b b' : Nat} (k : Nat) (v : Int) (hb : b' ≠ b) :
    (set_value c b k v).cache b' = c.cache b' := by
  simp [set_value, Function.update_noteq hb]

theorem chain_walk_append_some {x o : Nat} {l : List CacheEntry} {e : CacheEntry}
    (h : chain_walk x o l = some e) (s : List CacheEntry) :
    chain_walk x o (l ++ s) = some e := by
  induction l with
  | nil => simp [chain_walk] at h
  | cons a l ih =>
    simp only [List.cons_append, chain_walk] at h ⊢
    split
    · next hc => rw [if_pos hc] at h; exact ih h
    · next hc => rw [if_neg hc] at h; exact h

theorem chain_walk_append_none {x o : Nat} {l : List CacheEntry}
    (h : chain_walk x o l = none) (s : List CacheEntry) :
    chain_walk x o (l ++ s) = chain_walk x o s := by
  induction l with
  | nil => simp
  | cons a l ih =>
    simp only [List.cons_append, chain_walk] at h ⊢
    split
    · next hc => rw [if_pos hc] at h; exact ih h
    · next hc => rw [if_neg hc] at h; simp at h

theorem chain_walk_self (x o : Nat) (v : Int) (s : List CacheEntry) :
    chain_walk x o ({ x := x, o := o, value := v } :: s) = some { x := x, o := o, value := v } := by
  simp [chain_walk]

/-- What the walk stops at is an entry of the chain that agrees with the query in
`x` or in `o`. -/
theorem chain_walk_some {x o : Nat} {l : List CacheEntry} {e : CacheEntry}
    (h : chain_walk x o l = some e) : e ∈ l ∧ (e.x = x ∨ e.o = o) := by
  induction l with
  | nil => simp [chain_walk] at h
  | cons a l ih =>
    simp only [chain_walk] at h
    split at h
    · have := ih h; exact ⟨List.mem_cons_of_mem _ this.1, this.2⟩
    · next hc =>
      injection h with h; subst h
      refine ⟨List.mem_cons_self _ _, ?_⟩
      by_contra hn
      push_neg at hn
      exact hc hn

/-- The walk reaches the tail exactly when no entry of the chain agrees with the
query in `x` or in `o`. -/
theorem chain_walk_none {x o : Nat} {l : List CacheEntry} :
    chain_walk x o l = none ↔ ∀ e ∈ l, e.x ≠ x ∧ e.o ≠ o := by
  induction l with
  | nil => simp [chain_walk]
  | cons a l ih =>
    simp only [chain_walk, List.mem_cons, forall_eq_or_imp]
    split
    · next hc => rw [ih]; exact ⟨fun h => ⟨hc, h⟩, fun h => h.2⟩
    · next hc =>
      constructor
      · intro h; simp at h
      · intro h; exact absurd h.1 hc

/-! ## The loop of `solve` -/

/-- Induction over the loop "solve recursively": a property of the loop state that
every iteration preserves holds of the state the loop ends with, and a run that
aborts does so in one of the recursive calls. -/
theorem solve_loop_ind {R : Cache → Nat → Nat → List Nat → Int → Except Abort Outcome}
    {x o : Nat} {m : Int} (Inv : Outcome → Prop) (Err : Abort → Prop) (ns0 : List Nat)
    (hstep : ∀ s n, n ∈ ns0 → Inv s → hget s.h n < 3 →
      match R s.c o (x ||| BIT (n + 9 * hget s.h n)) (s.h.set n (hget s.h n + 1)) (m + 1) with
      | .error e => Err e
      | .ok r => Inv { value := if - r.value > s.value then - r.value else s.value,
                       c := r.c,
                       h := r.h.set n (hget r.h n - 1),
                       hits := s.hits ++ r.hits,
                       depth := max s.depth (r.depth + 1) }) :
    ∀ ns s, (∀ n ∈ ns, n ∈ ns0) → Inv s →
      match solve_loop R x o m ns s with
      | .error e => Err e
      | .ok r => Inv r := by
  intro ns
  induction ns with
  | nil => intro s _ hs; simpa [solve_loop] using hs
  | cons n ns ih =>
    intro s hsub hs
    have hn : n ∈ ns0 := hsub n (List.mem_cons_self _ _)
    have hsub' : ∀ k ∈ ns, k ∈ ns0 := fun k hk => hsub k (List.mem_cons_of_mem _ hk)
    simp only [solve_loop]
    by_cases hlt : hget s.h n < 3
    · rw [if_pos hlt]
      have := hstep s n hn hs hlt
      cases hrec : R s.c o (x ||| BIT (n + 9 * hget s.h n)) (s.h.set n (hget s.h n + 1)) (m + 1) with
      | error e => rw [hrec] at this; simpa using this
      | ok r =>
        rw [hrec] at this
        simp only at this ⊢
        exact ih _ hsub' this
    · rw [if_neg hlt]; exact ih s hsub' hs

theorem set_incr_decr (h : List Nat) (n : Nat) :
    (h.set n (hget h n + 1)).set n (hget (h.set n (hget h n + 1)) n - 1) = h := by
  by_cases hn : n < h.length
  · rw [hget_set_self hn, List.set_set, Nat.add_sub_cancel, set_hget_self]
  · rw [List.set_eq_of_length_le (Nat.le_of_not_lt hn),
      List.set_eq_of_length_le (Nat.le_of_not_lt hn)]

/-! ## What every call of `solve` does to the cache and to `h` -/

theorem solve_fuel_hit (W : WinTable) (fuel : Nat) (c : Cache) (x o : Nat) (h : List Nat)
    (m : Int) {e : CacheEntry} (he : chain_walk x o (c.cache (bucket x o)) = some e) :
    solve_fuel W (fuel + 1) c x o h m =
      .ok { value := e.value, c := c, h := h, hits := [{ qx := x, qo := o, e := e }],
            depth := 0 } := by
  simp [solve_fuel, he]

/-- The entry a call allocates: `(x, o)` with the value the call ends with, at the
position `k` where the walk stopped. -/
theorem set_value_alloc_chain {c c2 : Cache} {x o : Nat} (v : Int)
    (hext : Extends (cache_alloc c (bucket x o) x o) c2) :
    ∃ suf, (set_value c2 (bucket x o) (c.cache (bucket x o)).length v).cache (bucket x o) =
      c.cache (bucket x o) ++ { x := x, o := o, value := v } :: suf := by
  obtain ⟨suf, hs⟩ := hext (bucket x o)
  refine ⟨suf, ?_⟩
  rw [set_value_same, hs, cache_alloc_same, List.append_assoc, List.singleton_append,
    chain_set_value_append]

theorem extends_set_value {c c2 : Cache} {x o : Nat} (v : Int)
    (hext : Extends (cache_alloc c (bucket x o) x o) c2) :
    Extends c (set_value c2 (bucket x o) (c.cache (bucket x o)).length v) := by
  intro b
  by_cases hb : b = bucket x o
  · subst hb
    obtain ⟨suf, hs⟩ := set_value_alloc_chain v hext
    exact ⟨_, hs⟩
  · rw [set_value_other _ _ _ hb]
    exact (Extends.chain (extends_alloc c _ x o) hext) b

theorem solve_fuel_frame (W : WinTable) : ∀ (fuel : Nat) (c : Cache) (x o : Nat)
    (h : List Nat) (m : Int) (r : Outcome), solve_fuel W fuel c x o h m = .ok r →
    r.h = h ∧ Extends c r.c ∧ c.cache_size ≤ r.c.cache_size ∧
    (chain_walk x o (c.cache (bucket x o)) = none →
      ∃ suf, r.c.cache (bucket x o) =
        c.cache (bucket x o) ++ { x := x, o := o, value := r.value } :: suf) := by
  intro fuel
  induction fuel with
  | zero => intro c x o h m r hr; simp [solve_fuel] at hr
  | succ fuel ih =>
    intro c x o h m r hr
    cases hw : chain_walk x o (c.cache (bucket x o)) with
    | some e =>
      rw [solve_fuel_hit W fuel c x o h m hw] at hr
      injection hr with hr; subst hr
      exact ⟨rfl, Extends.same c, le_refl _, fun h => by simp at h⟩
    | none =>
      simp only [solve_fuel, hw] at hr
      by_cases hfull : c.cache_size < MAXCACHE
      · simp only [hfull, not_true_eq_false, if_false] at hr
        by_cases hm : m = 27
        · simp only [hm, if_true] at hr
          injection hr with hr; subst hr
          refine ⟨rfl, extends_alloc c _ x o, by simp [cache_alloc], fun _ => ⟨[], ?_⟩⟩
          exact cache_alloc_same c _ x o
        · simp only [hm, if_false] at hr
          by_cases hwin : has_win W x h = true
          · simp only [hwin, if_true] at hr
            injection hr with hr; subst hr
            refine ⟨rfl, extends_set_value 27 (Extends.same _), by simp [set_value, cache_alloc],
              fun _ => set_value_alloc_chain 27 (Extends.same _)⟩
          · simp only [hwin, if_false] at hr
            have hloop := solve_loop_ind (R := solve_fuel W fuel) (x := x) (o := o) (m := m)
              (fun s => s.h = h ∧ Extends (cache_alloc c (bucket x o) x o) s.c ∧
                c.cache_size ≤ s.c.cache_size)
              (fun _ => True) (List.range 9)
              (by
                intro s n _ hs _
                cases hrec : solve_fuel W fuel s.c o (x ||| BIT (n + 9 * hget s.h n))
                    (s.h.set n (hget s.h n + 1)) (m + 1) with
                | error e => trivial
                | ok r' =>
                  obtain ⟨h1, h2, h3, _⟩ := ih _ _ _ _ _ _ hrec
                  refine ⟨?_, Extends.chain hs.2.1 h2, le_trans hs.2.2 h3⟩
                  simp only [h1]
                  rw [set_incr_decr, hs.1])
              (List.range 9) { value := -99, c := cache_alloc c (bucket x o) x o, h := h,
                               hits := [], depth := 0 }
              (fun _ hn => hn) ⟨rfl, Extends.same _, by simp [cache_alloc]⟩
            cases hl : solve_loop (solve_fuel W fuel) x o m (List.range 9)
                { value := -99, c := cache_alloc c (bucket x o) x o, h := h,
                  hits := [], depth := 0 } with
            | error e => rw [hl] at hr; simp at hr
            | ok r2 =>
              rw [hl] at hr hloop
              simp only at hr hloop
              by_cases h99 : r2.value = -99
              · simp [h99] at hr
              · simp only [h99, if_false] at hr
                injection hr with hr; subst hr
                refine ⟨hloop.1, extends_set_value _ hloop.2.1, ?_,
                  fun _ => set_value_alloc_chain _ hloop.2.1⟩
                simpa [set_value] using hloop.2.2
      · simp [hfull] at hr

/-! ## The recursion budget -/

theorem slack_le (h : List Nat) : slack h ≤ 27 := by
  unfold slack
  have := List.sum_le_card_nsmul ((List.range 9).map (fun n => 3 - hget h n)) 3
    (by intro v hv
        obtain ⟨n, _, rfl⟩ := List.mem_map.mp hv
        exact Nat.sub_le 3 _)
  simpa using this

theorem sum_map_congr_of_not_mem (f g : Nat → Nat) (n : Nat) (hk : ∀ k, k ≠ n → g k = f k) :
    ∀ l : List Nat, n ∉ l → (l.map g).sum = (l.map f).sum := by
  intro l
  induction l with
  | nil => intro _; rfl
  | cons a l ih =>
    intro hn
    simp only [List.mem_cons, not_or] at hn
    simp only [List.map_cons, List.sum_cons, ih hn.2, hk a (Ne.symm hn.1)]

theorem sum_map_succ_at (f g : Nat → Nat) (n : Nat) (hn : g n + 1 = f n)
    (hk : ∀ k, k ≠ n → g k = f k) :
    ∀ l : List Nat, l.Nodup → n ∈ l → (l.map g).sum + 1 = (l.map f).sum := by
  intro l
  induction l with
  | nil => intro _ h; simp at h
  | cons a l ih =>
    intro hnd hmem
    rw [List.nodup_cons] at hnd
    simp only [List.map_cons, List.sum_cons]
    by_cases ha : a = n
    · subst ha
      rw [sum_map_congr_of_not_mem f g a hk l hnd.1]
      omega
    · have hmem' : n ∈ l := by
        rcases List.mem_cons.mp hmem with h | h
        · exact absurd h.symm ha
        · exact h
      rw [hk a ha, ← ih hnd.2 hmem']
      omega

theorem slack_set {h : List Nat} {n : Nat} (hl : h.length = 9) (hn : n < 9)
    (hlt : hget h n < 3) : slack (h.set n (hget h n + 1)) + 1 = slack h := by
  have hnl : n < h.length := by omega
  unfold slack
  apply sum_map_succ_at _ _ n
  · rw [hget_set_self hnl]; omega
  · intro k hk; rw [hget_set_ne (Ne.symm hk)]
  · exact List.nodup_range 9
  · exact List.mem_range.mpr hn

theorem solve_loop_mono {R S : Cache → Nat → Nat → List Nat → Int → Except Abort Outcome}
    (hrec : ∀ c x o h m, R c x o h m ≠ .error .out_of_fuel → S c x o h m = R c x o h m)
    (x o : Nat) (m : Int) : ∀ ns s, solve_loop R x o m ns s ≠ .error .out_of_fuel →
      solve_loop S x o m ns s = solve_loop R x o m ns s := by
  intro ns
  induction ns with
  | nil => intro s _; simp [solve_loop]
  | cons n ns ih =>
    intro s hne
    simp only [solve_loop] at hne ⊢
    by_cases hlt : hget s.h n < 3
    · simp only [hlt, if_true] at hne ⊢
      have hr : R s.c o (x ||| BIT (n + 9 * hget s.h n)) (s.h.set n (hget s.h n + 1)) (m + 1)
          ≠ .error .out_of_fuel := by
        intro he; rw [he] at hne; exact hne rfl
      rw [hrec _ _ _ _ _ hr]
      cases hc : R s.c o (x ||| BIT (n + 9 * hget s.h n)) (s.h.set n (hget s.h n + 1)) (m + 1) with
      | error e => rfl
      | ok r => rw [hc] at hne; exact ih _ hne
    · simp only [hlt, if_false] at hne ⊢
      exact ih s hne

/-- More fuel does not change the outcome of a run that did not run out of it. -/
theorem solve_fuel_succ (W : WinTable) : ∀ (fuel : Nat) (c : Cache) (x o : Nat) (h : List Nat)
    (m : Int), solve_fuel W fuel c x o h m ≠ .error .out_of_fuel →
    solve_fuel W (fuel + 1) c x o h m = solve_fuel W fuel c x o h m := by
  intro fuel
  induction fuel with
  | zero => intro c x o h m hne; simp [solve_fuel] at hne
  | succ fuel ih =>
    intro c x o h m hne
    rw [solve_fuel] at hne
    conv_lhs => rw [solve_fuel]
    conv_rhs => rw [solve_fuel]
    cases hw : chain_walk x o (c.cache (bucket x o)) with
    | some e => rfl
    | none =>
      simp only [hw] at hne ⊢
      by_cases hfull : c.cache_size < MAXCACHE
      · simp only [hfull, not_true_eq_false, if_false] at hne ⊢
        by_cases hm : m = 27
        · simp [hm]
        · simp only [hm, if_false] at hne ⊢
          by_cases hwin : has_win W x h = true
          · simp [hwin]
          · simp only [hwin, if_false] at hne ⊢
            have hl : solve_loop (solve_fuel W fuel) x o m (List.range 9)
                { value := -99, c := cache_alloc c (bucket x o) x o, h := h,
                  hits := [], depth := 0 } ≠ .error .out_of_fuel := by
              intro he; rw [he] at hne; exact hne rfl
            rw [solve_loop_mono (R := solve_fuel W fuel) (S := solve_fuel W (fuel + 1))
              (fun c x o h m hn => ih c x o h m hn) x o m _ _ hl]
      · simp [hfull]

theorem solve_fuel_add (W : WinTable) (fuel k : Nat) (c : Cache) (x o : Nat) (h : List Nat)
    (m : Int) (hne : solve_fuel W fuel c x o h m ≠ .error .out_of_fuel) :
    solve_fuel W (fuel + k) c x o h m = solve_fuel W fuel c x o h m := by
  induction k with
  | zero => rfl
  | succ k ih =>
    rw [← Nat.add_assoc, solve_fuel_succ W (fuel + k) c x o h m (by rw [ih]; exact hne), ih]

/-- A call on nine heights never runs out of fuel when it is given more fuel than
there are free cells. -/
theorem solve_fuel_enough (W : WinTable) : ∀ (fuel : Nat) (c : Cache) (x o : Nat)
    (h : List Nat) (m : Int), h.length = 9 → slack h < fuel →
    solve_fuel W fuel c x o h m ≠ .error .out_of_fuel := by
  intro fuel
  induction fuel with
  | zero => intro c x o h m _ hs; omega
  | succ fuel ih =>
    intro c x o h m hl hs
    rw [solve_fuel]
    cases hw : chain_walk x o (c.cache (bucket x o)) with
    | some e => simp
    | none =>
      simp only
      by_cases hfull : c.cache_size < MAXCACHE
      · simp only [hfull, not_true_eq_false, if_false]
        by_cases hm : m = 27
        · simp [hm]
        · simp only [hm, if_false]
          by_cases hwin : has_win W x h = true
          · simp [hwin]
          · simp only [hwin, if_false]
            have hloop := solve_loop_ind (R := solve_fuel W fuel) (x := x) (o := o) (m := m)
              (fun s => s.h = h) (fun e => e ≠ .out_of_fuel) (List.range 9)
              (by
                intro s n hn hs' hlt
                have hn9 : n < 9 := List.mem_range.mp hn
                rw [hs'] at hlt ⊢
                have hsl := slack_set hl hn9 hlt
                have hne := ih s.c o (x ||| BIT (n + 9 * hget h n))
                  (h.set n (hget h n + 1)) (m + 1) (by simp [hl]) (by omega)
                cases hrec : solve_fuel W fuel s.c o (x ||| BIT (n + 9 * hget h n))
                    (h.set n (hget h n + 1)) (m + 1) with
                | error e => simp only; intro he; rw [he] at hrec; exact hne hrec
                | ok r' =>
                  obtain ⟨h1, _⟩ := solve_fuel_frame W _ _ _ _ _ _ _ hrec
                  simp only [h1]
                  rw [set_incr_decr])
              (List.range 9) { value := -99, c := cache_alloc c (bucket x o) x o, h := h,
                               hits := [], depth := 0 }
              (fun _ hn => hn) rfl
            cases hlp : solve_loop (solve_fuel W fuel) x o m (List.range 9)
                { value := -99, c := cache_alloc c (bucket x o) x o, h := h,
                  hits := [], depth := 0 } with
            | error e => rw [hlp] at hloop; simpa using hloop
            | ok r2 =>
              simp only
              by_cases h99 : r2.value = -99 <;> simp [h99]
      · simp [hfull]

/-- `solve` is `solve_fuel` with any budget of at least 28. -/
theorem solve_fuel_eq_solve (W : WinTable) (k : Nat) (c : Cache) (x o : Nat) (h : List Nat)
    (m : Int) (hl : h.length = 9) : solve_fuel W (28 + k) c x o h m = solve W c x o h m :=
  solve_fuel_add W 28 k c x o h m
    (solve_fuel_enough W 28 c x o h m hl (Nat.lt_succ_of_le (slack_le h)))

theorem solve_ne_out_of_fuel (W : WinTable) (c : Cache) (x o : Nat) (h : List Nat) (m : Int)
    (hl : h.length = 9) : solve W c x o h m ≠ .error .out_of_fuel :=
  solve_fuel_enough W 28 c x o h m hl (Nat.lt_succ_of_le (slack_le h))

theorem solve_frame (W : WinTable) {c : Cache} {x o : Nat} {h : List Nat} {m : Int}
    {r : Outcome} (hr : solve W c x o h m = .ok r) :
    r.h = h ∧ Extends c r.c ∧ c.cache_size ≤ r.c.cache_size ∧
    (chain_walk x o (c.cache (bucket x o)) = none →
      ∃ suf, r.c.cache (bucket x o) =
        c.cache (bucket x o) ++ { x := x, o := o, value := r.value } :: suf) :=
  solve_fuel_frame W 28 c x o h m r hr

/-! ## Cache lookup -/

/-- C1 (the code at the failing input): `posA` and `posB` are positions of the game
with different mover masks and the same opponent mask, in the same bucket. After
`solve` has searched `posA` from the empty cache (value 25), `solve` on `posB`
stops its chain walk at the entry of `posA` and returns its value 25, although
`posB` has an immediately winning move: from the empty cache `solve` returns 27. -/
theorem solve_inexact_hit :
    BoardInv posA ∧ BoardInv posB ∧ posA.x ≠ posB.x ∧ posA.o = posB.o ∧
    bucket posA.x posA.o = bucket posB.x posB.o ∧
    chain_walk posB.x posB.o [{ x := posA.x, o := posA.o, value := 25 }] =
      some { x := posA.x, o := posA.o, value := 25 } ∧
    observe (solve winlines emptyCache posA.x posA.o posA.h posA.m) = some (25, []) ∧
    observe (solve winlines emptyCache posB.x posB.o posB.h posB.m) = some (27, []) ∧
    observe (solve winlines emptyCache posA.x posA.o posA.h posA.m >>= fun r =>
        solve winlines r.c posB.x posB.o posB.h posB.m) =
      some (25, [{ qx := posB.x, qo := posB.o, e := { x := posA.x, o := posA.o, value := 25 } }]) := by
  rw [winlines_eq]
  refine ⟨by decide, by decide, by decide, by decide, by decide!, by decide!, by decide!,
    by decide!, by decide!⟩

theorem solve_keeps_lookup (W : WinTable) {c : Cache} {x o : Nat} {e : CacheEntry}
    (he : chain_walk x o (c.cache (bucket x o)) = some e) {x' o' : Nat} {h' : List Nat}
    {m' : Int} {r : Outcome} (hr : solve W c x' o' h' m' = .ok r) :
    chain_walk x o (r.c.cache (bucket x o)) = some e := by
  obtain ⟨suf, hs⟩ := (solve_frame W hr).2.1 (bucket x o)
  rw [hs]; exact chain_walk_append_some he suf

theorem calls_keep_lookup (W : WinTable) {c c' : Cache} (hc : SolveCalls W c c') {x o : Nat}
    {e : CacheEntry} (he : chain_walk x o (c.cache (bucket x o)) = some e) :
    chain_walk x o (c'.cache (bucket x o)) = some e := by
  induction hc with
  | done c => exact he
  | call hr _ ih => exact ih (solve_keeps_lookup W he hr)

/-- After a call of `solve` has returned, the walk for its `(x, o)` stops at an entry
that holds the returned value. -/
theorem solve_lookup_after (W : WinTable) {c : Cache} {x o : Nat} {h : List Nat} {m : Int}
    {r : Outcome} (hr : solve W c x o h m = .ok r) :
    ∃ e, chain_walk x o (r.c.cache (bucket x o)) = some e ∧ e.value = r.value := by
  cases hw : chain_walk x o (c.cache (bucket x o)) with
  | some e =>
    have : solve W c x o h m = _ := solve_fuel_hit W 27 c x o h m hw
    rw [this] at hr
    injection hr with hr; subst hr
    exact ⟨e, hw, rfl⟩
  | none =>
    obtain ⟨suf, hs⟩ := (solve_frame W hr).2.2.2 hw
    refine ⟨{ x := x, o := o, value := r.value }, ?_, rfl⟩
    rw [hs, chain_walk_append_none hw]
    exact chain_walk_self x o r.value suf

/-- C3: once a top-level call `solve(x, o, h, m)` has returned `v`, every later
top-level call with the same `(x, o)` (whatever heights and ply it is given),
after any number of other top-level calls of `solve`, returns and returns `v`. -/
theorem solve_repeat (W : WinTable) (c c' : Cache) (x o : Nat) (h h' : List Nat) (m m' : Int)
    (r : Outcome) (hr : solve W c x o h m = .ok r) (hc : SolveCalls W r.c c') :
    ∃ r', solve W c' x o h' m' = .ok r' ∧ r'.value = r.value := by
  obtain ⟨e, he, hv⟩ := solve_lookup_after W hr
  have he' := calls_keep_lookup W hc he
  exact ⟨_, solve_fuel_hit W 27 c' x o h' m' he', hv⟩

theorem solve_repeat_witness :
    ∃ r rB r', solve winlines emptyCache posA.x posA.o posA.h posA.m = .ok r ∧
      solve winlines r.c posB.x posB.o posB.h posB.m = .ok rB ∧
      solve winlines rB.c posA.x posA.o posA.h posA.m = .ok r' ∧ r'.value = r.value := by
  have h1 : ∃ r, solve winlines emptyCache posA.x posA.o posA.h posA.m = .ok r := by
    cases hs : solve winlines emptyCache posA.x posA.o posA.h posA.m with
    | ok r => exact ⟨r, rfl⟩
    | error e =>
      have : observe (solve winlines emptyCache posA.x posA.o posA.h posA.m) ≠ none := by
        rw [winlines_eq]; decide!
      rw [hs] at this; exact absurd rfl this
  obtain ⟨r, hr⟩ := h1
  have h2 : ∃ rB, solve winlines r.c posB.x posB.o posB.h posB.m = .ok rB := by
    have : observe (solve winlines emptyCache posA.x posA.o posA.h posA.m >>= fun r =>
        solve winlines r.c posB.x posB.o posB.h posB.m) ≠ none := by rw [winlines_eq]; decide!
    rw [hr] at this
    cases hs : solve winlines r.c posB.x posB.o posB.h posB.m with
    | ok rB => exact ⟨rB, rfl⟩
    | error e =>
      exfalso; apply this
      show observe (solve winlines r.c posB.x posB.o posB.h posB.m) = none
      rw [hs]; rfl
  obtain ⟨rB, hB⟩ := h2
  obtain ⟨r', h3, h4⟩ := solve_repeat winlines emptyCache rB.c posA.x posA.o posA.h posA.h
    posA.m posA.m r hr (SolveCalls.call hB (SolveCalls.done _))
  exact ⟨r, rB, r', hr, hB, h3, h4⟩

/-! ## Immediate wins -/

theorem completes_iff_spec (x f : Nat) : completes winlines x f = true ↔ CompletesLine x f :=
  completes_iff x f

theorem has_win_iff (x : Nat) (h : List Nat) : has_win winlines x h = true ↔ Wins x h := by
  simp only [has_win, List.any_eq_true, List.mem_range, Bool.and_eq_true, decide_eq_true_eq,
    completes_iff_spec, Wins]

/-- `CompletesLine` is decided by the test of the code on the table, written out. -/
instance (x f : Nat) : Decidable (CompletesLine x f) :=
  decidable_of_iff (completes winlinesValues x f = true)
    (by rw [← winlines_eq]; exact completes_iff_spec x f)

instance (x : Nat) (h : List Nat) : Decidable (Wins x h) := by unfold Wins; infer_instance

theorem set_value_alloc_eq (c : Cache) (b x o : Nat) (v : Int) :
    set_value (cache_alloc c b x o) b (c.cache b).length v =
      { cache := Function.update c.cache b (c.cache b ++ [{ x := x, o := o, value := v }]),
        cache_size := c.cache_size + 1 } := by
  unfold set_value
  congr 1
  rw [cache_alloc_same]
  have := chain_set_value_append v (c.cache b) { x := x, o := o, value := 0 } []
  rw [this]
  simp [cache_alloc]

/-- C8: in a position with `m < 27` in which some non-full column's landing cell
completes a line of the cube for the mover, a call of `solve` whose chain walk finds
no entry (and that finds room for a new one, `cache_size < MAXCACHE`) returns `+27`
without any recursive call: a recursion budget of one call is enough and the nesting
depth is 0. The only change to the cache is the new entry `(x, o, 27)` at the tail
of the chain of its bucket, and `h` is unchanged. -/
theorem solve_win_shortcut (c : Cache) (x o : Nat) (h : List Nat) (m : Int) (hm : m < 27)
    (hwin : Wins x h) (hmiss : chain_walk x o (c.cache (bucket x o)) = none)
    (hroom : c.cache_size < MAXCACHE) :
    ∃ r, solve winlines c x o h m = .ok r ∧
      (∀ fuel, solve_fuel winlines (fuel + 1) c x o h m = .ok r) ∧
      r.value = 27 ∧ r.depth = 0 ∧ r.hits = [] ∧ r.h = h ∧
      r.c.cache_size = c.cache_size + 1 ∧
      r.c.cache = Function.update c.cache (bucket x o)
        (c.cache (bucket x o) ++ [{ x := x, o := o, value := 27 }]) := by
  have hw := (has_win_iff x h).mpr hwin
  have key : ∀ fuel, solve_fuel winlines (fuel + 1) c x o h m =
      .ok { value := 27,
            c := { cache := Function.update c.cache (bucket x o)
                    (c.cache (bucket x o) ++ [{ x := x, o := o, value := 27 }]),
                   cache_size := c.cache_size + 1 },
            h := h, hits := [], depth := 0 } := by
    intro fuel
    simp [solve_fuel, hmiss, hroom, ne_of_lt hm, hw, set_value_alloc_eq]
  exact ⟨_, key 27, key, rfl, rfl, rfl, rfl, rfl, rfl⟩

theorem solve_win_shortcut_witness :
    ∃ r, solve winlines emptyCache diagBoard.x diagBoard.o diagBoard.h diagBoard.m = .ok r ∧
      r.value = 27 ∧ r.depth = 0 ∧
      r.c.cache (bucket diagBoard.x diagBoard.o) =
        [{ x := diagBoard.x, o := diagBoard.o, value := 27 }] := by
  obtain ⟨r, h1, _, h3, h4, _, _, _, h8⟩ :=
    solve_win_shortcut emptyCache diagBoard.x diagBoard.o diagBoard.h diagBoard.m
      (by decide) (by decide) (by decide) (by decide)
  refine ⟨r, h1, h3, h4, ?_⟩
  rw [h8]; simp [emptyCache]

/-! ## Counting bits -/

theorem countP_succ_at (p q : Nat → Bool) (f : Nat) (hf : p f = false) (hq : q f = true)
    (hk : ∀ k, k ≠ f → q k = p k) :
    ∀ l : List Nat, l.Nodup → f ∈ l → l.countP q = l.countP p + 1 := by
  intro l
  induction l with
  | nil => intro _ h; simp at h
  | cons a l ih =>
    intro hnd hmem
    rw [List.nodup_cons] at hnd
    by_cases ha : a = f
    · subst ha
      have hrest : l.countP q = l.countP p := by
        apply List.countP_congr
        intro k hk'
        have : k ≠ a := fun h => hnd.1 (h ▸ hk')
        rw [hk k this]
      simp [List.countP_cons, hf, hq, hrest]
    · have hmem' : f ∈ l := by
        rcases List.mem_cons.mp hmem with h | h
        · exact absurd h.symm ha
        · exact h
      simp only [List.countP_cons, hk a ha, ih hnd.2 hmem']
      omega

theorem popcount_or_BIT {x f : Nat} (hf : f < 32) (hx : x.testBit f = false) :
    popcount (x ||| BIT f) = popcount x + 1 := by
  unfold popcount
  apply countP_succ_at _ _ f hx
  · simp [Nat.testBit_or, testBit_BIT]
  · intro k hk; simp [Nat.testBit_or, testBit_BIT, Ne.symm hk]
  · exact List.nodup_range 32
  · exact List.mem_range.mpr hf

theorem countP_or_of_disjoint (p q : Nat → Bool) :
    ∀ l : List Nat, (∀ k ∈ l, ¬ (p k = true ∧ q k = true)) →
      l.countP p + l.countP q = l.countP (fun k => p k || q k) := by
  intro l
  induction l with
  | nil => intro _; rfl
  | cons a l ih =>
    intro h
    have ha := h a (List.mem_cons_self _ _)
    have ih' := ih (fun k hk => h k (List.mem_cons_of_mem _ hk))
    simp only [List.countP_cons]
    cases hp : p a <;> cases hq : q a <;> simp_all <;> omega

theorem popcount_add_of_disjoint {x o : Nat} (h : x &&& o = 0) :
    popcount x + popcount o = popcount (x ||| o) := by
  unfold popcount
  rw [countP_or_of_disjoint]
  · apply List.countP_congr
    intro k _
    simp [Nat.testBit_or]
  · intro k _ hk
    have := congrArg (fun t => Nat.testBit t k) h
    simp [Nat.testBit_and, hk.1, hk.2] at this

theorem popcount_le_27 {a : Nat} (ha : a < 2 ^ 27) : popcount a ≤ 27 := by
  unfold popcount
  have h32 : List.range 32 = List.range 27 ++ [27, 28, 29, 30, 31] := by decide
  rw [h32, List.countP_append]
  have h1 : (List.range 27).countP (fun n => a.testBit n) ≤ 27 := by
    have := List.countP_le_length (fun n => a.testBit n) (l := List.range 27)
    simpa using this
  have h2 : ([27, 28, 29, 30, 31] : List Nat).countP (fun n => a.testBit n) = 0 := by
    rw [List.countP_eq_zero]
    intro k hk
    have hk27 : 27 ≤ k := by
      simp only [List.mem_cons, List.mem_singleton, List.not_mem_nil, or_false] at hk
      omega
    simp [testBit_of_lt ha hk27]
  omega

theorem popcount_ge_27 {a : Nat} (h : ∀ i < 27, a.testBit i = true) : 27 ≤ popcount a := by
  unfold popcount
  have h32 : List.range 32 = List.range 27 ++ [27, 28, 29, 30, 31] := by decide
  rw [h32, List.countP_append]
  have h1 : (List.range 27).countP (fun n => a.testBit n) = (List.range 27).length := by
    rw [List.countP_eq_length]
    intro k hk
    exact h k (List.mem_range.mp hk)
  rw [h1, List.length_range]
  omega

/-! ## Positions -/

theorem BoardInv.m_le {b : Board} (hb : BoardInv b) : b.m ≤ 27 := by
  obtain ⟨_, hx, ho, hd, _, _, hm⟩ := hb
  rw [hm, popcount_add_of_disjoint hd]
  have : b.x ||| b.o < 2 ^ 27 := Nat.or_lt_two_pow hx ho
  exact_mod_cast popcount_le_27 this

/-- Below 27 plies some column is not full. -/
theorem BoardInv.exists_move {b : Board} (hb : BoardInv b) (hm : b.m ≠ 27) :
    ∃ n < 9, hget b.h n < 3 := by
  by_contra hno
  push_neg at hno
  obtain ⟨_, hx, ho, hd, hle, hg, hcnt⟩ := hb
  have hall : ∀ i < 27, (b.x ||| b.o).testBit i = true := by
    intro i hi
    have h1 := hg (i % 9) (Nat.mod_lt _ (by decide)) (i / 9) (by omega)
    have h2 := hno (i % 9) (Nat.mod_lt _ (by decide))
    have h3 := hle (i % 9) (Nat.mod_lt _ (by decide))
    have e : i % 9 + 9 * (i / 9) = i := Nat.mod_add_div i 9
    rw [e] at h1
    rw [h1]
    simp only [decide_eq_true_eq]
    omega
  have hge := popcount_ge_27 hall
  have hle27 := popcount_le_27 (Nat.or_lt_two_pow hx ho)
  rw [← popcount_add_of_disjoint hd] at hge hle27
  apply hm
  rw [hcnt]
  exact_mod_cast le_antisymm hle27 hge

/-- The position after the mover has played column `n`, seen by the next mover. -/
theorem BoardInv.child {x o : Nat} {h : List Nat} {m : Int}
    (hb : BoardInv { x := x, o := o, h := h, m := m }) {n : Nat} (hn : n < 9)
    (hlt : hget h n < 3) :
    BoardInv { x := o, o := x ||| BIT (n + 9 * hget h n), h := h.set n (hget h n + 1),
               m := m + 1 } := by
  obtain ⟨hlen, hx, ho, hd, hle, hg, hcnt⟩ := hb
  simp only at hlen hx ho hd hle hg hcnt
  have hnl : n < h.length := by omega
  have hfree : (x ||| o).testBit (n + 9 * hget h n) = false := by
    rw [hg n hn _ hlt]; simp
  rw [Nat.testBit_or, Bool.or_eq_false_iff] at hfree
  have hf27 : n + 9 * hget h n < 27 := by omega
  have hget' : ∀ k, hget (h.set n (hget h n + 1)) k = if n = k then hget h n + 1 else hget h k := by
    intro k
    by_cases hk : n = k
    · subst hk; simp [hget_set_self hnl]
    · simp [hk, hget_set_ne hk]
  refine ⟨by simpa using hlen, ho, ?_, ?_, ?_, ?_, ?_⟩
  · apply Nat.or_lt_two_pow hx
    rw [BIT_eq]; exact Nat.pow_lt_pow_right (by decide) hf27
  · show o &&& (x ||| BIT (n + 9 * hget h n)) = 0
    apply Nat.eq_of_testBit_eq
    intro i
    have hxo := congrArg (fun t => Nat.testBit t i) hd
    simp only [Nat.testBit_and, Nat.zero_testBit] at hxo
    simp only [Nat.testBit_and, Nat.testBit_or, testBit_BIT, Nat.zero_testBit]
    by_cases hi : n + 9 * hget h n = i
    · subst hi; simp [hfree.2]
    · cases hoi : o.testBit i <;> cases hxi : x.testBit i <;> simp_all
  · intro k hk
    show hget (h.set n (hget h n + 1)) k ≤ 3
    rw [hget' k]
    split
    · omega
    · exact hle k hk
  · intro n' hn' k hk
    show (o ||| (x ||| BIT (n + 9 * hget h n))).testBit (n' + 9 * k)
      = decide (k < hget (h.set n (hget h n + 1)) n')
    have hold := hg n' hn' k hk
    rw [Nat.testBit_or] at hold
    rw [hget' n']
    simp only [Nat.testBit_or, testBit_BIT]
    by_cases hnn : n = n'
    · subst hnn
      simp only [if_true]
      by_cases hkk : hget h n = k
      · subst hkk; simp [hfree.1, hfree.2]
      · have hne : ¬ (n + 9 * hget h n = n + 9 * k) := by omega
        simp only [hne, decide_False, Bool.or_false]
        rw [Bool.or_comm, hold]
        have : (k < hget h n) ↔ (k < hget h n + 1) := by omega
        simp [this]
    · have hne : ¬ (n + 9 * hget h n = n' + 9 * k) := by omega
      simp only [hne, decide_False, Bool.or_false, if_neg hnn]
      rw [Bool.or_comm, hold]
  · show m + 1 = ((popcount o + popcount (x ||| BIT (n + 9 * hget h n)) : Nat) : Int)
    rw [popcount_or_BIT (by omega) hfree.1, hcnt]
    push_cast
    ring

/-- A position is determined by its two masks. -/
theorem BoardInv.unique {x o : Nat} {h h' : List Nat} {m m' : Int}
    (hb : BoardInv { x := x, o := o, h := h, m := m })
    (hb' : BoardInv { x := x, o := o, h := h', m := m' }) : h = h' ∧ m = m' := by
  obtain ⟨hlen, _, _, _, hle, hg, hcnt⟩ := hb
  obtain ⟨hlen', _, _, _, hle', hg', hcnt'⟩ := hb'
  simp only at hlen hle hg hcnt hlen' hle' hg' hcnt'
  refine ⟨?_, by rw [hcnt, hcnt']⟩
  have key : ∀ n < 9, hget h n = hget h' n := by
    intro n hn
    by_contra hne
    rcases Nat.lt_or_gt_of_ne hne with hlt | hlt
    · have h1 := hg n hn (hget h n) (by have := hle' n hn; omega)
      have h2 := hg' n hn (hget h n) (by have := hle' n hn; omega)
      rw [h1] at h2
      simp [hlt] at h2
    · have h1 := hg n hn (hget h' n) (by have := hle n hn; omega)
      have h2 := hg' n hn (hget h' n) (by have := hle n hn; omega)
      rw [h1] at h2
      simp [hlt] at h2
  apply List.ext_getElem (by rw [hlen, hlen'])
  intro n h1 h2
  have := key n (by omega)
  simpa [hget, List.getD_eq_getElem?_getD, List.getElem?_eq_getElem h1,
    List.getElem?_eq_getElem h2] using this

/-! ## The cache-free recursion -/

/-- Spec: the value `V` of the position with `rem = 27 - m` plies left: 0 on the
full board, `+27` when the mover has an immediately winning move, otherwise `adj`
of the maximum over the non-full columns of minus the value of the child. -/
def negamax_rem : Nat → Nat → Nat → List Nat → Int
  | 0, _, _, _ => 0
  | rem + 1, x, o, h =>
    if Wins x h then 27
    else adj (maxValue ((openColumns h).map (fun n =>
      - negamax_rem rem o (x ||| BIT (n + 9 * hget h n)) (h.set n (hget h n + 1)))))

/-- Spec: the value `V` of the position `(x, o, h, m)`, `x` the mask of the mover. -/
def negamax (x o : Nat) (h : List Nat) (m : Int) : Int := negamax_rem (27 - m).toNat x o h

/-- The entry holds the value of the position with its masks. -/
def Final (e : CacheEntry) : Prop :=
  ∃ h m, BoardInv { x := e.x, o := e.o, h := h, m := m } ∧ e.value = negamax e.x e.o h m

/-- Every entry of the cache is final or belongs to a position with fewer than `m`
pieces (a call that is still running). -/
def Settled (c : Cache) (m : Int) : Prop :=
  ∀ b, ∀ e ∈ c.cache b, Final e ∨ ((popcount e.x + popcount e.o : Nat) : Int) < m

/-- The cache `c'` is `c` with final entries appended to its chains. -/
def FinalExt (c c' : Cache) : Prop :=
  ∀ b, ∃ suf, c'.cache b = c.cache b ++ suf ∧ ∀ e ∈ suf, Final e

theorem FinalExt.refl (c : Cache) : FinalExt c c := fun _ => ⟨[], by simp, by simp⟩

theorem FinalExt.trans {c1 c2 c3 : Cache} (h12 : FinalExt c1 c2) (h23 : FinalExt c2 c3) :
    FinalExt c1 c3 := by
  intro b
  obtain ⟨s1, h1, f1⟩ := h12 b
  obtain ⟨s2, h2, f2⟩ := h23 b
  refine ⟨s1 ++ s2, by rw [h2, h1, List.append_assoc], ?_⟩
  intro e he
  rcases List.mem_append.mp he with h | h
  · exact f1 e h
  · exact f2 e h

theorem FinalExt.extends {c c' : Cache} (h : FinalExt c c') : Extends c c' :=
  fun b => let ⟨s, hs, _⟩ := h b; ⟨s, hs⟩

theorem Settled.mono {c : Cache} {m m' : Int} (h : Settled c m) (hm : m ≤ m') : Settled c m' := by
  intro b e he
  rcases h b e he with hf | hlt
  · exact Or.inl hf
  · exact Or.inr (lt_of_lt_of_le hlt hm)

theorem Settled.ext {c c' : Cache} {m : Int} (h : Settled c m) (he : FinalExt c c') :
    Settled c' m := by
  intro b e hmem
  obtain ⟨s, hs, hf⟩ := he b
  rw [hs] at hmem
  rcases List.mem_append.mp hmem with h1 | h1
  · exact h b e h1
  · exact Or.inl (hf e h1)

theorem Settled.alloc {c : Cache} {x o : Nat} {h : List Nat} {m : Int} (hs : Settled c m)
    (hb : BoardInv { x := x, o := o, h := h, m := m }) :
    Settled (cache_alloc c (bucket x o) x o) (m + 1) := by
  intro b e he
  by_cases hbb : b = bucket x o
  · subst hbb
    rw [cache_alloc_same] at he
    rcases List.mem_append.mp he with h1 | h1
    · exact (hs.mono (by omega : m ≤ m + 1)) _ e h1
    · simp only [List.mem_singleton] at h1
      subst h1
      right
      have := hb.2.2.2.2.2.2
      simp only at this ⊢
      omega
  · rw [cache_alloc_other c x o hbb] at he
    exact (hs.mono (by omega : m ≤ m + 1)) b e he

/-- Completing the entry of the running call with the value of its position. -/
theorem FinalExt.set_value {c c2 : Cache} {x o : Nat} {h : List Nat} {m : Int}
    (hb : BoardInv { x := x, o := o, h := h, m := m })
    (hext : FinalExt (cache_alloc c (bucket x o) x o) c2) :
    FinalExt c (set_value c2 (bucket x o) (c.cache (bucket x o)).length (negamax x o h m)) := by
  intro b
  by_cases hbb : b = bucket x o
  · subst hbb
    obtain ⟨suf, hs, hf⟩ := hext (bucket x o)
    refine ⟨{ x := x, o := o, value := negamax x o h m } :: suf, ?_, ?_⟩
    · rw [set_value_same, hs, cache_alloc_same, List.append_assoc, List.singleton_append,
        chain_set_value_append]
    · intro e he
      rcases List.mem_cons.mp he with h1 | h1
      · subst h1; exact ⟨h, m, hb, rfl⟩
      · exact hf e h1
  · rw [set_value_other _ _ _ hbb]
    obtain ⟨suf, hs, hf⟩ := hext b
    rw [cache_alloc_other c x o hbb] at hs
    exact ⟨suf, hs, hf⟩

theorem adj_range {v : Int} (h1 : -27 ≤ v) (h2 : v ≤ 27) : -27 ≤ adj v ∧ adj v ≤ 27 := by
  unfold adj; split_ifs <;> constructor <;> omega

theorem foldl_max_range {lo hi : Int} : ∀ (l : List Int) (a : Int), lo ≤ a → a ≤ hi →
    (∀ v ∈ l, lo ≤ v ∧ v ≤ hi) → lo ≤ l.foldl max a ∧ l.foldl max a ≤ hi := by
  intro l
  induction l with
  | nil => intro a h1 h2 _; exact ⟨h1, h2⟩
  | cons b l ih =>
    intro a h1 h2 hl
    simp only [List.foldl_cons]
    have hb := hl b (List.mem_cons_self _ _)
    apply ih
    · exact le_trans h1 (le_max_left _ _)
    · exact max_le h2 hb.2
    · exact fun v hv => hl v (List.mem_cons_of_mem _ hv)

theorem maxValue_range (l : List Int) (hl : ∀ v ∈ l, -27 ≤ v ∧ v ≤ 27) :
    -27 ≤ maxValue l ∧ maxValue l ≤ 27 := by
  cases l with
  | nil => simp [maxValue]
  | cons a l =>
    have ha := hl a (List.mem_cons_self _ _)
    exact foldl_max_range l a ha.1 ha.2 (fun v hv => hl v (List.mem_cons_of_mem _ hv))

theorem negamax_rem_range : ∀ (rem x o : Nat) (h : List Nat),
    -27 ≤ negamax_rem rem x o h ∧ negamax_rem rem x o h ≤ 27 := by
  intro rem
  induction rem with
  | zero => intro x o h; simp [negamax_rem]
  | succ rem ih =>
    intro x o h
    rw [negamax_rem]
    split
    · simp
    · apply adj_range
      · apply (maxValue_range _ _).1
        intro v hv
        obtain ⟨n, _, rfl⟩ := List.mem_map.mp hv
        have := ih o (x ||| BIT (n + 9 * hget h n)) (h.set n (hget h n + 1))
        constructor <;> omega
      · apply (maxValue_range _ _).2
        intro v hv
        obtain ⟨n, _, rfl⟩ := List.mem_map.mp hv
        have := ih o (x ||| BIT (n + 9 * hget h n)) (h.set n (hget h n + 1))
        constructor <;> omega

theorem negamax_range (x o : Nat) (h : List Nat) (m : Int) :
    -27 ≤ negamax x o h m ∧ negamax x o h m ≤ 27 := negamax_rem_range _ x o h

/-- The value the columns `ns` contribute to the maximum, in the order of the loop. -/
def childValues (x o : Nat) (h : List Nat) (m : Int) (ns : List Nat) : List Int :=
  (ns.filter (fun n => hget h n < 3)).map (fun n =>
    - negamax o (x ||| BIT (n + 9 * hget h n)) (h.set n (hget h n + 1)) (m + 1))

theorem negamax_step {x o : Nat} {h : List Nat} {m : Int} (hm : m < 27) (hw : ¬ Wins x h) :
    negamax x o h m = adj (maxValue (childValues x o h m (List.range 9))) := by
  unfold negamax childValues
  have e : (27 - m).toNat = (27 - (m + 1)).toNat + 1 := by omega
  rw [e, negamax_rem, if_neg hw]
  rfl

theorem negamax_win {x o : Nat} {h : List Nat} {m : Int} (hm : m < 27) (hw : Wins x h) :
    negamax x o h m = 27 := by
  unfold negamax
  have e : (27 - m).toNat = (27 - (m + 1)).toNat + 1 := by omega
  rw [e, negamax_rem, if_pos hw]

theorem negamax_full (x o : Nat) (h : List Nat) : negamax x o h 27 = 0 := by
  simp [negamax, negamax_rem]

/-! ## The memoised search computes the cache-free recursion -/

theorem solve_loop_hits {R : Cache → Nat → Nat → List Nat → Int → Except Abort Outcome}
    (x o : Nat) (m : Int) : ∀ (ns : List Nat) (s r : Outcome),
    solve_loop R x o m ns s = .ok r → ∃ l, r.hits = s.hits ++ l := by
  intro ns
  induction ns with
  | nil =>
    intro s r hr
    simp only [solve_loop] at hr
    injection hr with hr; subst hr
    exact ⟨[], by simp⟩
  | cons n ns ih =>
    intro s r hr
    simp only [solve_loop] at hr
    by_cases hlt : hget s.h n < 3
    · rw [if_pos hlt] at hr
      cases hc : R s.c o (x ||| BIT (n + 9 * hget s.h n)) (s.h.set n (hget s.h n + 1)) (m + 1) with
      | error e => rw [hc] at hr; simp at hr
      | ok r1 =>
        rw [hc] at hr
        obtain ⟨l, hl⟩ := ih _ r hr
        exact ⟨r1.hits ++ l, by rw [hl]; simp⟩
    · rw [if_neg hlt] at hr
      exact ih s r hr

theorem childValues_cons_open {x o : Nat} {h : List Nat} {m : Int} {n : Nat} (ns : List Nat)
    (hlt : hget h n < 3) :
    childValues x o h m (n :: ns) =
      (- negamax o (x ||| BIT (n + 9 * hget h n)) (h.set n (hget h n + 1)) (m + 1)) ::
        childValues x o h m ns := by
  simp [childValues, List.filter_cons, hlt]

theorem childValues_cons_full {x o : Nat} {h : List Nat} {m : Int} {n : Nat} (ns : List Nat)
    (hlt : ¬ hget h n < 3) : childValues x o h m (n :: ns) = childValues x o h m ns := by
  simp [childValues, List.filter_cons, hlt]

theorem solve_loop_correct (fuel : Nat)
    (ih : ∀ (c : Cache) (x o : Nat) (h : List Nat) (m : Int) (r : Outcome),
      BoardInv { x := x, o := o, h := h, m := m } → Settled c m →
      solve_fuel winlines fuel c x o h m = .ok r → (∀ t ∈ r.hits, t.exact) →
      r.value = negamax x o h m ∧ FinalExt c r.c)
    {x o : Nat} {h : List Nat} {m : Int} (hb : BoardInv { x := x, o := o, h := h, m := m }) :
    ∀ (ns : List Nat) (s r : Outcome), (∀ n ∈ ns, n < 9) → s.h = h → Settled s.c (m + 1) →
      solve_loop (solve_fuel winlines fuel) x o m ns s = .ok r → (∀ t ∈ r.hits, t.exact) →
      r.value = (childValues x o h m ns).foldl (fun a v => if v > a then v else a) s.value ∧
        FinalExt s.c r.c ∧ r.h = h := by
  intro ns
  induction ns with
  | nil =>
    intro s r _ hsh _ hr _
    simp only [solve_loop] at hr
    injection hr with hr; subst hr
    exact ⟨by simp [childValues], FinalExt.refl _, hsh⟩
  | cons n ns ihn =>
    intro s r hns hsh hset hr hex
    have hn9 : n < 9 := hns n (List.mem_cons_self _ _)
    have hns' : ∀ k ∈ ns, k < 9 := fun k hk => hns k (List.mem_cons_of_mem _ hk)
    simp only [solve_loop] at hr
    rw [hsh] at hr
    by_cases hlt : hget h n < 3
    · rw [if_pos hlt] at hr
      cases hc : solve_fuel winlines fuel s.c o (x ||| BIT (n + 9 * hget h n))
          (h.set n (hget h n + 1)) (m + 1) with
      | error e => rw [hc] at hr; simp at hr
      | ok r1 =>
        rw [hc] at hr
        simp only at hr
        obtain ⟨l, hl⟩ := solve_loop_hits x o m ns _ r hr
        simp only at hl
        have hex1 : ∀ t ∈ r1.hits, t.exact := by
          intro t ht
          apply hex t
          rw [hl]
          exact List.mem_append_left _ (List.mem_append_right _ ht)
        obtain ⟨hv1, hf1⟩ := ih _ _ _ _ _ _ (hb.child hn9 hlt) hset hc hex1
        have hh1 := (solve_fuel_frame winlines fuel _ _ _ _ _ _ hc).1
        obtain ⟨hv, hf, hh⟩ := ihn
          { value := if -r1.value > s.value then -r1.value else s.value, c := r1.c,
            h := r1.h.set n (hget r1.h n - 1), hits := s.hits ++ r1.hits,
            depth := max s.depth (r1.depth + 1) } r hns'
          (by simp only [hh1]; exact set_incr_decr h n)
          (hset.ext hf1) hr hex
        refine ⟨?_, FinalExt.trans hf1 hf, hh⟩
        rw [hv, childValues_cons_open ns hlt, List.foldl_cons, hv1]
    · rw [if_neg hlt] at hr
      obtain ⟨hv, hf, hh⟩ := ihn s r hns' hsh hset hr hex
      exact ⟨by rw [hv, childValues_cons_full ns hlt], hf, hh⟩

theorem foldl_step_eq_max (l : List Int) (a : Int) :
    l.foldl (fun a v => if v > a then v else a) a = l.foldl max a := by
  induction l generalizing a with
  | nil => rfl
  | cons b l ih =>
    simp only [List.foldl_cons]
    rw [← ih]
    congr 1
    rcases lt_or_le a b with h | h
    · rw [if_pos h, max_eq_right (le_of_lt h)]
    · rw [if_neg (not_lt.mpr h), max_eq_left h]

/-- The loop started at `-99` computes the maximum of the children's values when
there is a child. -/
theorem foldl_step_eq_maxValue {l : List Int} (hl : ∀ v ∈ l, -27 ≤ v)
    (hne : l.foldl (fun a v => if v > a then v else a) (-99) ≠ -99) :
    l.foldl (fun a v => if v > a then v else a) (-99) = maxValue l := by
  cases l with
  | nil => simp at hne
  | cons b l =>
    have hb := hl b (List.mem_cons_self _ _)
    simp only [List.foldl_cons, maxValue]
    rw [if_pos (by omega)]
    exact foldl_step_eq_max l b

theorem adj_eq (v : Int) :
    (if (if v < 0 then v + 1 else v) > 0 then (if v < 0 then v + 1 else v) - 1
      else (if v < 0 then v + 1 else v)) = adj v := by
  unfold adj
  split_ifs <;> omega

/-- The run of `solve` on a position whose cache holds only final entries and
entries of running calls: when every cache hit is exact, the value is the value of
the cache-free recursion, and the entries added to the cache are final. -/
theorem solve_fuel_correct : ∀ (fuel : Nat) (c : Cache) (x o : Nat) (h : List Nat) (m : Int)
    (r : Outcome), BoardInv { x := x, o := o, h := h, m := m } → Settled c m →
    solve_fuel winlines fuel c x o h m = .ok r → (∀ t ∈ r.hits, t.exact) →
    r.value = negamax x o h m ∧ FinalExt c r.c := by
  intro fuel
  induction fuel with
  | zero => intro c x o h m r _ _ hr; simp [solve_fuel] at hr
  | succ fuel ih =>
    intro c x o h m r hb hset hr hex
    cases hw : chain_walk x o (c.cache (bucket x o)) with
    | some e =>
      rw [solve_fuel_hit winlines fuel c x o h m hw] at hr
      injection hr with hr; subst hr
      have hexact := hex _ (List.mem_singleton.mpr rfl)
      simp only [Hit.exact] at hexact
      obtain ⟨hmem, _⟩ := chain_walk_some hw
      refine ⟨?_, FinalExt.refl c⟩
      rcases hset _ e hmem with hfin | hlt
      · obtain ⟨h', m', hb', hv⟩ := hfin
        rw [hexact.1, hexact.2] at hb' hv
        obtain ⟨rfl, rfl⟩ := hb.unique hb'
        exact hv
      · exfalso
        rw [hexact.1, hexact.2] at hlt
        have := hb.2.2.2.2.2.2
        simp only at this
        omega
    | none =>
      simp only [solve_fuel, hw] at hr
      by_cases hfull : c.cache_size < MAXCACHE
      · simp only [hfull, not_true_eq_false, if_false] at hr
        by_cases hm : m = 27
        · simp only [hm, if_true] at hr
          injection hr with hr; subst hr
          subst hm
          refine ⟨(negamax_full x o h).symm, ?_⟩
          intro b
          by_cases hbb : b = bucket x o
          · subst hbb
            refine ⟨_, cache_alloc_same c _ x o, ?_⟩
            intro e he
            simp only [List.mem_singleton] at he
            subst he
            exact ⟨h, 27, hb, (negamax_full x o h).symm⟩
          · exact ⟨[], by simp [cache_alloc_other c x o hbb], by simp⟩
        · simp only [hm, if_false] at hr
          have hm27 : m < 27 := lt_of_le_of_ne hb.m_le hm
          by_cases hwin : has_win winlines x h = true
          · simp only [hwin, if_true] at hr
            injection hr with hr; subst hr
            have hv := negamax_win (o := o) hm27 ((has_win_iff x h).mp hwin)
            refine ⟨hv.symm, ?_⟩
            have := FinalExt.set_value hb (FinalExt.refl (cache_alloc c (bucket x o) x o))
            rw [hv] at this
            exact this
          · simp only [hwin, if_false] at hr
            cases hl : solve_loop (solve_fuel winlines fuel) x o m (List.range 9)
                { value := -99, c := cache_alloc c (bucket x o) x o, h := h,
                  hits := [], depth := 0 } with
            | error e => rw [hl] at hr; simp at hr
            | ok r2 =>
              rw [hl] at hr
              simp only at hr
              by_cases h99 : r2.value = -99
              · simp [h99] at hr
              · simp only [h99, if_false] at hr
                injection hr with hr; subst hr
                simp only at hex
                obtain ⟨hv, hf, _⟩ := solve_loop_correct fuel ih hb (List.range 9) _ r2
                  (fun n hn => List.mem_range.mp hn) rfl (hset.alloc hb) hl hex
                simp only at hv hf
                have hnw : ¬ Wins x h := fun hW => hwin ((has_win_iff x h).mpr hW)
                have hval : adj r2.value = negamax x o h m := by
                  rw [negamax_step hm27 hnw, hv]
                  congr 1
                  apply foldl_step_eq_maxValue
                  · intro v hv'
                    simp only [childValues, List.mem_map] at hv'
                    obtain ⟨n, _, rfl⟩ := hv'
                    have := negamax_range o (x ||| BIT (n + 9 * hget h n))
                      (h.set n (hget h n + 1)) (m + 1)
                    omega
                  · rw [← hv]; exact h99
                simp only [adj_eq, hval]
                exact ⟨trivial, FinalExt.set_value hb hf⟩
      · simp [hfull] at hr

/-! ## Room in the cache -/

/-- Spec: the number of calls of the cache-free recursion on the position with
`rem = 27 - m` plies left (positions reached along several paths count once for
each path). -/
def callCount_rem : Nat → Nat → Nat → List Nat → Nat
  | 0, _, _, _ => 1
  | rem + 1, x, o, h =>
    if Wins x h then 1
    else 1 + ((openColumns h).map (fun n =>
      callCount_rem rem o (x ||| BIT (n + 9 * hget h n)) (h.set n (hget h n + 1)))).sum

/-- Spec: the number of calls of the cache-free recursion on `(x, o, h, m)`. -/
def callCount (x o : Nat) (h : List Nat) (m : Int) : Nat := callCount_rem (27 - m).toNat x o h

/-- The numbers of calls below the columns `ns`. -/
def childCounts (x o : Nat) (h : List Nat) (m : Int) (ns : List Nat) : List Nat :=
  (ns.filter (fun n => hget h n < 3)).map (fun n =>
    callCount o (x ||| BIT (n + 9 * hget h n)) (h.set n (hget h n + 1)) (m + 1))

theorem callCount_pos (x o : Nat) (h : List Nat) (m : Int) : 1 ≤ callCount x o h m := by
  unfold callCount
  cases (27 - m).toNat with
  | zero => simp [callCount_rem]
  | succ k => rw [callCount_rem]; split <;> omega

theorem callCount_step {x o : Nat} {h : List Nat} {m : Int} (hm : m < 27) (hw : ¬ Wins x h) :
    callCount x o h m = 1 + (childCounts x o h m (List.range 9)).sum := by
  unfold callCount childCounts
  have e : (27 - m).toNat = (27 - (m + 1)).toNat + 1 := by omega
  rw [e, callCount_rem, if_neg hw]
  rfl

theorem solve_loop_room (fuel : Nat)
    (ih : ∀ (c : Cache) (x o : Nat) (h : List Nat) (m : Int),
      BoardInv { x := x, o := o, h := h, m := m } →
      c.cache_size + callCount x o h m ≤ MAXCACHE →
      solve_fuel winlines fuel c x o h m ≠ .error .cache_full ∧
        ∀ r, solve_fuel winlines fuel c x o h m = .ok r →
          r.c.cache_size ≤ c.cache_size + callCount x o h m)
    {x o : Nat} {h : List Nat} {m : Int} (hb : BoardInv { x := x, o := o, h := h, m := m }) :
    ∀ (ns : List Nat) (s : Outcome), (∀ n ∈ ns, n < 9) → s.h = h →
      s.c.cache_size + (childCounts x o h m ns).sum ≤ MAXCACHE →
      solve_loop (solve_fuel winlines fuel) x o m ns s ≠ .error .cache_full ∧
        ∀ r, solve_loop (solve_fuel winlines fuel) x o m ns s = .ok r →
          r.c.cache_size ≤ s.c.cache_size + (childCounts x o h m ns).sum := by
  intro ns
  induction ns with
  | nil =>
    intro s _ _ _
    simp only [solve_loop]
    refine ⟨by simp, ?_⟩
    intro r hr
    injection hr with hr; subst hr
    omega
  | cons n ns ihn =>
    intro s hns hsh hroom
    have hn9 : n < 9 := hns n (List.mem_cons_self _ _)
    have hns' : ∀ k ∈ ns, k < 9 := fun k hk => hns k (List.mem_cons_of_mem _ hk)
    simp only [solve_loop]
    rw [hsh]
    by_cases hlt : hget h n < 3
    · rw [if_pos hlt]
      have hcc : childCounts x o h m (n :: ns) =
          callCount o (x ||| BIT (n + 9 * hget h n)) (h.set n (hget h n + 1)) (m + 1) ::
            childCounts x o h m ns := by
        simp [childCounts, List.filter_cons, hlt]
      rw [hcc, List.sum_cons] at hroom ⊢
      obtain ⟨hne, hsz⟩ := ih s.c o (x ||| BIT (n + 9 * hget h n)) (h.set n (hget h n + 1))
        (m + 1) (hb.child hn9 hlt) (by omega)
      cases hc : solve_fuel winlines fuel s.c o (x ||| BIT (n + 9 * hget h n))
          (h.set n (hget h n + 1)) (m + 1) with
      | error e =>
        refine ⟨?_, by simp⟩
        simp only
        intro he
        injection he with he
        rw [he] at hc
        exact hne hc
      | ok r1 =>
        simp only
        have hs1 := hsz r1 hc
        have hh1 := (solve_fuel_frame winlines fuel _ _ _ _ _ _ hc).1
        obtain ⟨h1, h2⟩ := ihn
          { value := if -r1.value > s.value then -r1.value else s.value, c := r1.c,
            h := r1.h.set n (hget r1.h n - 1), hits := s.hits ++ r1.hits,
            depth := max s.depth (r1.depth + 1) } hns'
          (by simp only [hh1]; exact set_incr_decr h n)
          (by simp only; omega)
        refine ⟨h1, fun r hr => ?_⟩
        have := h2 r hr
        simp only at this
        omega
    · rw [if_neg hlt]
      have hcc : childCounts x o h m (n :: ns) = childCounts x o h m ns := by
        simp [childCounts, List.filter_cons, hlt]
      rw [hcc] at hroom ⊢
      exact ihn s hns' hsh hroom

/-- A call needs at most as many new cache entries as the cache-free recursion
makes calls: with that much room it does not stop at the assertion
`cache_size < MAXCACHE`. -/
theorem solve_fuel_room : ∀ (fuel : Nat) (c : Cache) (x o : Nat) (h : List Nat) (m : Int),
    BoardInv { x := x, o := o, h := h, m := m } →
    c.cache_size + callCount x o h m ≤ MAXCACHE →
    solve_fuel winlines fuel c x o h m ≠ .error .cache_full ∧
      ∀ r, solve_fuel winlines fuel c x o h m = .ok r →
        r.c.cache_size ≤ c.cache_size + callCount x o h m := by
  intro fuel
  induction fuel with
  | zero => intro c x o h m _ _; simp [solve_fuel]
  | succ fuel ih =>
    intro c x o h m hb hroom
    have hpos := callCount_pos x o h m
    cases hw : chain_walk x o (c.cache (bucket x o)) with
    | some e =>
      rw [solve_fuel_hit winlines fuel c x o h m hw]
      refine ⟨by simp, ?_⟩
      intro r hr
      injection hr with hr; subst hr
      simp only
      omega
    | none =>
      simp only [solve_fuel, hw]
      have hfull : c.cache_size < MAXCACHE := by omega
      simp only [hfull, not_true_eq_false, if_false]
      by_cases hm : m = 27
      · subst hm
        simp only [if_true]
        refine ⟨by simp, ?_⟩
        intro r hr
        injection hr with hr; subst hr
        simp only [cache_alloc]
        omega
      · simp only [hm, if_false]
        have hm27 : m < 27 := lt_of_le_of_ne hb.m_le hm
        by_cases hwin : has_win winlines x h = true
        · rw [if_pos hwin]
          refine ⟨by simp, ?_⟩
          intro r hr
          injection hr with hr; subst hr
          simp only [set_value, cache_alloc]
          omega
        · rw [if_neg hwin]
          have hnw : ¬ Wins x h := fun hW => hwin ((has_win_iff x h).mpr hW)
          rw [callCount_step hm27 hnw] at hroom ⊢
          obtain ⟨h1, h2⟩ := solve_loop_room fuel ih hb (List.range 9)
            { value := -99, c := cache_alloc c (bucket x o) x o, h := h, hits := [],
              depth := 0 }
            (fun n hn => List.mem_range.mp hn) rfl (by simp only [cache_alloc]; omega)
          cases hl : solve_loop (solve_fuel winlines fuel) x o m (List.range 9)
              { value := -99, c := cache_alloc c (bucket x o) x o, h := h,
                hits := [], depth := 0 } with
          | error e =>
            refine ⟨?_, by simp⟩
            simp only
            intro he
            injection he with he
            rw [he] at hl
            exact h1 hl
          | ok r2 =>
            simp only
            have hs2 := h2 r2 hl
            simp only [cache_alloc] at hs2
            by_cases h99 : r2.value = -99
            · simp [h99]
            · simp only [h99, if_false]
              refine ⟨by simp, ?_⟩
              intro r hr
              injection hr with hr; subst hr
              simp only [set_value]
              omega

/-! ## The search returns, with a value in range -/

theorem mem_chain_set_value {v : Int} : ∀ (k : Nat) (l : List CacheEntry) (e : CacheEntry),
    e ∈ chain_set_value v k l → e ∈ l ∨ e.value = v := by
  intro k l
  induction l generalizing k with
  | nil => intro e he; simp [chain_set_value] at he
  | cons a l ih =>
    intro e he
    cases k with
    | zero =>
      simp only [chain_set_value, List.mem_cons] at he
      rcases he with h | h
      · right; rw [h]
      · left; exact List.mem_cons_of_mem _ h
    | succ k =>
      simp only [chain_set_value, List.mem_cons] at he
      rcases he with h | h
      · left; rw [h]; exact List.mem_cons_self _ _
      · rcases ih k e h with h' | h'
        · left; exact List.mem_cons_of_mem _ h'
        · right; exact h'

theorem InRange.set_value_range {c : Cache} (hc : InRange c) (b k : Nat) {v : Int} (h1 : -27 ≤ v)
    (h2 : v ≤ 27) : InRange (set_value c b k v) := by
  intro b' e he
  by_cases hb : b' = b
  · subst hb
    rw [set_value_same] at he
    rcases mem_chain_set_value k _ e he with h | h
    · exact hc _ e h
    · rw [h]; exact ⟨h1, h2⟩
  · rw [set_value_other _ _ _ hb] at he
    exact hc _ e he

theorem InRange.alloc_range {c : Cache} (hc : InRange c) (b x o : Nat) :
    InRange (cache_alloc c b x o) := by
  intro b' e he
  by_cases hb : b' = b
  · subst hb
    rw [cache_alloc_same] at he
    rcases List.mem_append.mp he with h | h
    · exact hc _ e h
    · simp only [List.mem_singleton] at h
      rw [h]; simp
  · rw [cache_alloc_other c x o hb] at he
    exact hc _ e he

theorem InRange.empty : InRange emptyCache := by
  intro b e he; simp [emptyCache] at he

/-- The loop "solve recursively" on a position: it stops only when a recursive call
stops, it keeps the values in range, and `value` leaves `-99` as soon as a non-full
column has been visited. -/
theorem solve_loop_total (W : WinTable) (fuel : Nat)
    (ih : ∀ (c : Cache) (x o : Nat) (h : List Nat) (m : Int),
      BoardInv { x := x, o := o, h := h, m := m } → InRange c → slack h < fuel →
      solve_fuel W fuel c x o h m = .error .cache_full ∨
        ∃ r, solve_fuel W fuel c x o h m = .ok r ∧ InRange r.c ∧ -27 ≤ r.value ∧ r.value ≤ 27)
    {x o : Nat} {h : List Nat} {m : Int} (hb : BoardInv { x := x, o := o, h := h, m := m })
    (hfuel : slack h < fuel + 1) :
    ∀ (ns : List Nat) (s : Outcome), (∀ n ∈ ns, n < 9) → s.h = h → InRange s.c →
      (s.value = -99 ∨ (-27 ≤ s.value ∧ s.value ≤ 27)) →
      solve_loop (solve_fuel W fuel) x o m ns s = .error .cache_full ∨
        ∃ r, solve_loop (solve_fuel W fuel) x o m ns s = .ok r ∧ r.h = h ∧ InRange r.c ∧
          (r.value = -99 ∨ (-27 ≤ r.value ∧ r.value ≤ 27)) ∧
          ((-27 ≤ s.value ∨ ∃ n ∈ ns, hget h n < 3) → -27 ≤ r.value) := by
  intro ns
  induction ns with
  | nil =>
    intro s _ hsh hsc hsv
    right
    refine ⟨s, by simp [solve_loop], hsh, hsc, hsv, ?_⟩
    rintro (h1 | ⟨n, hn, _⟩)
    · exact h1
    · simp at hn
  | cons n ns ihn =>
    intro s hns hsh hsc hsv
    have hn9 : n < 9 := hns n (List.mem_cons_self _ _)
    have hns' : ∀ k ∈ ns, k < 9 := fun k hk => hns k (List.mem_cons_of_mem _ hk)
    simp only [solve_loop]
    rw [hsh]
    by_cases hlt : hget h n < 3
    · rw [if_pos hlt]
      have hlen : h.length = 9 := hb.1
      have hsl := slack_set hlen hn9 hlt
      rcases ih s.c o (x ||| BIT (n + 9 * hget h n)) (h.set n (hget h n + 1)) (m + 1)
        (hb.child hn9 hlt) hsc (by omega) with he | ⟨r1, hr1, hc1, hv1, hv2⟩
      · left; rw [he]
      · rw [hr1]
        simp only
        have hh1 := (solve_fuel_frame W fuel _ _ _ _ _ _ hr1).1
        rcases ihn
          { value := if -r1.value > s.value then -r1.value else s.value, c := r1.c,
            h := r1.h.set n (hget r1.h n - 1), hits := s.hits ++ r1.hits,
            depth := max s.depth (r1.depth + 1) } hns'
          (by simp only [hh1]; exact set_incr_decr h n) hc1
          (by right; simp only; split_ifs <;> constructor <;> omega)
          with he | ⟨r, hr, hrh, hrc, hrv, hrge⟩
        · left; exact he
        · right
          refine ⟨r, hr, hrh, hrc, hrv, fun _ => hrge (Or.inl ?_)⟩
          simp only
          split_ifs <;> omega
    · rw [if_neg hlt]
      rcases ihn s hns' hsh hsc hsv with he | ⟨r, hr, hrh, hrc, hrv, hrge⟩
      · left; exact he
      · right
        refine ⟨r, hr, hrh, hrc, hrv, ?_⟩
        rintro (h1 | ⟨k, hk, hk3⟩)
        · exact hrge (Or.inl h1)
        · rcases List.mem_cons.mp hk with h2 | h2
          · subst h2; exact absurd hk3 hlt
          · exact hrge (Or.inr ⟨k, h2, hk3⟩)

/-- On a position, with a cache whose values are in range, `solve` stops only at
the assertion `cache_size < MAXCACHE`; otherwise it returns a value in
`[-27, 27]` and leaves the values of the cache in range. -/
theorem solve_fuel_total (W : WinTable) : ∀ (fuel : Nat) (c : Cache) (x o : Nat) (h : List Nat)
    (m : Int), BoardInv { x := x, o := o, h := h, m := m } → InRange c → slack h < fuel →
    solve_fuel W fuel c x o h m = .error .cache_full ∨
      ∃ r, solve_fuel W fuel c x o h m = .ok r ∧ InRange r.c ∧ -27 ≤ r.value ∧ r.value ≤ 27 := by
  intro fuel
  induction fuel with
  | zero => intro c x o h m _ _ hs; omega
  | succ fuel ih =>
    intro c x o h m hb hc hs
    cases hw : chain_walk x o (c.cache (bucket x o)) with
    | some e =>
      right
      refine ⟨_, solve_fuel_hit W fuel c x o h m hw, hc, ?_⟩
      exact hc _ e (chain_walk_some hw).1
    | none =>
      simp only [solve_fuel, hw]
      by_cases hfull : c.cache_size < MAXCACHE
      · simp only [hfull, not_true_eq_false, if_false]
        by_cases hm : m = 27
        · right
          simp only [hm, if_true]
          exact ⟨_, rfl, hc.alloc_range _ x o, by simp, by simp⟩
        · simp only [hm, if_false]
          by_cases hwin : has_win W x h = true
          · right
            rw [if_pos hwin]
            exact ⟨_, rfl, (hc.alloc_range _ x o).set_value_range _ _ (by simp) (by simp), by simp, by simp⟩
          · rw [if_neg hwin]
            rcases solve_loop_total W fuel ih hb hs (List.range 9)
              { value := -99, c := cache_alloc c (bucket x o) x o, h := h, hits := [],
                depth := 0 }
              (fun n hn => List.mem_range.mp hn) rfl (hc.alloc_range _ x o) (Or.inl rfl)
              with he | ⟨r2, hr2, _, hrc, hrv, hrge⟩
            · left; rw [he]
            · right
              rw [hr2]
              simp only
              obtain ⟨n, hn, hn3⟩ := hb.exists_move hm
              have hge : -27 ≤ r2.value := hrge (Or.inr ⟨n, List.mem_range.mpr hn, hn3⟩)
              have h99 : r2.value ≠ -99 := by omega
              have hle : r2.value ≤ 27 := by
                rcases hrv with h | h
                · exact absurd h h99
                · exact h.2
              simp only [h99, if_false]
              have hadj := adj_range hge hle
              rw [adj_eq]
              exact ⟨_, rfl, hrc.set_value_range _ _ hadj.1 hadj.2, hadj.1, hadj.2⟩
      · left; simp [hfull]

/-- C2: from the empty cache, on a position that satisfies the invariant, `solve`
stops only at the assertion `cache_size < MAXCACHE`; otherwise it returns, with `h`
as it was at entry, and when every cache hit of the run was on an entry whose `x`
and `o` both equal the query, the returned value is the value `negamax` of the
cache-free recursion (0 when `m = 27`, `+27` when a non-full column's landing cell
completes a line for the mover, otherwise `adj` of the maximum over the non-full
columns of minus the value of the child). The assertion does not stop the run when
the cache-free recursion makes at most `MAXCACHE` calls. -/
theorem solve_eq_negamax (x o : Nat) (h : List Nat) (m : Int)
    (hb : BoardInv { x := x, o := o, h := h, m := m }) :
    (solve winlines emptyCache x o h m = .error .cache_full ∨
      ∃ r, solve winlines emptyCache x o h m = .ok r ∧ r.h = h ∧
        ((∀ t ∈ r.hits, t.exact) → r.value = negamax x o h m)) ∧
    (callCount x o h m ≤ MAXCACHE →
      solve winlines emptyCache x o h m ≠ .error .cache_full) := by
  constructor
  · rcases solve_fuel_total winlines 28 emptyCache x o h m hb InRange.empty
      (Nat.lt_succ_of_le (slack_le h)) with he | ⟨r, hr, _, _, _⟩
    · exact Or.inl he
    · right
      refine ⟨r, hr, (solve_frame winlines hr).1, fun hex => ?_⟩
      have hset : Settled emptyCache m := by
        intro b e he; simp [emptyCache] at he
      exact (solve_fuel_correct 28 emptyCache x o h m r hb hset hr hex).1
  · intro hroom
    exact (solve_fuel_room 28 emptyCache x o h m hb (by simpa [emptyCache] using hroom)).1

theorem solve_eq_negamax_witness :
    BoardInv posA ∧ callCount posA.x posA.o posA.h posA.m ≤ MAXCACHE ∧
      ∃ r, solve winlines emptyCache posA.x posA.o posA.h posA.m = .ok r ∧
        r.value = negamax posA.x posA.o posA.h posA.m ∧ r.value = 25 := by
  have hcc : callCount posA.x posA.o posA.h posA.m ≤ MAXCACHE := by decide!
  refine ⟨by decide, hcc, ?_⟩
  have hobs : observe (solve winlines emptyCache posA.x posA.o posA.h posA.m) = some (25, []) := by
    rw [winlines_eq]; decide!
  obtain ⟨h1, h2⟩ := solve_eq_negamax posA.x posA.o posA.h posA.m (by decide)
  rcases h1 with he | ⟨r, hr, _, hv⟩
  · exact absurd he (h2 hcc)
  · rw [hr] at hobs
    simp only [observe, Option.some.injEq, Prod.mk.injEq] at hobs
    refine ⟨r, hr, hv ?_, hobs.1⟩
    rw [hobs.2]; simp

/-! ## Masks that differ in one piece -/

theorem or_BIT_eq_add {b f : Nat} (hb : b < 2 ^ 32) (hf : f < 32) (h : b.testBit f = false) :
    b ||| BIT f = b + 2 ^ f := by
  rw [BIT_eq]
  have hf2 : 2 ^ f < 2 ^ 64 := Nat.pow_lt_pow_right (by decide) (by omega)
  have hf3 : 2 ^ f < 2 ^ 32 := Nat.pow_lt_pow_right (by decide) hf
  have hb2 : b < 2 ^ 64 := lt_trans hb (by norm_num)
  have h0 : (BitVec.ofNat 64 b) &&& (BitVec.ofNat 64 (2 ^ f)) = 0#64 := by
    apply BitVec.eq_of_toNat_eq
    simp only [BitVec.toNat_and, BitVec.toNat_ofNat, Nat.mod_eq_of_lt hf2, Nat.mod_eq_of_lt hb2]
    apply Nat.eq_of_testBit_eq
    intro i
    simp only [Nat.testBit_and, Nat.testBit_two_pow, Nat.zero_mod, Nat.zero_testBit]
    by_cases hfi : f = i
    · subst hfi; simp [h]
    · simp [hfi]
  have := congrArg BitVec.toNat (BitVec.add_eq_or_of_and_eq_zero _ _ h0)
  simp only [BitVec.toNat_add, BitVec.toNat_or, BitVec.toNat_ofNat, Nat.mod_eq_of_lt hf2,
    Nat.mod_eq_of_lt hb2] at this
  rw [← this]
  apply Nat.mod_eq_of_lt
  have : (2 : Nat) ^ 32 + 2 ^ 32 < 2 ^ 64 := by norm_num
  omega

theorem two_pow_mod_MAXCACHE : ∀ f ∈ List.range 32, 2 ^ f % MAXCACHE ≠ 0 := by decide

/-- Two 32-bit numbers that differ in exactly one bit lie in different buckets. -/
theorem mod_ne_of_one_bit {u v f : Nat} (hu : u < 2 ^ 32) (hf : f < 32)
    (hfu : u.testBit f = false) (hv : v = u ||| BIT f) : u % MAXCACHE ≠ v % MAXCACHE := by
  intro heq
  rw [hv, or_BIT_eq_add hu hf hfu] at heq
  have h1 : Nat.ModEq MAXCACHE (u + 0) (u + 2 ^ f) := by
    simpa [Nat.ModEq] using heq
  have h2 := Nat.ModEq.add_left_cancel' u h1
  exact two_pow_mod_MAXCACHE f (List.mem_range.mpr hf) h2.symm

theorem flip_bit_mod_ne {u f : Nat} (hu : u < 2 ^ 32) (hf : f < 32) :
    u % MAXCACHE ≠ (u ^^^ BIT f) % MAXCACHE := by
  have hB : BIT f < 2 ^ 32 := by rw [BIT_eq]; exact Nat.pow_lt_pow_right (by decide) hf
  cases hbit : u.testBit f with
  | true =>
    have hv : u = (u ^^^ BIT f) ||| BIT f := by
      apply Nat.eq_of_testBit_eq
      intro i
      simp only [Nat.testBit_xor, Nat.testBit_or, testBit_BIT]
      by_cases hfi : f = i
      · subst hfi; simp [hbit]
      · simp [hfi]
    have hclr : (u ^^^ BIT f).testBit f = false := by
      simp [Nat.testBit_xor, testBit_BIT, hbit]
    exact (mod_ne_of_one_bit (Nat.xor_lt_two_pow hu hB) hf hclr hv).symm
  | false =>
    have hv : u ^^^ BIT f = u ||| BIT f := by
      apply Nat.eq_of_testBit_eq
      intro i
      simp only [Nat.testBit_xor, Nat.testBit_or, testBit_BIT]
      by_cases hfi : f = i
      · subst hfi; simp [hbit]
      · simp [hfi]
    exact mod_ne_of_one_bit hu hf hbit hv

theorem bucket_ne_of_one_piece {x o f : Nat} (ho : o < 2 ^ 27) (hf : f < 27)
    (hfo : o.testBit f = false) : bucket x o ≠ bucket x (o ||| BIT f) := by
  unfold bucket
  have hA : 46351 * x % 2 ^ 32 < 2 ^ 32 := Nat.mod_lt _ (by positivity)
  have ho32 : o < 2 ^ 32 := lt_trans ho (by norm_num)
  generalize 46351 * x % 2 ^ 32 = A at hA
  have hflip : A ^^^ (o ||| BIT f) = (A ^^^ o) ^^^ BIT f := by
    apply Nat.eq_of_testBit_eq
    intro i
    simp only [Nat.testBit_xor, Nat.testBit_or, testBit_BIT]
    by_cases hfi : f = i
    · subst hfi; simp [hfo]
    · simp [hfi]
  rw [hflip]
  exact flip_bit_mod_ne (Nat.xor_lt_two_pow hA ho32) (by omega)

/-! ## Sub-masks and their number of pieces -/

theorem countP_eq_one {p : Nat → Bool} : ∀ l : List Nat, l.countP p = 1 →
    ∃ f ∈ l, p f = true ∧ ∀ i ∈ l, p i = true → i = f := by
  intro l
  induction l with
  | nil => intro h; simp at h
  | cons a l ih =>
    intro h
    rw [List.countP_cons] at h
    by_cases hpa : p a = true
    · rw [if_pos hpa] at h
      have h0 : l.countP p = 0 := by omega
      rw [List.countP_eq_zero] at h0
      refine ⟨a, List.mem_cons_self _ _, hpa, ?_⟩
      intro i hi hpi
      rcases List.mem_cons.mp hi with h1 | h1
      · exact h1
      · exact absurd hpi (h0 i h1)
    · rw [if_neg hpa] at h
      obtain ⟨f, hf, hpf, huniq⟩ := ih (by omega)
      refine ⟨f, List.mem_cons_of_mem _ hf, hpf, ?_⟩
      intro i hi hpi
      rcases List.mem_cons.mp hi with h1 | h1
      · subst h1; exact absurd hpi hpa
      · exact huniq i h1 hpi

theorem popcount_sub {a b : Nat} (hsub : ∀ i, a.testBit i = true → b.testBit i = true) :
    popcount b = popcount a +
      (List.range 32).countP (fun i => b.testBit i && !a.testBit i) := by
  unfold popcount
  rw [countP_or_of_disjoint]
  · apply List.countP_congr
    intro i _
    have := hsub i
    cases ha : a.testBit i <;> cases hb : b.testBit i <;> simp_all
  · intro i _ h
    simp at h
    exact absurd h.1 (by simp [h.2.2])

/-- A sub-mask with at least as many pieces is the whole mask. -/
theorem eq_of_sub_of_popcount {a b : Nat} (ha : a < 2 ^ 32) (hb : b < 2 ^ 32)
    (hsub : ∀ i, a.testBit i = true → b.testBit i = true) (hcnt : popcount b ≤ popcount a) :
    a = b := by
  have h := popcount_sub hsub
  have h0 : (List.range 32).countP (fun i => b.testBit i && !a.testBit i) = 0 := by omega
  rw [List.countP_eq_zero] at h0
  apply Nat.eq_of_testBit_eq
  intro i
  by_cases hi : i < 32
  · have := h0 i (List.mem_range.mpr hi)
    have := hsub i
    cases ha' : a.testBit i <;> cases hb' : b.testBit i <;> simp_all
  · rw [testBit_of_lt ha (Nat.le_of_not_lt hi), testBit_of_lt hb (Nat.le_of_not_lt hi)]

/-- A sub-mask with one piece less is the mask without one of its pieces. -/
theorem exists_piece_of_sub {a b : Nat} (ha : a < 2 ^ 32) (hb : b < 2 ^ 32)
    (hsub : ∀ i, a.testBit i = true → b.testBit i = true) (hcnt : popcount b = popcount a + 1) :
    ∃ f < 32, a.testBit f = false ∧ b.testBit f = true ∧ b = a ||| BIT f := by
  have h := popcount_sub hsub
  have h1 : (List.range 32).countP (fun i => b.testBit i && !a.testBit i) = 1 := by omega
  obtain ⟨f, hf, hpf, huniq⟩ := countP_eq_one _ h1
  simp only [Bool.and_eq_true, Bool.not_eq_true'] at hpf
  refine ⟨f, List.mem_range.mp hf, hpf.2, hpf.1, ?_⟩
  apply Nat.eq_of_testBit_eq
  intro i
  simp only [Nat.testBit_or, testBit_BIT]
  by_cases hfi : f = i
  · subst hfi; simp [hpf.1]
  · simp only [hfi, decide_False, Bool.or_false]
    by_cases hi : i < 32
    · have hu := huniq i (List.mem_range.mpr hi)
      have hs := hsub i
      cases ha' : a.testBit i <;> cases hb' : b.testBit i <;> simp_all
    · rw [testBit_of_lt ha (Nat.le_of_not_lt hi), testBit_of_lt hb (Nat.le_of_not_lt hi)]

/-! ## Positions of the game and the caches the search builds from them -/

theorem GamePos.child_pos {x o : Nat} {h : List Nat} {m : Int} (hp : GamePos x o h m) {n : Nat}
    (hn : n < 9) (hlt : hget h n < 3) :
    GamePos o (x ||| BIT (n + 9 * hget h n)) (h.set n (hget h n + 1)) (m + 1) := by
  refine ⟨hp.1.child hn hlt, ?_⟩
  obtain ⟨_, _, _, _, hle, hg, _⟩ := hp.1
  simp only at hle hg
  have hfree : (x ||| o).testBit (n + 9 * hget h n) = false := by
    rw [hg n hn _ hlt]; simp
  rw [Nat.testBit_or, Bool.or_eq_false_iff] at hfree
  rw [popcount_or_BIT (by omega) hfree.1]
  rcases hp.2 with h1 | h1 <;> omega

theorem GamePos.keyOK {x o : Nat} {h : List Nat} {m : Int} (hp : GamePos x o h m) {v : Int}
    (hv : m = 27 → v = 0) : KeyOK (bucket x o) { x := x, o := o, value := v } := by
  obtain ⟨⟨_, hx, ho, hd, _, _, hcnt⟩, hbal⟩ := hp
  simp only at hx ho hd hcnt
  refine ⟨rfl, hx, ho, hd, hbal, ?_⟩
  intro h27
  apply hv
  simp only at h27
  rw [hcnt]
  exact_mod_cast h27

theorem KeysOK.alloc_keys {c : Cache} (hc : KeysOK c) {x o : Nat} {h : List Nat} {m : Int}
    (hp : GamePos x o h m) : KeysOK (cache_alloc c (bucket x o) x o) := by
  intro b e he
  by_cases hb : b = bucket x o
  · subst hb
    rw [cache_alloc_same] at he
    rcases List.mem_append.mp he with h1 | h1
    · exact hc _ e h1
    · simp only [List.mem_singleton] at h1
      subst h1
      exact hp.keyOK (fun _ => rfl)
  · rw [cache_alloc_other c x o hb] at he
    exact hc _ e he

/-- Completing the entry of a call on a position that is not full. -/
theorem KeysOK.set_value_keys {c c2 : Cache} {x o : Nat} {h : List Nat} {m : Int}
    (hp : GamePos x o h m) (hm : m ≠ 27) (hext : Extends (cache_alloc c (bucket x o) x o) c2)
    (hc2 : KeysOK c2) (v : Int) :
    KeysOK (set_value c2 (bucket x o) (c.cache (bucket x o)).length v) := by
  intro b e he
  by_cases hb : b = bucket x o
  · subst hb
    obtain ⟨suf, hs⟩ := hext (bucket x o)
    rw [cache_alloc_same, List.append_assoc, List.singleton_append] at hs
    rw [set_value_same, hs, chain_set_value_append] at he
    have hold : ∀ e', e' ∈ c.cache (bucket x o) ∨ e' ∈ suf → KeyOK (bucket x o) e' := by
      intro e' he'
      apply hc2
      rw [hs]
      rcases he' with h1 | h1
      · exact List.mem_append_left _ h1
      · exact List.mem_append_right _ (List.mem_cons_of_mem _ h1)
    rcases List.mem_append.mp he with h1 | h1
    · exact hold e (Or.inl h1)
    · rcases List.mem_cons.mp h1 with h2 | h2
      · subst h2
        exact hp.keyOK (fun h27 => absurd h27 hm)
      · exact hold e (Or.inr h2)
  · rw [set_value_other _ _ _ hb] at he
    exact hc2 _ e he

/-- `solve` on a position of the game keeps the entries of the cache keyed by
positions of the game, with 0 for the full boards. -/
theorem solve_fuel_keys (W : WinTable) : ∀ (fuel : Nat) (c : Cache) (x o : Nat) (h : List Nat)
    (m : Int) (r : Outcome), GamePos x o h m → KeysOK c →
    solve_fuel W fuel c x o h m = .ok r → KeysOK r.c := by
  intro fuel
  induction fuel with
  | zero => intro c x o h m r _ _ hr; simp [solve_fuel] at hr
  | succ fuel ih =>
    intro c x o h m r hp hc hr
    cases hw : chain_walk x o (c.cache (bucket x o)) with
    | some e =>
      rw [solve_fuel_hit W fuel c x o h m hw] at hr
      injection hr with hr; subst hr
      exact hc
    | none =>
      simp only [solve_fuel, hw] at hr
      by_cases hfull : c.cache_size < MAXCACHE
      · simp only [hfull, not_true_eq_false, if_false] at hr
        by_cases hm : m = 27
        · simp only [hm, if_true] at hr
          injection hr with hr; subst hr
          exact hc.alloc_keys hp
        · simp only [hm, if_false] at hr
          by_cases hwin : has_win W x h = true
          · rw [if_pos hwin] at hr
            injection hr with hr; subst hr
            exact KeysOK.set_value_keys hp hm (Extends.same _) (hc.alloc_keys hp) 27
          · rw [if_neg hwin] at hr
            have hloop := solve_loop_ind (R := solve_fuel W fuel) (x := x) (o := o) (m := m)
              (fun s => s.h = h ∧ Extends (cache_alloc c (bucket x o) x o) s.c ∧ KeysOK s.c)
              (fun _ => True) (List.range 9)
              (by
                intro s n hn hs hlt
                have hn9 : n < 9 := List.mem_range.mp hn
                rw [hs.1] at hlt ⊢
                cases hrec : solve_fuel W fuel s.c o (x ||| BIT (n + 9 * hget h n))
                    (h.set n (hget h n + 1)) (m + 1) with
                | error e => trivial
                | ok r1 =>
                  obtain ⟨h1, h2, _, _⟩ := solve_fuel_frame W _ _ _ _ _ _ _ hrec
                  refine ⟨?_, Extends.chain hs.2.1 h2,
                    ih _ _ _ _ _ r1 (hp.child_pos hn9 hlt) hs.2.2 hrec⟩
                  simp only [h1]
                  exact set_incr_decr h n)
              (List.range 9) { value := -99, c := cache_alloc c (bucket x o) x o, h := h,
                               hits := [], depth := 0 }
              (fun _ hn => hn) ⟨rfl, Extends.same _, hc.alloc_keys hp⟩
            cases hl : solve_loop (solve_fuel W fuel) x o m (List.range 9)
                { value := -99, c := cache_alloc c (bucket x o) x o, h := h,
                  hits := [], depth := 0 } with
            | error e => rw [hl] at hr; simp at hr
            | ok r2 =>
              rw [hl] at hr hloop
              simp only at hr hloop
              by_cases h99 : r2.value = -99
              · simp [h99] at hr
              · simp only [h99, if_false] at hr
                injection hr with hr; subst hr
                exact KeysOK.set_value_keys hp hm hloop.2.1 hloop.2.2 _
      · simp [hfull] at hr

theorem Played.keysOK {W : WinTable} {c : Cache} (hc : Played W c) : KeysOK c := by
  induction hc with
  | empty => intro b e he; simp [emptyCache] at he
  | call _ hp hr ih => exact solve_fuel_keys W 28 _ _ _ _ _ _ hp ih hr

/-! ## The full board -/

theorem testBit_of_popcount_27 {a : Nat} (ha : a < 2 ^ 27) (hp : popcount a = 27) :
    ∀ i < 27, a.testBit i = true := by
  unfold popcount at hp
  have h32 : List.range 32 = List.range 27 ++ [27, 28, 29, 30, 31] := by decide
  rw [h32, List.countP_append] at hp
  have h2 : ([27, 28, 29, 30, 31] : List Nat).countP (fun n => a.testBit n) = 0 := by
    rw [List.countP_eq_zero]
    intro k hk
    have hk27 : 27 ≤ k := by
      simp only [List.mem_cons, List.mem_singleton, List.not_mem_nil, or_false] at hk
      omega
    simp [testBit_of_lt ha hk27]
  have h1 : (List.range 27).countP (fun n => a.testBit n) = (List.range 27).length := by
    rw [List.length_range]; omega
  rw [List.countP_eq_length] at h1
  intro i hi
  exact h1 i (List.mem_range.mpr hi)

/-- On a full board of the game the mover has 13 pieces, the opponent the other 14
cells. -/
theorem GamePos.full {x o : Nat} {h : List Nat} (hp : GamePos x o h 27) :
    popcount x = 13 ∧ popcount o = 14 ∧ ∀ i < 27, (x.testBit i = true ∨ o.testBit i = true) := by
  obtain ⟨⟨_, hx, ho, hd, _, _, hcnt⟩, hbal⟩ := hp
  simp only at hx ho hd hcnt
  have hsum : popcount x + popcount o = 27 := by exact_mod_cast hcnt.symm
  refine ⟨by omega, by omega, ?_⟩
  intro i hi
  have := testBit_of_popcount_27 (Nat.or_lt_two_pow hx ho)
    (by rw [← popcount_add_of_disjoint hd]; exact hsum) i hi
  simpa [Nat.testBit_or] using this

theorem not_testBit_of_and_eq_zero {a b : Nat} (h : a &&& b = 0) {i : Nat}
    (ha : a.testBit i = true) : b.testBit i = false := by
  have := congrArg (fun t => Nat.testBit t i) h
  simpa [Nat.testBit_and, ha] using this

/-- In the chain of the bucket of a full board of the game, an entry that agrees
with it in `x` or in `o` agrees with it in both. -/
theorem full_board_match {x o : Nat} {h : List Nat} (hp : GamePos x o h 27) {e : CacheEntry}
    (he : KeyOK (bucket x o) e) (hxo : e.x = x ∨ e.o = o) : e.x = x ∧ e.o = o := by
  obtain ⟨hpx, hpo, hall⟩ := hp.full
  obtain ⟨⟨_, hx, ho, hd, _, _, _⟩, _⟩ := hp
  simp only at hx ho hd
  obtain ⟨hbk, hex, heo, hed, hebal, _⟩ := he
  have lt32 : ∀ {a : Nat}, a < 2 ^ 27 → a < 2 ^ 32 := fun h => lt_trans h (by norm_num)
  rcases hxo with h1 | h1
  · refine ⟨h1, ?_⟩
    have hsub : ∀ i, e.o.testBit i = true → o.testBit i = true := by
      intro i hi
      have hi27 : i < 27 := by
        by_contra hge
        rw [testBit_of_lt heo (Nat.le_of_not_lt hge)] at hi
        exact Bool.false_ne_true hi
      have hnx : x.testBit i = false := by
        rw [← h1]
        exact not_testBit_of_and_eq_zero (by rw [Nat.land_comm]; exact hed) hi
      rcases hall i hi27 with h2 | h2
      · rw [hnx] at h2; exact absurd h2 Bool.false_ne_true
      · exact h2
    rw [h1, hpx] at hebal
    rcases hebal with h13 | h14
    · exfalso
      obtain ⟨f, _, hf1, hf2, hf3⟩ := exists_piece_of_sub (lt32 heo) (lt32 ho) hsub (by omega)
      have hf27 : f < 27 := by
        by_contra hge
        rw [testBit_of_lt ho (Nat.le_of_not_lt hge)] at hf2
        exact Bool.false_ne_true hf2
      have := bucket_ne_of_one_piece (x := x) heo hf27 hf1
      rw [← hf3] at this
      rw [h1] at hbk
      exact this hbk
    · exact eq_of_sub_of_popcount (lt32 heo) (lt32 ho) hsub (by omega)
  · refine ⟨?_, h1⟩
    have hsub : ∀ i, e.x.testBit i = true → x.testBit i = true := by
      intro i hi
      have hi27 : i < 27 := by
        by_contra hge
        rw [testBit_of_lt hex (Nat.le_of_not_lt hge)] at hi
        exact Bool.false_ne_true hi
      have hno : o.testBit i = false := by
        rw [← h1]
        exact not_testBit_of_and_eq_zero hed hi
      rcases hall i hi27 with h2 | h2
      · exact h2
      · rw [hno] at h2; exact absurd h2 Bool.false_ne_true
    rw [h1, hpo] at hebal
    exact eq_of_sub_of_popcount (lt32 hex) (lt32 hx) hsub (by omega)

/-- C9: on a full board of the game (`m = 27`), in any cache that earlier top-level
calls of `solve` on positions of the game have built from the empty cache, and
with room for one more entry (`cache_size < MAXCACHE`), `solve` returns 0 and leaves
`h` as it was. Afterwards the chain of the bucket holds an entry for `(x, o)`, and
every entry for `(x, o)` holds the value 0. -/
theorem solve_full_board (W : WinTable) (c : Cache) (x o : Nat) (h : List Nat)
    (hc : Played W c) (hp : GamePos x o h 27) (hroom : c.cache_size < MAXCACHE) :
    ∃ r, solve W c x o h 27 = .ok r ∧ r.value = 0 ∧ r.h = h ∧
      (∃ e ∈ r.c.cache (bucket x o), e.x = x ∧ e.o = o) ∧
      (∀ e ∈ r.c.cache (bucket x o), e.x = x → e.o = o → e.value = 0) := by
  have hk := hc.keysOK
  have hzero : ∀ (c' : Cache), KeysOK c' →
      ∀ e ∈ c'.cache (bucket x o), e.x = x → e.o = o → e.value = 0 := by
    intro c' hk' e he hx ho
    obtain ⟨_, _, _, _, _, h27⟩ := hk' _ e he
    apply h27
    rw [hx, ho, hp.full.1, hp.full.2.1]
  cases hw : chain_walk x o (c.cache (bucket x o)) with
  | some e =>
    obtain ⟨hmem, hxo⟩ := chain_walk_some hw
    obtain ⟨h1, h2⟩ := full_board_match hp (hk _ e hmem) hxo
    refine ⟨_, solve_fuel_hit W 27 c x o h 27 hw, hzero c hk e hmem h1 h2, rfl,
      ⟨e, hmem, h1, h2⟩, hzero c hk⟩
  | none =>
    have hs : solve W c x o h 27 =
        .ok { value := 0, c := cache_alloc c (bucket x o) x o, h := h, hits := [],
              depth := 0 } := by
      simp [solve, solve_fuel, hw, hroom]
    refine ⟨_, hs, rfl, rfl, ⟨{ x := x, o := o, value := 0 }, ?_, rfl, rfl⟩,
      hzero _ (hk.alloc_keys hp)⟩
    rw [cache_alloc_same]
    simp

theorem solve_full_board_witness :
    GamePos fullBoard.x fullBoard.o fullBoard.h 27 ∧
      ∃ r, solve winlines emptyCache fullBoard.x fullBoard.o fullBoard.h 27 = .ok r ∧
        r.value = 0 :=
  ⟨by decide,
    let ⟨r, h1, h2, _⟩ := solve_full_board winlines emptyCache fullBoard.x fullBoard.o
      fullBoard.h Played.empty (by decide) (by decide)
    ⟨r, h1, h2⟩⟩

/-! ## Move selection -/

theorem foldl_max_ge (l : List Int) (a : Int) :
    a ≤ l.foldl max a ∧ ∀ v ∈ l, v ≤ l.foldl max a := by
  induction l generalizing a with
  | nil => simp
  | cons b l ih =>
    simp only [List.foldl_cons, List.mem_cons, forall_eq_or_imp]
    obtain ⟨h1, h2⟩ := ih (max a b)
    exact ⟨le_trans (le_max_left a b) h1, le_trans (le_max_right a b) h1, h2⟩

theorem le_maxValue {l : List Int} {v : Int} (hv : v ∈ l) : v ≤ maxValue l := by
  cases l with
  | nil => simp at hv
  | cons a l =>
    rcases List.mem_cons.mp hv with h | h
    · rw [h]; exact (foldl_max_ge l a).1
    · exact (foldl_max_ge l a).2 v h

theorem maxValue_append_singleton {l : List Int} (hl : l ≠ []) (v : Int) :
    maxValue (l ++ [v]) = max (maxValue l) v := by
  cases l with
  | nil => exact absurd rfl hl
  | cons a l => simp [maxValue, List.foldl_append]

theorem bestColumns_append_singleton {pre : List ((Int × Int) × Int)} (hpre : pre ≠ [])
    (p : (Int × Int) × Int) :
    bestColumns (pre ++ [p]) =
      if p.2 > maxValue (pre.map (fun q => q.2)) then [p.1]
      else if p.2 = maxValue (pre.map (fun q => q.2)) then bestColumns pre ++ [p.1]
      else bestColumns pre := by
  have hne : pre.map (fun q => q.2) ≠ [] := by simpa using hpre
  unfold bestColumns
  rw [List.map_append, List.map_singleton, maxValue_append_singleton hne, List.filter_append,
    List.map_append]
  have hle : ∀ q ∈ pre, q.2 ≤ maxValue (pre.map (fun q => q.2)) :=
    fun q hq => le_maxValue (List.mem_map_of_mem _ hq)
  rcases lt_trichotomy p.2 (maxValue (pre.map (fun q => q.2))) with h | h | h
  · rw [if_neg (not_lt.mpr (le_of_lt h)), if_neg (ne_of_lt h), max_eq_left (le_of_lt h)]
    simp [List.filter_cons, ne_of_lt h]
  · rw [if_neg (by rw [h]; exact lt_irrefl _), if_pos h, max_eq_left (le_of_eq h)]
    simp [List.filter_cons, h]
  · rw [if_pos h, max_eq_right (le_of_lt h)]
    have : pre.filter (fun q => decide (q.2 = p.2)) = [] := by
      rw [List.filter_eq_nil_iff]
      intro q hq
      have := hle q hq
      simp only [decide_eq_true_eq]
      omega
    simp [List.filter_cons, this]

/-- Tracking the running maximum and resetting the list on a strictly greater value
yields the columns of maximal value. -/
theorem track_eq_best : ∀ (rest pre : List ((Int × Int) × Int)), pre ≠ [] →
    rest.foldl track_step (maxValue (pre.map (fun q => q.2)), bestColumns pre) =
      (maxValue ((pre ++ rest).map (fun q => q.2)), bestColumns (pre ++ rest)) := by
  intro rest
  induction rest with
  | nil => intro pre _; simp
  | cons p rest ih =>
    intro pre hpre
    have hne : pre.map (fun q => q.2) ≠ [] := by simpa using hpre
    have e : pre ++ p :: rest = (pre ++ [p]) ++ rest := by simp
    rw [List.foldl_cons, e, ← ih (pre ++ [p]) (by simp)]
    congr 1
    rw [bestColumns_append_singleton hpre, List.map_append, List.map_singleton,
      maxValue_append_singleton hne]
    unfold track_step
    rcases lt_trichotomy p.2 (maxValue (pre.map (fun q => q.2))) with h | h | h
    · simp [not_lt.mpr (le_of_lt h), ne_of_lt h, max_eq_left (le_of_lt h), h]
    · simp [h]
    · simp [h, max_eq_right (le_of_lt h)]

theorem track_from_start (vs : List ((Int × Int) × Int)) (hvs : ∀ p ∈ vs, -27 ≤ p.2) :
    (vs.foldl track_step (-99, [])).2 = bestColumns vs := by
  cases vs with
  | nil => simp [bestColumns]
  | cons p rest =>
    have hp := hvs p (List.mem_cons_self _ _)
    have h1 : track_step (-99, []) p = (maxValue ([p].map (fun q => q.2)), bestColumns [p]) := by
      unfold track_step bestColumns
      have : p.2 > -99 := by omega
      simp [this, maxValue]
    rw [List.foldl_cons, h1, track_eq_best rest [p] (by simp)]
    simp

theorem BoardInv.swap {x o : Nat} {h : List Nat} {m : Int}
    (hb : BoardInv { x := x, o := o, h := h, m := m }) :
    BoardInv { x := o, o := x, h := h, m := m } := by
  obtain ⟨hlen, hx, ho, hd, hle, hg, hcnt⟩ := hb
  simp only at hlen hx ho hd hle hg hcnt
  refine ⟨hlen, ho, hx, by simpa [Nat.land_comm] using hd, hle, ?_, ?_⟩
  · intro n hn k hk
    have := hg n hn k hk
    simpa [Nat.lor_comm] using this
  · simp only; rw [hcnt]; push_cast; ring

/-- The position `solve_board` passes to `solve` after a move satisfies the
invariant. -/
theorem BoardInv.after_move {b : Board} (hb : BoardInv b) {n : Nat} (hn : n < 9)
    (hlt : hget b.h n < 3) :
    BoardInv
      { x := if (b.m + 1) % 2 ≠ 0 then b.o else b.x ||| BIT (n + 9 * hget b.h n),
        o := if (b.m + 1) % 2 ≠ 0 then b.x ||| BIT (n + 9 * hget b.h n) else b.o,
        h := b.h.set n (hget b.h n + 1), m := b.m + 1 } ∧
    BoardInv
      { x := if (b.m + 1) % 2 ≠ 0 then b.o ||| BIT (n + 9 * hget b.h n) else b.x,
        o := if (b.m + 1) % 2 ≠ 0 then b.x else b.o ||| BIT (n + 9 * hget b.h n),
        h := b.h.set n (hget b.h n + 1), m := b.m + 1 } := by
  have h1 : BoardInv { x := b.x, o := b.o, h := b.h, m := b.m } := hb
  have c1 := h1.child hn hlt
  have c2 := h1.swap.child hn hlt
  by_cases hp : (b.m + 1) % 2 ≠ 0
  · simp only [if_pos hp]
    exact ⟨c1, c2.swap⟩
  · simp only [if_neg hp]
    exact ⟨c1.swap, c2⟩

/-- On a board that satisfies the invariant and a cache with values in range, the
value of a valid column lies in `[-27, 27]`, the board comes back unchanged and the
values of the cache stay in range. -/
theorem column_value_frame (W : WinTable) {c : Cache} {b : Board} {i j : Int}
    (hb : BoardInv b) (hc : InRange c) (hv : is_valid_move b i j = true) {v : Int}
    {c1 : Cache} {b1 : Board} (hr : column_value W c b i j = .ok (v, c1, b1)) :
    b1 = b ∧ InRange c1 ∧ -27 ≤ v ∧ v ≤ 27 := by
  unfold column_value at hr
  cases hw : is_winning_move W b i j with
  | none => rw [hw] at hr; simp at hr
  | some w =>
    rw [hw] at hr
    cases w with
    | true =>
      simp only [Except.ok.injEq, Prod.mk.injEq] at hr
      obtain ⟨rfl, rfl, rfl⟩ := hr
      exact ⟨rfl, hc, by decide, by decide⟩
    | false =>
      obtain ⟨bm, hdo, hundo, hbm⟩ := do_move_spec b i j hb hv
      obtain ⟨hi0, hi3, hj0, hj3, hh⟩ := valid_bounds hv
      have hn : (3 * i + j).toNat < 9 := by omega
      simp only [hdo] at hr
      have hinv : BoardInv { x := if bm.m % 2 ≠ 0 then bm.o else bm.x,
                             o := if bm.m % 2 ≠ 0 then bm.x else bm.o,
                             h := bm.h, m := bm.m } := by
        have := hb.after_move hn hh
        by_cases hpar : b.m % 2 = 0
        · rw [if_pos hpar] at hbm
          rw [hbm]
          have hp : (b.m + 1) % 2 ≠ 0 := by omega
          simp only [if_pos hp] at this ⊢
          exact this.1
        · rw [if_neg hpar] at hbm
          rw [hbm]
          have hp : ¬ (b.m + 1) % 2 ≠ 0 := by omega
          simp only [if_neg hp] at this ⊢
          exact this.2
      unfold solve_board at hr
      rcases solve_fuel_total W 28 c _ _ _ _ hinv hc (Nat.lt_succ_of_le (slack_le _))
        with he | ⟨r, hs, hrc, hv1, hv2⟩
      · have he' : solve W c (if bm.m % 2 ≠ 0 then bm.o else bm.x)
            (if bm.m % 2 ≠ 0 then bm.x else bm.o) bm.h bm.m = .error .cache_full := he
        rw [he'] at hr
        simp at hr
      · have hs' : solve W c (if bm.m % 2 ≠ 0 then bm.o else bm.x)
            (if bm.m % 2 ≠ 0 then bm.x else bm.o) bm.h bm.m = .ok r := hs
        have hrh := (solve_frame W hs').1
        rw [hs'] at hr
        simp only [hrh] at hr
        have : ({ x := bm.x, o := bm.o, h := bm.h, m := bm.m } : Board) = bm := rfl
        rw [this, hundo] at hr
        simp only [Except.ok.injEq, Prod.mk.injEq] at hr
        obtain ⟨rfl, rfl, rfl⟩ := hr
        exact ⟨rfl, hrc, by omega, by omega⟩

theorem scores_range (W : WinTable) {b : Board} (hb : BoardInv b) :
    ∀ (cols : List (Int × Int)) (c : Cache) (vs : List ((Int × Int) × Int)) (c1 : Cache),
    InRange c → scores W b cols c = .ok (vs, c1) →
    InRange c1 ∧ (∀ p ∈ vs, -27 ≤ p.2 ∧ p.2 ≤ 27) ∧
      vs.map (fun p => p.1) = cols.filter (fun p => is_valid_move b p.1 p.2) := by
  intro cols
  induction cols with
  | nil =>
    intro c vs c1 hc hr
    simp only [scores, Except.ok.injEq, Prod.mk.injEq] at hr
    obtain ⟨rfl, rfl⟩ := hr
    exact ⟨hc, by simp, by simp⟩
  | cons p cols ih =>
    intro c vs c1 hc hr
    obtain ⟨i, j⟩ := p
    simp only [scores] at hr
    by_cases hv : is_valid_move b i j = true
    · rw [if_pos hv] at hr
      cases hcv : column_value W c b i j with
      | error e => rw [hcv] at hr; simp at hr
      | ok t =>
        obtain ⟨v, c2, b2⟩ := t
        rw [hcv] at hr
        simp only at hr
        obtain ⟨_, hc2, hv1, hv2⟩ := column_value_frame W hb hc hv hcv
        cases hsc : scores W b cols c2 with
        | error e => rw [hsc] at hr; simp at hr
        | ok t2 =>
          obtain ⟨vs2, c3⟩ := t2
          rw [hsc] at hr
          simp only [Except.ok.injEq, Prod.mk.injEq] at hr
          obtain ⟨rfl, rfl⟩ := hr
          obtain ⟨h1, h2, h3⟩ := ih c2 vs2 c3 hc2 hsc
          refine ⟨h1, ?_, ?_⟩
          · intro q hq
            rcases List.mem_cons.mp hq with h | h
            · rw [h]; exact ⟨hv1, hv2⟩
            · exact h2 q h
          · simp [List.filter_cons, hv, h3]
    · rw [if_neg hv] at hr
      obtain ⟨h1, h2, h3⟩ := ih c vs c1 hc hr
      exact ⟨h1, h2, by simp [List.filter_cons, hv, h3]⟩

/-- The loop of `pick_move` scores the legal columns and tracks the best ones. -/
theorem pick_loop_eq (W : WinTable) {b : Board} (hb : BoardInv b) :
    ∀ (cols : List (Int × Int)) (s : PickState), s.b = b → InRange s.c →
    pick_loop W cols s =
      match scores W b cols s.c with
      | .error e => .error e
      | .ok (vs, c1) =>
        .ok { c := c1, b := b, best_v := (vs.foldl track_step (s.best_v, s.best)).1,
              best := (vs.foldl track_step (s.best_v, s.best)).2 } := by
  intro cols
  induction cols with
  | nil =>
    intro s hsb _
    simp only [pick_loop, scores, List.foldl_nil]
    rw [← hsb]
  | cons p cols ih =>
    intro s hsb hc
    obtain ⟨i, j⟩ := p
    simp only [pick_loop, scores, pick_step]
    rw [hsb]
    by_cases hv : is_valid_move b i j = true
    · simp only [hv, if_true]
      cases hcv : column_value W s.c b i j with
      | error e => rfl
      | ok t =>
        obtain ⟨v, c2, b2⟩ := t
        obtain ⟨hb2, hc2, _, _⟩ := column_value_frame W hb hc hv hcv
        subst hb2
        simp only
        rw [ih _ rfl hc2]
        simp only
        cases hsc : scores W b2 cols c2 with
        | error e => rfl
        | ok t2 =>
          obtain ⟨vs2, c3⟩ := t2
          simp only [List.foldl_cons, track_step]
    · simp only [hv, Bool.false_eq_true, if_false]
      rw [ih s hsb hc]

theorem foldl_max_mem (l : List Int) (a : Int) : l.foldl max a = a ∨ l.foldl max a ∈ l := by
  induction l generalizing a with
  | nil => simp
  | cons b l ih =>
    simp only [List.foldl_cons, List.mem_cons]
    rcases ih (max a b) with h | h
    · rw [h]
      rcases max_choice a b with h1 | h1
      · left; exact h1
      · right; left; exact h1
    · right; right; exact h

theorem maxValue_mem {l : List Int} (hl : l ≠ []) : maxValue l ∈ l := by
  cases l with
  | nil => exact absurd rfl hl
  | cons a l =>
    simp only [maxValue, List.mem_cons]
    exact foldl_max_mem l a

theorem mem_bestColumns {vs : List ((Int × Int) × Int)} {col : Int × Int} :
    col ∈ bestColumns vs ↔ ∃ v, (col, v) ∈ vs ∧ v = maxValue (vs.map (fun q => q.2)) := by
  simp only [bestColumns, List.mem_map, List.mem_filter, decide_eq_true_eq]
  constructor
  · rintro ⟨p, ⟨hp, hv⟩, rfl⟩
    exact ⟨p.2, hp, hv⟩
  · rintro ⟨v, hp, hv⟩
    exact ⟨(col, v), ⟨hp, hv⟩, rfl⟩

/-- C10: on a board that satisfies the invariant, with a cache whose values lie in
`[-27, 27]`, let `vs` list the legal columns in row-major order, each with its value
(`+27` for a winning move, otherwise minus what `solve_board` returns after
`do_move`), as `scores` computes them. Then `pick_move` stops exactly when the
scoring stops, and otherwise returns `best[r mod n]` for the list `best` of the
columns of `vs` of maximal value (nothing when there is no legal column), leaving
the board unchanged. So the returned column has maximal value for every `r`, and
every column of maximal value is returned for some `r`. -/
theorem pick_move_best (W : WinTable) (c : Cache) (b : Board) (hb : BoardInv b)
    (hc : InRange c) :
    (∀ r, pick_move W c b r =
      match scores W b columns c with
      | .error e => .error e
      | .ok (vs, c1) => .ok (choose vs r, c1, b)) ∧
    (∀ vs c1, scores W b columns c = .ok (vs, c1) →
      vs.map (fun p => p.1) = columns.filter (fun p => is_valid_move b p.1 p.2) ∧
      (∀ r col, choose vs r = some col → ∃ v, (col, v) ∈ vs ∧ ∀ p ∈ vs, p.2 ≤ v) ∧
      (∀ p ∈ vs, (∀ q ∈ vs, q.2 ≤ p.2) → ∃ r, choose vs r = some p.1)) := by
  constructor
  · intro r
    unfold pick_move
    rw [pick_loop_eq W hb columns _ rfl hc]
    cases hs : scores W b columns c with
    | error e => rfl
    | ok t =>
      obtain ⟨vs, c1⟩ := t
      simp only
      have hr := (scores_range W hb columns c vs c1 hc hs).2.1
      rw [track_from_start vs (fun p hp => (hr p hp).1)]
      unfold choose
      split <;> rfl
  · intro vs c1 hs
    obtain ⟨_, _, hcols⟩ := scores_range W hb columns c vs c1 hc hs
    refine ⟨hcols, ?_, ?_⟩
    · intro r col hch
      unfold choose at hch
      split at hch
      · simp at hch
      · next hn =>
        simp only [Option.some.injEq] at hch
        have hlt : r % (bestColumns vs).length < (bestColumns vs).length :=
          Nat.mod_lt _ (Nat.pos_of_ne_zero hn)
        have hmem : col ∈ bestColumns vs := by
          rw [← hch, List.getD_eq_getElem _ _ hlt]
          exact List.getElem_mem _
        obtain ⟨v, hv, hmax⟩ := mem_bestColumns.mp hmem
        refine ⟨v, hv, fun p hp => ?_⟩
        rw [hmax]
        exact le_maxValue (List.mem_map_of_mem _ hp)
    · intro p hp hmax
      have hne : vs.map (fun q => q.2) ≠ [] := by
        intro h
        rw [List.map_eq_nil_iff] at h
        rw [h] at hp
        simp at hp
      obtain ⟨q, hq, hqv⟩ := List.mem_map.mp (maxValue_mem hne)
      have hpv : p.2 = maxValue (vs.map (fun q => q.2)) :=
        le_antisymm (le_maxValue (List.mem_map_of_mem _ hp)) (by rw [← hqv]; exact hmax q hq)
      have hmem : p.1 ∈ bestColumns vs := mem_bestColumns.mpr ⟨p.2, hp, hpv⟩
      obtain ⟨k, hk, hkv⟩ := List.getElem_of_mem hmem
      refine ⟨k, ?_⟩
      unfold choose
      rw [if_neg (by omega), Nat.mod_eq_of_lt hk, List.getD_eq_getElem _ _ hk, hkv]

theorem pick_move_best_witness :
    BoardInv posB ∧ InRange emptyCache ∧
      (∀ r, pick_move winlines emptyCache posB r =
        match scores winlines posB columns emptyCache with
        | .error e => .error e
        | .ok (vs, c1) => .ok (choose vs r, c1, posB)) ∧
      picked (pick_move winlines emptyCache posB 0) = some (some (0, 0)) ∧
      picked (pick_move winlines emptyCache posB 1) = some (some (2, 0)) :=
  ⟨by decide, InRange.empty,
    (pick_move_best winlines emptyCache posB (by decide) InRange.empty).1,
    by rw [winlines_eq]; decide!, by rw [winlines_eq]; decide!⟩

/-! ## Legal moves and the positions of a game -/

theorem is_valid_move_iff (b : Board) (i j : Int) :
    is_valid_move b i j = true ↔
      0 ≤ i ∧ i < 3 ∧ 0 ≤ j ∧ j < 3 ∧ hget b.h (3 * i + j).toNat < 3 := by
  simp [is_valid_move, and_assoc]

theorem do_move_eq_moved {b b1 : Board} {i j : Int} (hv : is_valid_move b i j = true)
    (hd : do_move b i j = some b1) : b1 = moved b (3 * i + j).toNat := by
  obtain ⟨hi0, _, hj0, _, _⟩ := valid_bounds hv
  have hocc := OCC_toNat hi0 hj0 (hget b.h (3 * i + j).toNat)
  unfold do_move at hd
  simp only [hv, Bool.true_eq_false, if_false, hocc] at hd
  unfold moved
  by_cases hpar : b.m % 2 = 0
  · simp only [hpar, ne_eq, not_true_eq_false, decide_False, Bool.false_eq_true, if_false,
      if_true] at hd ⊢
    split at hd
    · simp at hd
    · injection hd with hd; exact hd.symm
  · simp only [hpar, ne_eq, not_false_eq_true, decide_True, if_true, if_false] at hd ⊢
    split at hd
    · simp at hd
    · injection hd with hd; exact hd.symm

theorem moved_inv {b : Board} (hb : BoardInv b) {n : Nat} (hn : n < 9) (hlt : hget b.h n < 3) :
    BoardInv (moved b n) := by
  have h := hb.after_move hn hlt
  unfold moved
  by_cases hpar : b.m % 2 = 0
  · rw [if_pos hpar]
    have hp : (b.m + 1) % 2 ≠ 0 := by omega
    simp only [if_pos hp] at h
    exact h.1.swap
  · rw [if_neg hpar]
    have hp : ¬ (b.m + 1) % 2 ≠ 0 := by omega
    simp only [if_neg hp] at h
    exact h.2

theorem do_move_inv {b b1 : Board} {i j : Int} (hb : BoardInv b)
    (hv : is_valid_move b i j = true) (hd : do_move b i j = some b1) : BoardInv b1 := by
  obtain ⟨hi0, hi3, hj0, hj3, hh⟩ := valid_bounds hv
  rw [do_move_eq_moved hv hd]
  exact moved_inv hb (by omega) hh

theorem Hist.inv : ∀ (st : List (Int × Int)) (b : Board), Hist b st → BoardInv b := by
  intro st
  induction st with
  | nil => intro b hb; simp only [Hist] at hb; rw [hb]; decide
  | cons p st ih =>
    intro b hb
    obtain ⟨i, j⟩ := p
    obtain ⟨b0, h0, hv, hd⟩ := hb
    exact do_move_inv (ih b0 h0) hv hd

theorem Reach.hist {b : Board} {st : List (Int × Int)} (hr : Reach b st) : Hist b st := by
  induction hr with
  | start => simp [Hist]
  | move _ hv hd ih => exact ⟨_, ih, hv, hd⟩
  | undo _ hu ih =>
    obtain ⟨b0, h0, hv, hd⟩ := ih
    obtain ⟨b2, hd2, hu2, _⟩ := do_move_spec b0 _ _ (Hist.inv _ b0 h0) hv
    rw [hd] at hd2
    injection hd2 with hd2
    subst hd2
    rw [hu] at hu2
    injection hu2 with hu2
    subst hu2
    exact h0

/-- C14: `is_valid_move(board, i, j)` is true exactly when `0 <= i < 3`,
`0 <= j < 3` and `h[3i+j] < 3`. On a valid column `do_move`, when its assertions
pass, gives the board `moved`: the bit `column + 9*h[column]` set in `x` when `m` is
even and in `o` when `m` is odd, `h[column]` and `m` incremented, nothing else
changed; on a board that satisfies the invariant the assertions pass. From the
empty board three `do_move(0,0)` give `x = bit0|bit18`, `o = bit9`, `h[0] = 3`,
`m = 3`, and then `is_valid_move(board, 0, 0)` is false. -/
theorem move_legality :
    (∀ (b : Board) (i j : Int), is_valid_move b i j = true ↔
      0 ≤ i ∧ i < 3 ∧ 0 ≤ j ∧ j < 3 ∧ hget b.h (3 * i + j).toNat < 3) ∧
    (∀ (b b1 : Board) (i j : Int), is_valid_move b i j = true → do_move b i j = some b1 →
      b1 = moved b (3 * i + j).toNat) ∧
    (∀ (b : Board) (i j : Int), BoardInv b → is_valid_move b i j = true →
      do_move b i j = some (moved b (3 * i + j).toNat)) ∧
    ((do_move emptyBoard 0 0).bind (fun b => (do_move b 0 0).bind (fun b => do_move b 0 0)) =
        some { x := BIT 0 ||| BIT 18, o := BIT 9, h := [3, 0, 0, 0, 0, 0, 0, 0, 0], m := 3 } ∧
      is_valid_move { x := BIT 0 ||| BIT 18, o := BIT 9, h := [3, 0, 0, 0, 0, 0, 0, 0, 0],
                      m := 3 } 0 0 = false) := by
  refine ⟨is_valid_move_iff, fun b b1 i j hv hd => do_move_eq_moved hv hd, ?_, by decide,
    by decide⟩
  intro b i j hb hv
  obtain ⟨b1, hd, _, _⟩ := do_move_spec b i j hb hv
  rw [hd, do_move_eq_moved hv hd]

/-- C12: every board reached from the empty board by `do_move` on valid columns and
by `undo_move` of the most recent move not yet undone satisfies the invariant of
the data model (`x & o = 0`, in every column exactly the lowest `h[col]` cells
occupied, heights in `0..3`, `m = popcount(x) + popcount(o)`); on such a board the
assertions of `do_move` pass on every valid column, and those of `undo_move` pass
for the most recent move not yet undone. -/
theorem reach_invariant (b : Board) (st : List (Int × Int)) (hr : Reach b st) :
    BoardInv b ∧
    (∀ i j, is_valid_move b i j = true → ∃ b1, do_move b i j = some b1) ∧
    (∀ i j st1, st = (i, j) :: st1 → ∃ b1, undo_move b i j = some b1) := by
  have hh := hr.hist
  have hb := Hist.inv st b hh
  refine ⟨hb, ?_, ?_⟩
  · intro i j hv
    obtain ⟨b1, hd, _, _⟩ := do_move_spec b i j hb hv
    exact ⟨b1, hd⟩
  · intro i j st1 hst
    subst hst
    obtain ⟨b0, h0, hv, hd⟩ := hh
    obtain ⟨b2, hd2, hu2, _⟩ := do_move_spec b0 i j (Hist.inv _ b0 h0) hv
    rw [hd] at hd2
    injection hd2 with hd2
    subst hd2
    exact ⟨b0, hu2⟩

theorem reach_invariant_witness :
    ∃ b, Reach b [(1, 1), (0, 0)] ∧ BoardInv b ∧ ∃ b1, undo_move b 1 1 = some b1 := by
  have h1 : Reach (moved emptyBoard 0) [(0, 0)] :=
    Reach.move Reach.start (by decide) (by decide)
  have h2 : Reach (moved (moved emptyBoard 0) 4) [(1, 1), (0, 0)] :=
    Reach.move h1 (by decide) (by decide)
  obtain ⟨hb, _, hu⟩ := reach_invariant _ _ h2
  exact ⟨_, h2, hb, hu 1 1 [(0, 0)] rfl⟩

/-! ## Heights, plies and the depth of the search -/

theorem heightSum_add_slack {h : List Nat} (h3 : ∀ n < 9, hget h n ≤ 3) :
    heightSum h + slack h = 27 := by
  unfold heightSum slack
  rw [← List.sum_map_add]
  have : (List.range 9).map (fun n => hget h n + (3 - hget h n)) =
      (List.range 9).map (fun _ => 3) := by
    apply List.map_congr_left
    intro n hn
    have := h3 n (List.mem_range.mp hn)
    omega
  rw [this]
  simp

theorem heightSum_set {h : List Nat} {n : Nat} (hl : h.length = 9) (hn : n < 9) :
    heightSum h + 1 = heightSum (h.set n (hget h n + 1)) := by
  have hnl : n < h.length := by omega
  unfold heightSum
  apply sum_map_succ_at _ _ n
  · rw [hget_set_self hnl]
  · intro k hk; rw [hget_set_ne (Ne.symm hk)]
  · exact List.nodup_range 9
  · exact List.mem_range.mpr hn

theorem HeightInv.step {h : List Nat} {m : Int} (hh : HeightInv h m) {n : Nat} (hn : n < 9)
    (hlt : hget h n < 3) : HeightInv (h.set n (hget h n + 1)) (m + 1) := by
  obtain ⟨hl, h3, hm⟩ := hh
  have hnl : n < h.length := by omega
  refine ⟨by simpa using hl, ?_, ?_⟩
  · intro k hk
    by_cases hkn : n = k
    · subst hkn; rw [hget_set_self hnl]; omega
    · rw [hget_set_ne hkn]; exact h3 k hk
  · rw [← heightSum_set hl hn, hm]; push_cast; ring

theorem HeightInv.le {h : List Nat} {m : Int} (hh : HeightInv h m) : m ≤ 27 := by
  have := heightSum_add_slack hh.2.1
  rw [hh.2.2]; omega

theorem HeightInv.exists_col {h : List Nat} {m : Int} (hh : HeightInv h m) (hm : m ≠ 27) :
    ∃ n < 9, hget h n < 3 := by
  by_contra hne
  push_neg at hne
  have hs : slack h = 0 := by
    unfold slack
    apply List.sum_eq_zero
    intro v hv
    obtain ⟨n, hn, rfl⟩ := List.mem_map.mp hv
    have := hne n (List.mem_range.mp hn)
    omega
  have := heightSum_add_slack hh.2.1
  apply hm
  rw [hh.2.2]; omega

/-! ## Totality under an invariant of the arguments -/

/-- The loop "solve recursively" under an invariant `P` of the arguments: it stops
only when a recursive call stops, it keeps the values in range, and `value` leaves `-99` as soon as a non-full
column has been visited. -/
theorem solve_loop_total_gen (W : WinTable) (P : Nat → Nat → List Nat → Int → Prop)
    (hlenP : ∀ x o h m, P x o h m → h.length = 9)
    (hchildP : ∀ x o h m n, P x o h m → n < 9 → hget h n < 3 →
      P o (x ||| BIT (n + 9 * hget h n)) (h.set n (hget h n + 1)) (m + 1))
    (fuel : Nat)
    (ih : ∀ (c : Cache) (x o : Nat) (h : List Nat) (m : Int),
      P x o h m → InRange c → slack h < fuel →
      solve_fuel W fuel c x o h m = .error .cache_full ∨
        ∃ r, solve_fuel W fuel c x o h m = .ok r ∧ InRange r.c ∧ -27 ≤ r.value ∧ r.value ≤ 27)
    {x o : Nat} {h : List Nat} {m : Int} (hb : P x o h m)
    (hfuel : slack h < fuel + 1) :
    ∀ (ns : List Nat) (s : Outcome), (∀ n ∈ ns, n < 9) → s.h = h → InRange s.c →
      (s.value = -99 ∨ (-27 ≤ s.value ∧ s.value ≤ 27)) →
      solve_loop (solve_fuel W fuel) x o m ns s = .error .cache_full ∨
        ∃ r, solve_loop (solve_fuel W fuel) x o m ns s = .ok r ∧ r.h = h ∧ InRange r.c ∧
          (r.value = -99 ∨ (-27 ≤ r.value ∧ r.value ≤ 27)) ∧
          ((-27 ≤ s.value ∨ ∃ n ∈ ns, hget h n < 3) → -27 ≤ r.value) := by
  intro ns
  induction ns with
  | nil =>
    intro s _ hsh hsc hsv
    right
    refine ⟨s, by simp [solve_loop], hsh, hsc, hsv, ?_⟩
    rintro (h1 | ⟨n, hn, _⟩)
    · exact h1
    · simp at hn
  | cons n ns ihn =>
    intro s hns hsh hsc hsv
    have hn9 : n < 9 := hns n (List.mem_cons_self _ _)
    have hns' : ∀ k ∈ ns, k < 9 := fun k hk => hns k (List.mem_cons_of_mem _ hk)
    simp only [solve_loop]
    rw [hsh]
    by_cases hlt : hget h n < 3
    · rw [if_pos hlt]
      have hlen : h.length = 9 := hlenP _ _ _ _ hb
      have hsl := slack_set hlen hn9 hlt
      rcases ih s.c o (x ||| BIT (n + 9 * hget h n)) (h.set n (hget h n + 1)) (m + 1)
        (hchildP _ _ _ _ _ hb hn9 hlt) hsc (by omega) with he | ⟨r1, hr1, hc1, hv1, hv2⟩
      · left; rw [he]
      · rw [hr1]
        simp only
        have hh1 := (solve_fuel_frame W fuel _ _ _ _ _ _ hr1).1
        rcases ihn
          { value := if -r1.value > s.value then -r1.value else s.value, c := r1.c,
            h := r1.h.set n (hget r1.h n - 1), hits := s.hits ++ r1.hits,
            depth := max s.depth (r1.depth + 1) } hns'
          (by simp only [hh1]; exact set_incr_decr h n) hc1
          (by right; simp only; split_ifs <;> constructor <;> omega)
          with he | ⟨r, hr, hrh, hrc, hrv, hrge⟩
        · left; exact he
        · right
          refine ⟨r, hr, hrh, hrc, hrv, fun _ => hrge (Or.inl ?_)⟩
          simp only
          split_ifs <;> omega
    · rw [if_neg hlt]
      rcases ihn s hns' hsh hsc hsv with he | ⟨r, hr, hrh, hrc, hrv, hrge⟩
      · left; exact he
      · right
        refine ⟨r, hr, hrh, hrc, hrv, ?_⟩
        rintro (h1 | ⟨k, hk, hk3⟩)
        · exact hrge (Or.inl h1)
        · rcases List.mem_cons.mp hk with h2 | h2
          · subst h2; exact absurd hk3 hlt
          · exact hrge (Or.inr ⟨k, h2, hk3⟩)

/-- Under an invariant `P` of the arguments that the recursive calls keep and that
gives a non-full column below 27 plies, with a cache whose values are in range,
`solve` stops only at the assertion `cache_size < MAXCACHE`; otherwise it returns a value in
`[-27, 27]` and leaves the values of the cache in range. -/
theorem solve_fuel_total_gen (W : WinTable) (P : Nat → Nat → List Nat → Int → Prop)
    (hlenP : ∀ x o h m, P x o h m → h.length = 9)
    (hchildP : ∀ x o h m n, P x o h m → n < 9 → hget h n < 3 →
      P o (x ||| BIT (n + 9 * hget h n)) (h.set n (hget h n + 1)) (m + 1))
    (hmoveP : ∀ x o h m, P x o h m → m ≠ 27 → ∃ n < 9, hget h n < 3) :
    ∀ (fuel : Nat) (c : Cache) (x o : Nat) (h : List Nat) (m : Int), P x o h m → InRange c → slack h < fuel →
    solve_fuel W fuel c x o h m = .error .cache_full ∨
      ∃ r, solve_fuel W fuel c x o h m = .ok r ∧ InRange r.c ∧ -27 ≤ r.value ∧ r.value ≤ 27 := by
  intro fuel
  induction fuel with
  | zero => intro c x o h m _ _ hs; omega
  | succ fuel ih =>
    intro c x o h m hb hc hs
    cases hw : chain_walk x o (c.cache (bucket x o)) with
    | some e =>
      right
      refine ⟨_, solve_fuel_hit W fuel c x o h m hw, hc, ?_⟩
      exact hc _ e (chain_walk_some hw).1
    | none =>
      simp only [solve_fuel, hw]
      by_cases hfull : c.cache_size < MAXCACHE
      · simp only [hfull, not_true_eq_false, if_false]
        by_cases hm : m = 27
        · right
          simp only [hm, if_true]
          exact ⟨_, rfl, hc.alloc_range _ x o, by simp, by simp⟩
        · simp only [hm, if_false]
          by_cases hwin : has_win W x h = true
          · right
            rw [if_pos hwin]
            exact ⟨_, rfl, (hc.alloc_range _ x o).set_value_range _ _ (by simp) (by simp), by simp, by simp⟩
          · rw [if_neg hwin]
            rcases solve_loop_total_gen W P hlenP hchildP fuel ih hb hs (List.range 9)
              { value := -99, c := cache_alloc c (bucket x o) x o, h := h, hits := [],
                depth := 0 }
              (fun n hn => List.mem_range.mp hn) rfl (hc.alloc_range _ x o) (Or.inl rfl)
              with he | ⟨r2, hr2, _, hrc, hrv, hrge⟩
            · left; rw [he]
            · right
              rw [hr2]
              simp only
              obtain ⟨n, hn, hn3⟩ := hmoveP _ _ _ _ hb hm
              have hge : -27 ≤ r2.value := hrge (Or.inr ⟨n, List.mem_range.mpr hn, hn3⟩)
              have h99 : r2.value ≠ -99 := by omega
              have hle : r2.value ≤ 27 := by
                rcases hrv with h | h
                · exact absurd h h99
                · exact h.2
              simp only [h99, if_false]
              have hadj := adj_range hge hle
              rw [adj_eq]
              exact ⟨_, rfl, hrc.set_value_range _ _ hadj.1 hadj.2, hadj.1, hadj.2⟩
      · left; simp [hfull]

/-! ## The shape of a returning call -/

/-- The four ways a call of `solve` returns: the cache hit, the full board, the win
shortcut and the recursive branch. -/
theorem solve_fuel_ok_cases (W : WinTable) {fuel : Nat} {c : Cache} {x o : Nat} {h : List Nat}
    {m : Int} {r : Outcome} (hr : solve_fuel W (fuel + 1) c x o h m = .ok r) :
    (∃ e, chain_walk x o (c.cache (bucket x o)) = some e ∧
      r = { value := e.value, c := c, h := h, hits := [{ qx := x, qo := o, e := e }],
            depth := 0 }) ∨
    (chain_walk x o (c.cache (bucket x o)) = none ∧ c.cache_size < MAXCACHE ∧
      ((m = 27 ∧ r = { value := 0, c := cache_alloc c (bucket x o) x o, h := h, hits := [],
                       depth := 0 }) ∨
       (m ≠ 27 ∧ has_win W x h = true ∧
          r = { value := 27,
                c := set_value (cache_alloc c (bucket x o) x o) (bucket x o)
                  (c.cache (bucket x o)).length 27,
                h := h, hits := [], depth := 0 }) ∨
       (m ≠ 27 ∧ has_win W x h = false ∧
          ∃ r2, solve_loop (solve_fuel W fuel) x o m (List.range 9)
              { value := -99, c := cache_alloc c (bucket x o) x o, h := h, hits := [],
                depth := 0 } = .ok r2 ∧ r2.value ≠ -99 ∧
            r = { value := adj r2.value,
                  c := set_value r2.c (bucket x o) (c.cache (bucket x o)).length
                    (adj r2.value),
                  h := r2.h, hits := r2.hits, depth := r2.depth }))) := by
  cases hw : chain_walk x o (c.cache (bucket x o)) with
  | some e =>
    rw [solve_fuel_hit W fuel c x o h m hw] at hr
    injection hr with hr
    exact Or.inl ⟨e, rfl, hr.symm⟩
  | none =>
    right
    simp only [solve_fuel, hw] at hr
    by_cases hfull : c.cache_size < MAXCACHE
    · simp only [hfull, not_true_eq_false, if_false] at hr
      refine ⟨rfl, hfull, ?_⟩
      by_cases hm : m = 27
      · simp only [hm, if_true] at hr
        injection hr with hr
        exact Or.inl ⟨hm, hr.symm⟩
      · simp only [hm, if_false] at hr
        right
        by_cases hwin : has_win W x h = true
        · simp only [hwin, if_true] at hr
          injection hr with hr
          exact Or.inl ⟨hm, hwin, hr.symm⟩
        · simp only [hwin, if_false] at hr
          right
          refine ⟨hm, by simpa using hwin, ?_⟩
          cases hl : solve_loop (solve_fuel W fuel) x o m (List.range 9)
              { value := -99, c := cache_alloc c (bucket x o) x o, h := h,
                hits := [], depth := 0 } with
          | error e => rw [hl] at hr; simp at hr
          | ok r2 =>
            rw [hl] at hr
            simp only at hr
            by_cases h99 : r2.value = -99
            · simp [h99] at hr
            · simp only [h99, if_false] at hr
              injection hr with hr
              refine ⟨r2, rfl, h99, ?_⟩
              rw [← hr, adj_eq]
    · simp [hfull] at hr

/-- The nesting depth of the recursive calls below a call is at most the number of
pieces that still fit on the board. -/
theorem solve_fuel_depth (W : WinTable) : ∀ (fuel : Nat) (c : Cache) (x o : Nat)
    (h : List Nat) (m : Int) (r : Outcome), h.length = 9 →
    solve_fuel W fuel c x o h m = .ok r → r.depth ≤ slack h := by
  intro fuel
  induction fuel with
  | zero => intro c x o h m r _ hr; simp [solve_fuel] at hr
  | succ fuel ih =>
    intro c x o h m r hl hr
    rcases solve_fuel_ok_cases W hr with ⟨e, _, rfl⟩ | ⟨_, _, ⟨_, rfl⟩ | ⟨_, _, rfl⟩ |
      ⟨_, _, r2, hr2, _, rfl⟩⟩
    · simp
    · simp
    · simp
    · have hloop := solve_loop_ind (R := solve_fuel W fuel) (x := x) (o := o) (m := m)
        (fun s => s.h = h ∧ s.depth ≤ slack h) (fun _ => True) (List.range 9)
        (by
          intro s n hn hs hlt
          cases hrec : solve_fuel W fuel s.c o (x ||| BIT (n + 9 * hget s.h n))
              (s.h.set n (hget s.h n + 1)) (m + 1) with
          | error e => trivial
          | ok r1 =>
            have hh1 := (solve_fuel_frame W fuel _ _ _ _ _ _ hrec).1
            rw [hs.1] at hrec hlt
            have hd := ih _ _ _ _ _ r1 (by simpa using hl) hrec
            have hsl := slack_set hl (List.mem_range.mp hn) hlt
            refine ⟨?_, ?_⟩
            · simp only [hh1]; rw [set_incr_decr, hs.1]
            · simp only
              have := hs.2
              omega)
        (List.range 9) { value := -99, c := cache_alloc c (bucket x o) x o, h := h,
                         hits := [], depth := 0 }
        (fun _ hn => hn) ⟨rfl, Nat.zero_le _⟩
      rw [hr2] at hloop
      exact hloop.2

/-! ## The recursive branch and the depth of the recursion -/

/-- C16: when `solve` is called with nine heights in `0..3`, `m` equal to their sum
and a cache whose values lie in `[-27, 27]` (as the empty cache does, and as the cache
of such a call that returns does again), then `m <= 27`, and if `m != 27` some
column has `h[n] < 3`; the loop "solve recursively", when it ends, has replaced
`value = -99` by a value in `[-27, 27]`, so the assertion `value != -99` holds; the
call stops only at the assertion `cache_size < MAXCACHE`, or returns. -/
theorem solve_has_move (W : WinTable) (c : Cache) (x o : Nat) (h : List Nat) (m : Int)
    (hh : HeightInv h m) (hc : InRange c) :
    m ≤ 27 ∧ (m ≠ 27 → ∃ n < 9, hget h n < 3) ∧
    (∀ fuel r2, slack h ≤ fuel → m ≠ 27 →
      solve_loop (solve_fuel W fuel) x o m (List.range 9)
          { value := -99, c := cache_alloc c (bucket x o) x o, h := h, hits := [],
            depth := 0 } = .ok r2 →
        r2.value ≠ -99 ∧ -27 ≤ r2.value ∧ r2.value ≤ 27) ∧
    (solve W c x o h m = .error .cache_full ∨
      ∃ r, solve W c x o h m = .ok r ∧ InRange r.c ∧ -27 ≤ r.value ∧ r.value ≤ 27) := by
  have hlenP : ∀ (x o : Nat) (h : List Nat) (m : Int), HeightInv h m → h.length = 9 :=
    fun _ _ _ _ hp => hp.1
  have hchildP : ∀ (x o : Nat) (h : List Nat) (m : Int) (n : Nat), HeightInv h m → n < 9 →
      hget h n < 3 → HeightInv (h.set n (hget h n + 1)) (m + 1) :=
    fun _ _ _ _ _ hp hn hlt => hp.step hn hlt
  have hmoveP : ∀ (x o : Nat) (h : List Nat) (m : Int), HeightInv h m → m ≠ 27 →
      ∃ n < 9, hget h n < 3 := fun _ _ _ _ hp hm => hp.exists_col hm
  refine ⟨hh.le, hh.exists_col, ?_, ?_⟩
  · intro fuel r2 hfuel hm hr2
    rcases solve_loop_total_gen W (fun _ _ h m => HeightInv h m) hlenP hchildP fuel
        (solve_fuel_total_gen W (fun _ _ h m => HeightInv h m) hlenP hchildP hmoveP fuel)
        (x := x) (o := o) hh (Nat.lt_succ_of_le hfuel) (List.range 9)
        { value := -99, c := cache_alloc c (bucket x o) x o, h := h, hits := [], depth := 0 }
        (fun n hn => List.mem_range.mp hn) rfl (hc.alloc_range _ x o) (Or.inl rfl)
      with he | ⟨r, hr, _, _, hrv, hrge⟩
    · rw [he] at hr2; simp at hr2
    · rw [hr] at hr2
      injection hr2 with hr2
      subst hr2
      obtain ⟨n, hn, hn3⟩ := hh.exists_col hm
      have hge : -27 ≤ r.value := hrge (Or.inr ⟨n, List.mem_range.mpr hn, hn3⟩)
      have h99 : r.value ≠ -99 := by omega
      rcases hrv with h | h
      · exact absurd h h99
      · exact ⟨h99, h.1, h.2⟩
  · exact solve_fuel_total_gen W (fun _ _ h m => HeightInv h m) hlenP hchildP hmoveP 28 c x o
      h m hh hc (Nat.lt_succ_of_le (slack_le h))

theorem solve_has_move_witness :
    HeightInv posA.h posA.m ∧ InRange emptyCache ∧ (∃ n < 9, hget posA.h n < 3) ∧
    (solve winlines emptyCache posA.x posA.o posA.h posA.m = .error .cache_full ∨
      ∃ r, solve winlines emptyCache posA.x posA.o posA.h posA.m = .ok r ∧ InRange r.c ∧
        -27 ≤ r.value ∧ r.value ≤ 27) :=
  have h := solve_has_move winlines emptyCache posA.x posA.o posA.h posA.m (by decide)
    InRange.empty
  ⟨by decide, InRange.empty, h.2.1 (by decide), h.2.2.2⟩

/-- C17: for nine heights in `0..3` and any cache, `solve` never runs out of the
recursion budget of the embedding, every budget above the number of pieces that
still fit gives the same run, and the nesting depth of the recursive calls below a
call that returns is at most 27 minus the sum of the heights. -/
theorem solve_terminates (W : WinTable) (c : Cache) (x o : Nat) (h : List Nat) (m : Int)
    (hl : h.length = 9) (h3 : ∀ n < 9, hget h n ≤ 3) :
    solve W c x o h m ≠ .error .out_of_fuel ∧
    (∀ fuel, 27 - heightSum h < fuel → solve_fuel W fuel c x o h m = solve W c x o h m) ∧
    (∀ r, solve W c x o h m = .ok r → r.depth + heightSum h ≤ 27) := by
  have hsum := heightSum_add_slack h3
  refine ⟨solve_ne_out_of_fuel W c x o h m hl, ?_, ?_⟩
  · intro fuel hfuel
    have hs : slack h < fuel := by omega
    have hne := solve_fuel_enough W fuel c x o h m hl hs
    rcases Nat.le_total fuel 28 with hle | hle
    · obtain ⟨k, hk⟩ := Nat.exists_eq_add_of_le hle
      have := solve_fuel_add W fuel k c x o h m hne
      unfold solve
      rw [hk, this]
    · obtain ⟨k, hk⟩ := Nat.exists_eq_add_of_le hle
      rw [hk]
      exact solve_fuel_eq_solve W k c x o h m hl
  · intro r hr
    have := solve_fuel_depth W 28 c x o h m r hl hr
    omega

theorem solve_terminates_witness :
    posA.h.length = 9 ∧ (∀ n < 9, hget posA.h n ≤ 3) ∧ heightSum posA.h = 14 ∧
    solve winlines emptyCache posA.x posA.o posA.h posA.m ≠ .error .out_of_fuel ∧
    (∀ r, solve winlines emptyCache posA.x posA.o posA.h posA.m = .ok r →
      r.depth + heightSum posA.h ≤ 27) ∧
    depthOf (solve winlines emptyCache posA.x posA.o posA.h posA.m) = some 2 ∧
    (∀ r, solve winlines emptyCache emptyBoard.x emptyBoard.o emptyBoard.h emptyBoard.m = .ok r →
      r.depth ≤ 27) := by
  have h := solve_terminates winlines emptyCache posA.x posA.o posA.h posA.m (by decide)
    (by decide)
  have h0 := solve_terminates winlines emptyCache emptyBoard.x emptyBoard.o emptyBoard.h
    emptyBoard.m (by decide) (by decide)
  refine ⟨by decide, by decide, by decide, h.1, h.2.2, ?_, fun r hr => ?_⟩
  · rw [winlines_eq]; decide!
  · have := h0.2.2 r hr
    omega

/-! ## Sign and parity of the values -/

theorem SignParity.range {v : Int} (hv : SignParity v) : -26 ≤ v ∧ v ≤ 27 := by
  unfold SignParity at hv; omega

theorem SignParity.adj_neg {v : Int} (hv : SignParity (-v)) : SignParity (adj v) := by
  unfold SignParity at hv ⊢
  unfold adj
  split_ifs <;> omega

theorem ParityOK.inRange {c : Cache} (hc : ParityOK c) : InRange c := by
  intro b e he
  have := (hc b e he).range
  omega

theorem ParityOK.of_emptyCache : ParityOK emptyCache := by
  intro b e he; simp [emptyCache] at he

theorem ParityOK.alloc_parity {c : Cache} (hc : ParityOK c) (b x o : Nat) :
    ParityOK (cache_alloc c b x o) := by
  intro b' e he
  by_cases hb : b' = b
  · subst hb
    rw [cache_alloc_same] at he
    rcases List.mem_append.mp he with h | h
    · exact hc _ e h
    · simp only [List.mem_singleton] at h
      rw [h]; exact Or.inl rfl
  · rw [cache_alloc_other c x o hb] at he
    exact hc _ e he

theorem ParityOK.set_value_parity {c : Cache} (hc : ParityOK c) (b k : Nat) {v : Int}
    (hv : SignParity v) : ParityOK (set_value c b k v) := by
  intro b' e he
  by_cases hb : b' = b
  · subst hb
    rw [set_value_same] at he
    rcases mem_chain_set_value k _ e he with h | h
    · exact hc _ e h
    · rw [h]; exact hv
  · rw [set_value_other _ _ _ hb] at he
    exact hc _ e he

/-- A call of `solve` that returns, on any arguments, keeps the sign and parity of
the stored values and returns a value of that sign and parity. -/
theorem solve_fuel_parity (W : WinTable) : ∀ (fuel : Nat) (c : Cache) (x o : Nat)
    (h : List Nat) (m : Int) (r : Outcome), ParityOK c →
    solve_fuel W fuel c x o h m = .ok r → ParityOK r.c ∧ SignParity r.value := by
  intro fuel
  induction fuel with
  | zero => intro c x o h m r _ hr; simp [solve_fuel] at hr
  | succ fuel ih =>
    intro c x o h m r hc hr
    rcases solve_fuel_ok_cases W hr with ⟨e, he, rfl⟩ | ⟨_, _, ⟨_, rfl⟩ | ⟨_, _, rfl⟩ |
      ⟨_, _, r2, hr2, h99, rfl⟩⟩
    · exact ⟨hc, hc _ e (chain_walk_some he).1⟩
    · exact ⟨hc.alloc_parity _ x o, Or.inl rfl⟩
    · have h27 : SignParity 27 := by decide
      exact ⟨(hc.alloc_parity _ x o).set_value_parity _ _ h27, h27⟩
    · have hloop := solve_loop_ind (R := solve_fuel W fuel) (x := x) (o := o) (m := m)
        (fun s => ParityOK s.c ∧ (s.value = -99 ∨ SignParity (- s.value)))
        (fun _ => True) (List.range 9)
        (by
          intro s n _ hs _
          cases hrec : solve_fuel W fuel s.c o (x ||| BIT (n + 9 * hget s.h n))
              (s.h.set n (hget s.h n + 1)) (m + 1) with
          | error e => trivial
          | ok r1 =>
            obtain ⟨h1, h2⟩ := ih _ _ _ _ _ r1 hs.1 hrec
            refine ⟨h1, ?_⟩
            right
            simp only
            split_ifs with hgt
            · simpa using h2
            · rcases hs.2 with h | h
              · have := h2.range
                omega
              · exact h)
        (List.range 9) { value := -99, c := cache_alloc c (bucket x o) x o, h := h,
                         hits := [], depth := 0 }
        (fun _ hn => hn) ⟨hc.alloc_parity _ x o, Or.inl rfl⟩
      rw [hr2] at hloop
      simp only at hloop
      have hv : SignParity (adj r2.value) := by
        rcases hloop.2 with h | h
        · exact absurd h h99
        · exact h.adj_neg
      exact ⟨hloop.1.set_value_parity _ _ hv, hv⟩

theorem calls_parity (W : WinTable) {c c' : Cache} (hs : SolveCalls W c c') :
    ParityOK c → ParityOK c' := by
  induction hs with
  | done c => exact id
  | call hr _ ih => exact fun hc => ih (solve_fuel_parity W 28 _ _ _ _ _ _ hc hr).1

/-- C19: in a cache reached from the empty cache by calls of `solve` (on any
arguments) every stored value is `0`, a positive odd number up to 27 or a negative
even number down to `-26`, and so is every value a further call returns: never
`-27`, never a positive even and never a negative odd value. -/
theorem solve_sign_parity (W : WinTable) (c : Cache) (hc : SolveCalls W emptyCache c) :
    ParityOK c ∧
    ∀ (x o : Nat) (h : List Nat) (m : Int) (r : Outcome), solve W c x o h m = .ok r →
      SignParity r.value ∧ r.value ≠ -27 ∧ ¬ (0 < r.value ∧ r.value % 2 = 0) ∧
        ¬ (r.value < 0 ∧ r.value % 2 = 1) ∧ ParityOK r.c := by
  have hp := calls_parity W hc ParityOK.of_emptyCache
  refine ⟨hp, ?_⟩
  intro x o h m r hr
  obtain ⟨h1, h2⟩ := solve_fuel_parity W 28 c x o h m r hp hr
  refine ⟨h2, ?_, ?_, ?_, h1⟩ <;> (unfold SignParity at h2; omega)

theorem solve_sign_parity_witness :
    SolveCalls winlines emptyCache
      (cacheOf (solve winlines emptyCache posA.x posA.o posA.h posA.m)) ∧
    ParityOK (cacheOf (solve winlines emptyCache posA.x posA.o posA.h posA.m)) ∧
    observe (solve winlines emptyCache posA.x posA.o posA.h posA.m) = some (25, []) := by
  have hs : SolveCalls winlines emptyCache
      (cacheOf (solve winlines emptyCache posA.x posA.o posA.h posA.m)) := by
    cases hr : solve winlines emptyCache posA.x posA.o posA.h posA.m with
    | error e => exact SolveCalls.done _
    | ok r => exact SolveCalls.call hr (SolveCalls.done _)
  refine ⟨hs, (solve_sign_parity winlines _ hs).1, ?_⟩
  rw [winlines_eq]; decide!

/-- C15: in a cache reached from the empty cache by calls of `solve` every stored
value lies in `[-27, 27]`; a further call that returns gives a value in `[-27, 27]`
and keeps the stored values there; on a position that satisfies the invariant the
call stops only at the assertion `cache_size < MAXCACHE`, or returns. -/
theorem solve_value_range (W : WinTable) (c : Cache) (hc : SolveCalls W emptyCache c) :
    InRange c ∧
    (∀ (x o : Nat) (h : List Nat) (m : Int) (r : Outcome), solve W c x o h m = .ok r →
      -27 ≤ r.value ∧ r.value ≤ 27 ∧ InRange r.c) ∧
    (∀ (x o : Nat) (h : List Nat) (m : Int), BoardInv { x := x, o := o, h := h, m := m } →
      solve W c x o h m = .error .cache_full ∨ ∃ r, solve W c x o h m = .ok r) := by
  have hp := calls_parity W hc ParityOK.of_emptyCache
  refine ⟨hp.inRange, ?_, ?_⟩
  · intro x o h m r hr
    obtain ⟨h1, h2⟩ := solve_fuel_parity W 28 c x o h m r hp hr
    have := h2.range
    exact ⟨by omega, by omega, h1.inRange⟩
  · intro x o h m hb
    rcases solve_fuel_total W 28 c x o h m hb hp.inRange (Nat.lt_succ_of_le (slack_le h))
      with he | ⟨r, hr, _⟩
    · exact Or.inl he
    · exact Or.inr ⟨r, hr⟩

theorem solve_value_range_witness :
    SolveCalls winlines emptyCache
      (cacheOf (solve winlines emptyCache posB.x posB.o posB.h posB.m)) ∧
    InRange (cacheOf (solve winlines emptyCache posB.x posB.o posB.h posB.m)) := by
  have hs : SolveCalls winlines emptyCache
      (cacheOf (solve winlines emptyCache posB.x posB.o posB.h posB.m)) := by
    cases hr : solve winlines emptyCache posB.x posB.o posB.h posB.m with
    | error e => exact SolveCalls.done _
    | ok r => exact SolveCalls.call hr (SolveCalls.done _)
  exact ⟨hs, (solve_value_range winlines _ hs).1⟩

/-! ## The entries of the cache -/

theorem bucket_lt (x o : Nat) : bucket x o < MAXCACHE :=
  Nat.mod_lt _ (by unfold MAXCACHE; norm_num)

theorem EntriesOf.nil : EntriesOf emptyCache [] := by
  refine ⟨List.nodup_nil, rfl, ?_⟩
  intro b; simp [emptyCache]

theorem EntriesOf.alloc_entries {c : Cache} {es : List (Nat × Nat)} (h : EntriesOf c es)
    {x o : Nat} (hw : chain_walk x o (c.cache (bucket x o)) = none) :
    EntriesOf (cache_alloc c (bucket x o) x o) (es ++ [(x, o)]) := by
  obtain ⟨hnd, hlen, hch⟩ := h
  refine ⟨?_, ?_, ?_⟩
  · rw [List.nodup_append]
    refine ⟨hnd, List.nodup_singleton _, ?_⟩
    intro p hp hp'
    rw [List.mem_singleton] at hp'
    subst hp'
    have hmem : (x, o) ∈ (c.cache (bucket x o)).map keyOf := by
      rw [hch]; simp [hp]
    obtain ⟨e, he, hke⟩ := List.mem_map.mp hmem
    have := (chain_walk_none.mp hw e he).1
    simp only [keyOf, Prod.mk.injEq] at hke
    exact this hke.1
  · simp [cache_alloc, hlen]
  · intro b
    by_cases hb : b = bucket x o
    · subst hb
      rw [cache_alloc_same, List.map_append, hch, List.filter_append]
      simp [keyOf]
    · rw [cache_alloc_other c x o hb, hch, List.filter_append]
      have : bucket x o ≠ b := fun h => hb h.symm
      simp [this]

theorem map_keyOf_chain_set_value (v : Int) : ∀ (k : Nat) (l : List CacheEntry),
    (chain_set_value v k l).map keyOf = l.map keyOf := by
  intro k l
  induction l generalizing k with
  | nil => simp [chain_set_value]
  | cons a l ih =>
    cases k with
    | zero => simp [chain_set_value, keyOf]
    | succ k => simp [chain_set_value, ih k]

theorem EntriesOf.set_value_entries {c : Cache} {es : List (Nat × Nat)} (h : EntriesOf c es)
    (b k : Nat) (v : Int) : EntriesOf (set_value c b k v) es := by
  obtain ⟨hnd, hlen, hch⟩ := h
  refine ⟨hnd, by simpa [set_value] using hlen, ?_⟩
  intro b'
  by_cases hb : b' = b
  · subst hb
    rw [set_value_same, map_keyOf_chain_set_value, hch]
  · rw [set_value_other _ _ _ hb, hch]

/-- A call of `solve` that returns, on any arguments, appends the pairs of the
entries it allocates to the list of the allocated entries. -/
theorem solve_fuel_entries (W : WinTable) : ∀ (fuel : Nat) (c : Cache) (x o : Nat)
    (h : List Nat) (m : Int) (r : Outcome) (es : List (Nat × Nat)), EntriesOf c es →
    solve_fuel W fuel c x o h m = .ok r → ∃ suf, EntriesOf r.c (es ++ suf) := by
  intro fuel
  induction fuel with
  | zero => intro c x o h m r es _ hr; simp [solve_fuel] at hr
  | succ fuel ih =>
    intro c x o h m r es hc hr
    rcases solve_fuel_ok_cases W hr with ⟨e, he, rfl⟩ | ⟨hw, _, ⟨_, rfl⟩ | ⟨_, _, rfl⟩ |
      ⟨_, _, r2, hr2, h99, rfl⟩⟩
    · exact ⟨[], by simpa using hc⟩
    · exact ⟨[(x, o)], hc.alloc_entries hw⟩
    · exact ⟨[(x, o)], (hc.alloc_entries hw).set_value_entries _ _ _⟩
    · have hloop := solve_loop_ind (R := solve_fuel W fuel) (x := x) (o := o) (m := m)
        (fun s => ∃ suf, EntriesOf s.c (es ++ suf))
        (fun _ => True) (List.range 9)
        (by
          intro s n _ hs _
          cases hrec : solve_fuel W fuel s.c o (x ||| BIT (n + 9 * hget s.h n))
              (s.h.set n (hget s.h n + 1)) (m + 1) with
          | error e => trivial
          | ok r1 =>
            obtain ⟨suf, hsuf⟩ := hs
            obtain ⟨suf1, h1⟩ := ih _ _ _ _ _ r1 _ hsuf hrec
            exact ⟨suf ++ suf1, by simpa [List.append_assoc] using h1⟩)
        (List.range 9) { value := -99, c := cache_alloc c (bucket x o) x o, h := h,
                         hits := [], depth := 0 }
        (fun _ hn => hn) ⟨[(x, o)], hc.alloc_entries hw⟩
      rw [hr2] at hloop
      obtain ⟨suf, hsuf⟩ := hloop
      exact ⟨suf, hsuf.set_value_entries _ _ _⟩

theorem calls_entries (W : WinTable) {c c' : Cache} (hs : SolveCalls W c c') :
    ∀ es, EntriesOf c es → ∃ suf, EntriesOf c' (es ++ suf) := by
  induction hs with
  | done c => exact fun es h => ⟨[], by simpa using h⟩
  | call hr _ ih =>
    intro es h
    obtain ⟨suf, h1⟩ := solve_fuel_entries W 28 _ _ _ _ _ _ es h hr
    obtain ⟨suf2, h2⟩ := ih _ h1
    exact ⟨suf ++ suf2, by simpa [List.append_assoc] using h2⟩

theorem calls_extend (W : WinTable) {c c' : Cache} (hs : SolveCalls W c c') : Extends c c' := by
  induction hs with
  | done c => exact Extends.same c
  | call hr _ ih => exact Extends.chain (solve_frame W hr).2.1 ih

theorem EntriesOf.own_bucket {c : Cache} {es : List (Nat × Nat)} (h : EntriesOf c es) (b : Nat)
    (e : CacheEntry) (he : e ∈ c.cache b) : bucket e.x e.o = b := by
  have hmem : keyOf e ∈ (c.cache b).map keyOf := List.mem_map.mpr ⟨e, he, rfl⟩
  rw [h.2.2 b] at hmem
  simpa [keyOf] using (List.mem_filter.mp hmem).2

theorem EntriesOf.one_entry {c : Cache} {es : List (Nat × Nat)} (h : EntriesOf c es)
    {b1 b2 k1 k2 : Nat} {e1 e2 : CacheEntry} (h1 : (c.cache b1)[k1]? = some e1)
    (h2 : (c.cache b2)[k2]? = some e2) (hx : e1.x = e2.x) (ho : e1.o = e2.o) :
    b1 = b2 ∧ k1 = k2 := by
  have hb1 := h.own_bucket b1 e1 (List.getElem?_mem h1)
  have hb2 := h.own_bucket b2 e2 (List.getElem?_mem h2)
  have hb : b1 = b2 := by rw [← hb1, ← hb2, hx, ho]
  subst hb
  refine ⟨rfl, ?_⟩
  have hnd : ((c.cache b1).map keyOf).Nodup := by
    rw [h.2.2 b1]; exact h.1.filter _
  have hk1 : k1 < ((c.cache b1).map keyOf).length := by
    rw [List.length_map]
    exact (List.getElem?_eq_some_iff.mp h1).1
  apply List.getElem?_inj hk1 hnd
  rw [List.getElem?_map, List.getElem?_map, h1, h2]
  simp [keyOf, hx, ho]

theorem sum_filter_length (es : List (Nat × Nat)) :
    ∑ b in Finset.range MAXCACHE,
      (es.filter (fun p => decide (bucket p.1 p.2 = b))).length = es.length := by
  induction es with
  | nil => simp
  | cons a es ih =>
    have : ∀ b, ((a :: es).filter (fun p => decide (bucket p.1 p.2 = b))).length =
        (es.filter (fun p => decide (bucket p.1 p.2 = b))).length +
          (if bucket a.1 a.2 = b then 1 else 0) := by
      intro b
      by_cases hb : bucket a.1 a.2 = b
      · simp [List.filter_cons, hb]
      · simp [List.filter_cons, hb]
    simp only [this, Finset.sum_add_distrib, ih, List.length_cons]
    rw [Finset.sum_ite_eq]
    simp [bucket_lt]

theorem EntriesOf.size {c : Cache} {es : List (Nat × Nat)} (h : EntriesOf c es) :
    c.cache_size = ∑ b in Finset.range MAXCACHE, (c.cache b).length := by
  rw [← h.2.1, ← sum_filter_length es]
  apply Finset.sum_congr rfl
  intro b _
  rw [← h.2.2 b, List.length_map]

/-- C18: in a cache reached from the empty cache by calls of `solve` (on any
arguments) the allocated entries form a list without a repeated pair `(x, o)`, of
length `cache_size`, of which every chain links the entries of its bucket;
`cache_size` is the number of entries linked in the chains; every entry is linked in
the chain of the bucket `((46351*x mod 2^32) xor o) mod MAXCACHE` of its own pair; no
two linked entries carry the same pair. A further call that returns leaves every
chain as it was, with entries appended at its tail; after a miss the chain of the
call is the old chain, then the entry `(x, o)` of the call holding the returned
value, then later entries; and the allocated entries stay allocated. -/
theorem cache_entries_unique (W : WinTable) (c : Cache) (hc : SolveCalls W emptyCache c) :
    (∃ es, EntriesOf c es) ∧
    c.cache_size = ∑ b in Finset.range MAXCACHE, (c.cache b).length ∧
    (∀ b, ∀ e ∈ c.cache b, bucket e.x e.o = b) ∧
    (∀ (b1 b2 k1 k2 : Nat) (e1 e2 : CacheEntry), (c.cache b1)[k1]? = some e1 →
      (c.cache b2)[k2]? = some e2 → e1.x = e2.x → e1.o = e2.o → b1 = b2 ∧ k1 = k2) ∧
    (∀ (x o : Nat) (h : List Nat) (m : Int) (r : Outcome), solve W c x o h m = .ok r →
      Extends c r.c ∧
      (chain_walk x o (c.cache (bucket x o)) = none →
        ∃ suf, r.c.cache (bucket x o) =
          c.cache (bucket x o) ++ { x := x, o := o, value := r.value } :: suf) ∧
      (∀ es, EntriesOf c es → ∃ suf, EntriesOf r.c (es ++ suf))) ∧
    (∀ c', SolveCalls W c c' → Extends c c') := by
  obtain ⟨es, hes⟩ := calls_entries W hc [] EntriesOf.nil
  refine ⟨⟨_, hes⟩, hes.size, hes.own_bucket, ?_, ?_, fun c' h => calls_extend W h⟩
  · intro b1 b2 k1 k2 e1 e2 h1 h2 hx ho
    exact hes.one_entry h1 h2 hx ho
  · intro x o h m r hr
    exact ⟨(solve_frame W hr).2.1, (solve_frame W hr).2.2.2,
      fun es1 h1 => solve_fuel_entries W 28 c x o h m r es1 h1 hr⟩

theorem cache_entries_unique_witness :
    SolveCalls winlines emptyCache
      (cacheOf (solve winlines emptyCache posA.x posA.o posA.h posA.m)) ∧
    (∃ es, EntriesOf (cacheOf (solve winlines emptyCache posA.x posA.o posA.h posA.m)) es) ∧
    (cacheOf (solve winlines emptyCache posA.x posA.o posA.h posA.m)).cache_size = 15 := by
  have hs : SolveCalls winlines emptyCache
      (cacheOf (solve winlines emptyCache posA.x posA.o posA.h posA.m)) := by
    cases hr : solve winlines emptyCache posA.x posA.o posA.h posA.m with
    | error e => exact SolveCalls.done _
    | ok r => exact SolveCalls.call hr (SolveCalls.done _)
  refine ⟨hs, (cache_entries_unique winlines _ hs).1, ?_⟩
  rw [winlines_eq]; decide!

/-! ## Full boards and legal columns -/

theorem BoardInv.full_iff {b : Board} (hb : BoardInv b) :
    b.m = 27 ↔ ∀ n < 9, hget b.h n = 3 := by
  constructor
  · intro hm n hn
    obtain ⟨_, hx, ho, hd, hle, hg, hcnt⟩ := hb
    have hp : popcount (b.x ||| b.o) = 27 := by
      rw [← popcount_add_of_disjoint hd]
      rw [hm] at hcnt
      exact_mod_cast hcnt.symm
    have hlt : b.x ||| b.o < 2 ^ 27 := Nat.or_lt_two_pow hx ho
    have ht := testBit_of_popcount_27 hlt hp (n + 9 * 2) (by omega)
    rw [hg n hn 2 (by decide)] at ht
    have h2 : 2 < hget b.h n := by simpa using ht
    have := hle n hn
    omega
  · intro hall
    by_contra hm
    obtain ⟨n, hn, hlt⟩ := hb.exists_move hm
    have := hall n hn
    omega

theorem valid_mem_columns {b : Board} {i j : Int} (hv : is_valid_move b i j = true) :
    (i, j) ∈ columns := by
  obtain ⟨hi0, hi3, hj0, hj3, _⟩ := valid_bounds hv
  have hi : i = 0 ∨ i = 1 ∨ i = 2 := by omega
  have hj : j = 0 ∨ j = 1 ∨ j = 2 := by omega
  rcases hi with rfl | rfl | rfl <;> rcases hj with rfl | rfl | rfl <;> simp [columns]

theorem no_valid_iff (b : Board) :
    (∀ i j, is_valid_move b i j = false) ↔ ∀ n < 9, 3 ≤ hget b.h n := by
  constructor
  · intro h n hn
    by_contra hlt
    have hv : is_valid_move b ((n / 3 : Nat) : Int) ((n % 3 : Nat) : Int) = true := by
      rw [is_valid_move_iff]
      have e : (3 * ((n / 3 : Nat) : Int) + ((n % 3 : Nat) : Int)).toNat = n := by omega
      rw [e]
      refine ⟨by omega, by omega, by omega, by omega, by omega⟩
    rw [h] at hv
    exact Bool.false_ne_true hv
  · intro h i j
    by_contra hv
    rw [Bool.not_eq_false] at hv
    obtain ⟨hi0, hi3, hj0, hj3, hh⟩ := valid_bounds hv
    have := h (3 * i + j).toNat (by omega)
    omega

/-! ## The value of a column -/

/-- The value `pick_move` computes for a valid column of a board that satisfies the
invariant: `+27` for a winning move; otherwise a call of `solve` on a position that
satisfies the invariant, and the run stops when that call stops, or gives minus its
value, its cache and the board as it was. -/
theorem column_value_cases (W : WinTable) (c : Cache) {b : Board} {i j : Int}
    (hb : BoardInv b) (hv : is_valid_move b i j = true) :
    (is_winning_move W b i j = some true ∧ column_value W c b i j = .ok (27, c, b)) ∨
    (is_winning_move W b i j = some false ∧
      ∃ (x o : Nat) (h : List Nat) (m : Int), BoardInv { x := x, o := o, h := h, m := m } ∧
        ((∃ e, solve W c x o h m = .error e ∧ column_value W c b i j = .error e) ∨
         (∃ r, solve W c x o h m = .ok r ∧
            column_value W c b i j = .ok (- r.value, r.c, b)))) := by
  unfold column_value
  cases hw : is_winning_move W b i j with
  | none => simp [is_winning_move, hv] at hw
  | some w =>
    cases w with
    | true => left; exact ⟨rfl, rfl⟩
    | false =>
      right
      refine ⟨rfl, ?_⟩
      obtain ⟨bm, hdo, hundo, hbm⟩ := do_move_spec b i j hb hv
      obtain ⟨hi0, hi3, hj0, hj3, hh⟩ := valid_bounds hv
      have hn : (3 * i + j).toNat < 9 := by omega
      have hinv : BoardInv { x := if bm.m % 2 ≠ 0 then bm.o else bm.x,
                             o := if bm.m % 2 ≠ 0 then bm.x else bm.o,
                             h := bm.h, m := bm.m } := by
        have := hb.after_move hn hh
        by_cases hpar : b.m % 2 = 0
        · rw [if_pos hpar] at hbm
          rw [hbm]
          have hp : (b.m + 1) % 2 ≠ 0 := by omega
          simp only [if_pos hp] at this ⊢
          exact this.1
        · rw [if_neg hpar] at hbm
          rw [hbm]
          have hp : ¬ (b.m + 1) % 2 ≠ 0 := by omega
          simp only [if_neg hp] at this ⊢
          exact this.2
      refine ⟨_, _, _, _, hinv, ?_⟩
      simp only [hdo]
      unfold solve_board
      cases hs : solve W c (if bm.m % 2 ≠ 0 then bm.o else bm.x)
          (if bm.m % 2 ≠ 0 then bm.x else bm.o) bm.h bm.m with
      | error e => left; exact ⟨e, rfl, rfl⟩
      | ok r =>
        right
        refine ⟨r, rfl, ?_⟩
        have hrh := (solve_frame W hs).1
        simp only [hrh]
        have : ({ x := bm.x, o := bm.o, h := bm.h, m := bm.m } : Board) = bm := rfl
        rw [this, hundo]

theorem column_value_board (W : WinTable) {c : Cache} {b : Board} {i j : Int}
    (hb : BoardInv b) (hv : is_valid_move b i j = true) {v : Int} {c1 : Cache} {b1 : Board}
    (hr : column_value W c b i j = .ok (v, c1, b1)) : b1 = b := by
  rcases column_value_cases W c hb hv with ⟨_, h⟩ | ⟨_, x, o, h, m, _, ⟨e, _, h1⟩ | ⟨r, _, h1⟩⟩
  · rw [h] at hr
    simp only [Except.ok.injEq, Prod.mk.injEq] at hr
    exact hr.2.2.symm
  · rw [h1] at hr; simp at hr
  · rw [h1] at hr
    simp only [Except.ok.injEq, Prod.mk.injEq] at hr
    exact hr.2.2.symm

theorem column_value_total (W : WinTable) {c : Cache} {b : Board} {i j : Int}
    (hb : BoardInv b) (hc : InRange c) (hv : is_valid_move b i j = true) :
    column_value W c b i j = .error .cache_full ∨
      ∃ v c1, column_value W c b i j = .ok (v, c1, b) := by
  rcases column_value_cases W c hb hv with ⟨_, h⟩ | ⟨_, x, o, h, m, hinv, hcase⟩
  · exact Or.inr ⟨_, _, h⟩
  · rcases solve_fuel_total W 28 c x o h m hinv hc (Nat.lt_succ_of_le (slack_le _))
      with he | ⟨r, hs, _⟩
    · left
      rcases hcase with ⟨e, h1, h2⟩ | ⟨r, h1, _⟩
      · have he' : solve W c x o h m = .error .cache_full := he
        rw [he'] at h1
        injection h1 with h1
        rw [h2, ← h1]
      · have he' : solve W c x o h m = .error .cache_full := he
        rw [he'] at h1
        simp at h1
    · right
      have hs' : solve W c x o h m = .ok r := hs
      rcases hcase with ⟨e, h1, _⟩ | ⟨r1, _, h2⟩
      · rw [hs'] at h1; simp at h1
      · exact ⟨_, _, h2⟩

theorem calls_chain (W : WinTable) {c1 c2 c3 : Cache} (h12 : SolveCalls W c1 c2)
    (h23 : SolveCalls W c2 c3) : SolveCalls W c1 c3 := by
  induction h12 with
  | done c => exact h23
  | call hr _ ih => exact SolveCalls.call hr (ih h23)

/-- On a board that satisfies the invariant the loop of `pick_move` leaves the board
as it was. -/
theorem pick_loop_board (W : WinTable) {b : Board} (hb : BoardInv b) :
    ∀ (cols : List (Int × Int)) (s s1 : PickState), s.b = b →
    pick_loop W cols s = .ok s1 → s1.b = b := by
  intro cols
  induction cols with
  | nil =>
    intro s s1 hs hr
    simp only [pick_loop, Except.ok.injEq] at hr
    rw [← hr]; exact hs
  | cons p cols ih =>
    intro s s1 hs hr
    obtain ⟨i, j⟩ := p
    simp only [pick_loop, pick_step] at hr
    by_cases hv : is_valid_move s.b i j = true
    · rw [if_pos hv] at hr
      cases hcv : column_value W s.c s.b i j with
      | error e => rw [hcv] at hr; simp at hr
      | ok t =>
        obtain ⟨v, c2, b2⟩ := t
        rw [hcv] at hr
        simp only at hr
        have hb2 : b2 = s.b := column_value_board W (hs ▸ hb) hv hcv
        exact ih _ s1 (by simp only [hb2, hs]) hr
    · rw [if_neg hv] at hr
      exact ih s s1 hs hr

theorem scores_total (W : WinTable) {b : Board} (hb : BoardInv b) :
    ∀ (cols : List (Int × Int)) (c : Cache), InRange c →
    scores W b cols c = .error .cache_full ∨ ∃ vs c1, scores W b cols c = .ok (vs, c1) := by
  intro cols
  induction cols with
  | nil => intro c _; right; exact ⟨[], c, rfl⟩
  | cons p cols ih =>
    intro c hc
    obtain ⟨i, j⟩ := p
    simp only [scores]
    by_cases hv : is_valid_move b i j = true
    · rw [if_pos hv]
      rcases column_value_total W hb hc hv with he | ⟨v, c1, hcv⟩
      · left; rw [he]
      · rw [hcv]
        simp only
        obtain ⟨_, hc1, _⟩ := column_value_frame W hb hc hv hcv
        rcases ih c1 hc1 with he | ⟨vs, c2, hs⟩
        · left; rw [he]
        · right; rw [hs]; exact ⟨_, _, rfl⟩
    · rw [if_neg hv]
      exact ih c hc

/-- On a board that satisfies the invariant, with a cache whose values are in
range, `pick_move` stops exactly when the scoring of the columns stops, and
otherwise returns `best[r mod n]` and leaves the board as it was. -/
theorem pick_move_eq (W : WinTable) (c : Cache) (b : Board) (hb : BoardInv b)
    (hc : InRange c) (r : Nat) :
    pick_move W c b r =
      match scores W b columns c with
      | .error e => .error e
      | .ok (vs, c1) => .ok (choose vs r, c1, b) := by
  unfold pick_move
  rw [pick_loop_eq W hb columns _ rfl hc]
  cases hs : scores W b columns c with
  | error e => rfl
  | ok t =>
    obtain ⟨vs, c1⟩ := t
    simp only
    have hr := (scores_range W hb columns c vs c1 hc hs).2.1
    rw [track_from_start vs (fun p hp => (hr p hp).1)]
    unfold choose
    split <;> rfl

theorem bestColumns_ne_nil {vs : List ((Int × Int) × Int)} (hvs : vs ≠ []) :
    bestColumns vs ≠ [] := by
  have hne : vs.map (fun q => q.2) ≠ [] := by
    intro h
    exact hvs (List.map_eq_nil_iff.mp h)
  obtain ⟨q, hq, hqv⟩ := List.mem_map.mp (maxValue_mem hne)
  have hmem : q.1 ∈ bestColumns vs := mem_bestColumns.mpr ⟨q.2, hq, hqv⟩
  exact List.ne_nil_of_mem hmem

theorem choose_mem {vs : List ((Int × Int) × Int)} {r : Nat} {col : Int × Int}
    (hch : choose vs r = some col) : col ∈ bestColumns vs := by
  unfold choose at hch
  split at hch
  · simp at hch
  · next hn =>
    simp only [Option.some.injEq] at hch
    have hlt : r % (bestColumns vs).length < (bestColumns vs).length :=
      Nat.mod_lt _ (Nat.pos_of_ne_zero hn)
    rw [← hch, List.getD_eq_getElem _ _ hlt]
    exact List.getElem_mem _

theorem choose_eq_none {vs : List ((Int × Int) × Int)} {r : Nat} :
    choose vs r = none ↔ vs = [] := by
  constructor
  · intro h
    by_contra hvs
    have hb := bestColumns_ne_nil hvs
    unfold choose at h
    rw [if_neg (by simpa [List.length_eq_zero] using hb)] at h
    simp at h
  · intro h
    subst h
    simp [choose, bestColumns]

/-- The scoring of the columns of a board that satisfies the invariant, with a
cache whose values have the sign and parity of `SignParity`: a column scores `+27`
exactly when it is a winning move. -/
theorem scores_parity (W : WinTable) {b : Board} (hb : BoardInv b) :
    ∀ (cols : List (Int × Int)) (c : Cache) (vs : List ((Int × Int) × Int)) (c1 : Cache),
    ParityOK c → scores W b cols c = .ok (vs, c1) →
    ParityOK c1 ∧ SolveCalls W c c1 ∧
      ∀ p ∈ vs, (is_winning_move W b p.1.1 p.1.2 = some true ∧ p.2 = 27) ∨
        (is_winning_move W b p.1.1 p.1.2 = some false ∧ p.2 ≤ 26) := by
  intro cols
  induction cols with
  | nil =>
    intro c vs c1 hc hr
    simp only [scores, Except.ok.injEq, Prod.mk.injEq] at hr
    obtain ⟨rfl, rfl⟩ := hr
    exact ⟨hc, SolveCalls.done _, by simp⟩
  | cons p cols ih =>
    intro c vs c1 hc hr
    obtain ⟨i, j⟩ := p
    simp only [scores] at hr
    by_cases hv : is_valid_move b i j = true
    · rw [if_pos hv] at hr
      cases hcv : column_value W c b i j with
      | error e => rw [hcv] at hr; simp at hr
      | ok t =>
        obtain ⟨v, c2, b2⟩ := t
        rw [hcv] at hr
        simp only at hr
        cases hsc : scores W b cols c2 with
        | error e => rw [hsc] at hr; simp at hr
        | ok t2 =>
          obtain ⟨vs2, c3⟩ := t2
          rw [hsc] at hr
          simp only [Except.ok.injEq, Prod.mk.injEq] at hr
          obtain ⟨rfl, rfl⟩ := hr
          have hcol : ParityOK c2 ∧ SolveCalls W c c2 ∧
              ((is_winning_move W b i j = some true ∧ v = 27) ∨
                (is_winning_move W b i j = some false ∧ v ≤ 26)) := by
            rcases column_value_cases W c hb hv with ⟨hw, h⟩ |
              ⟨hw, x, o, h, m, _, ⟨e, _, h1⟩ | ⟨r, hs, h1⟩⟩
            · rw [h] at hcv
              simp only [Except.ok.injEq, Prod.mk.injEq] at hcv
              obtain ⟨rfl, rfl, _⟩ := hcv
              exact ⟨hc, SolveCalls.done _, Or.inl ⟨hw, rfl⟩⟩
            · rw [h1] at hcv; simp at hcv
            · rw [h1] at hcv
              simp only [Except.ok.injEq, Prod.mk.injEq] at hcv
              obtain ⟨rfl, rfl, _⟩ := hcv
              obtain ⟨hp1, hp2⟩ := solve_fuel_parity W 28 c x o h m r hc hs
              have := hp2.range
              exact ⟨hp1, SolveCalls.call hs (SolveCalls.done _), Or.inr ⟨hw, by omega⟩⟩
          obtain ⟨h1, h2, h3⟩ := ih c2 vs2 c3 hcol.1 hsc
          refine ⟨h1, calls_chain W hcol.2.1 h2, ?_⟩
          intro q hq
          rcases List.mem_cons.mp hq with h | h
          · rw [h]; exact hcol.2.2
          · exact h3 q h
    · rw [if_neg hv] at hr
      exact ih c vs c1 hc hr

theorem scores_no_valid (W : WinTable) {b : Board} (hno : ∀ i j, is_valid_move b i j = false) :
    ∀ (cols : List (Int × Int)) (c : Cache), scores W b cols c = .ok ([], c) := by
  intro cols
  induction cols with
  | nil => intro c; rfl
  | cons p cols ih =>
    intro c
    obtain ⟨i, j⟩ := p
    simp only [scores, hno i j, Bool.false_eq_true, if_false]
    exact ih c

theorem BoardInv.full_iff_no_valid {b : Board} (hb : BoardInv b) :
    b.m = 27 ↔ ∀ i j, is_valid_move b i j = false := by
  rw [hb.full_iff, no_valid_iff]
  constructor
  · intro h n hn; rw [h n hn]
  · intro h n hn
    have := h n hn
    have := hb.2.2.2.2.1 n hn
    omega

/-! ## The frame of the search -/

/-- C13: a call of `solve` that returns, with any recursion budget and through any
of its four exits, leaves in `h` the heights it was given; `solve_board` leaves the
board as it was; on a board that satisfies the invariant a valid column is scored,
and `pick_move` returns, with `x`, `o`, `h` and `m` of the board as they were at
entry; with a cache whose values are in range `pick_move` on such a board stops only
at the assertion `cache_size < MAXCACHE`, or returns with the board unchanged. -/
theorem search_frame (W : WinTable) (c : Cache) (b : Board) (hb : BoardInv b) :
    (∀ (fuel : Nat) (c0 : Cache) (x o : Nat) (h : List Nat) (m : Int) (r : Outcome),
      solve_fuel W fuel c0 x o h m = .ok r → r.h = h) ∧
    (∀ (x o : Nat) (h : List Nat) (m : Int) (r : Outcome),
      solve W c x o h m = .ok r → r.h = h) ∧
    (∀ (v : Int) (c1 : Cache) (b1 : Board), solve_board W c b = .ok (v, c1, b1) → b1 = b) ∧
    (∀ (i j v : Int) (c1 : Cache) (b1 : Board), is_valid_move b i j = true →
      column_value W c b i j = .ok (v, c1, b1) → b1 = b) ∧
    (∀ (r : Nat) (col : Option (Int × Int)) (c1 : Cache) (b1 : Board),
      pick_move W c b r = .ok (col, c1, b1) → b1 = b) ∧
    (InRange c → ∀ r : Nat, pick_move W c b r = .error .cache_full ∨
      ∃ col c1, pick_move W c b r = .ok (col, c1, b)) := by
  refine ⟨fun fuel c0 x o h m r hr => (solve_fuel_frame W fuel c0 x o h m r hr).1,
    fun x o h m r hr => (solve_frame W hr).1, ?_, ?_, ?_, ?_⟩
  · intro v c1 b1 hr
    unfold solve_board at hr
    cases hs : solve W c (if b.m % 2 ≠ 0 then b.o else b.x)
        (if b.m % 2 ≠ 0 then b.x else b.o) b.h b.m with
    | error e => rw [hs] at hr; simp at hr
    | ok r =>
      rw [hs] at hr
      simp only [Except.ok.injEq, Prod.mk.injEq] at hr
      rw [← hr.2.2, (solve_frame W hs).1]
  · intro i j v c1 b1 hv hr
    exact column_value_board W hb hv hr
  · intro r col c1 b1 hr
    unfold pick_move at hr
    cases hl : pick_loop W columns { c := c, b := b, best_v := -99, best := [] } with
    | error e => rw [hl] at hr; simp at hr
    | ok s =>
      rw [hl] at hr
      have hsb := pick_loop_board W hb columns _ s rfl hl
      simp only at hr
      split at hr
      · simp only [Except.ok.injEq, Prod.mk.injEq] at hr
        rw [← hr.2.2, hsb]
      · simp only [Except.ok.injEq, Prod.mk.injEq] at hr
        rw [← hr.2.2, hsb]
  · intro hc r
    rw [pick_move_eq W c b hb hc r]
    rcases scores_total W hb columns c hc with he | ⟨vs, c1, hs⟩
    · left; rw [he]
    · right; rw [hs]; exact ⟨_, _, rfl⟩

theorem search_frame_witness :
    BoardInv posB ∧
    (∀ (r : Nat) (col : Option (Int × Int)) (c1 : Cache) (b1 : Board),
      pick_move winlines emptyCache posB r = .ok (col, c1, b1) → b1 = posB) ∧
    boardOf (pick_move winlines emptyCache posB 0) = some posB :=
  ⟨by decide, (search_frame winlines emptyCache posB (by decide)).2.2.2.2.1,
    by rw [winlines_eq]; decide!⟩

/-! ## Full boards and winning moves in the move selection -/

/-- C11: on a board that satisfies the invariant, `m = 27` exactly when all nine
heights are 3, and exactly when no column is valid. With a cache whose values are
in range, `pick_move` on a full board returns false and leaves cache and board as
they were; on any such board it stops only at the assertion
`cache_size < MAXCACHE`, or returns with the board unchanged, and then it returns
false exactly when `m = 27`, and a column it reports is valid on the board. -/
theorem pick_move_full (W : WinTable) (c : Cache) (b : Board) (r : Nat) (hb : BoardInv b)
    (hc : InRange c) :
    ((b.m = 27 ↔ ∀ n < 9, hget b.h n = 3) ∧
      (b.m = 27 ↔ ∀ i j, is_valid_move b i j = false)) ∧
    (b.m = 27 → pick_move W c b r = .ok (none, c, b)) ∧
    (pick_move W c b r = .error .cache_full ∨
      ∃ col c1, pick_move W c b r = .ok (col, c1, b) ∧ (col = none ↔ b.m = 27) ∧
        ∀ i j, col = some (i, j) → is_valid_move b i j = true) := by
  refine ⟨⟨hb.full_iff, hb.full_iff_no_valid⟩, ?_, ?_⟩
  · intro hm
    rw [pick_move_eq W c b hb hc r, scores_no_valid W (hb.full_iff_no_valid.mp hm) columns c]
    simp [choose, bestColumns]
  · rw [pick_move_eq W c b hb hc r]
    rcases scores_total W hb columns c hc with he | ⟨vs, c1, hs⟩
    · left; rw [he]
    · right
      rw [hs]
      obtain ⟨_, _, hcols⟩ := scores_range W hb columns c vs c1 hc hs
      refine ⟨_, _, rfl, ?_, ?_⟩
      · rw [choose_eq_none, hb.full_iff_no_valid]
        constructor
        · intro hvs i j
          by_contra hv
          rw [Bool.not_eq_false] at hv
          have hmem : (i, j) ∈ columns.filter (fun p => is_valid_move b p.1 p.2) :=
            List.mem_filter.mpr ⟨valid_mem_columns hv, hv⟩
          rw [← hcols, hvs] at hmem
          simp at hmem
        · intro hno
          have hf : columns.filter (fun p => is_valid_move b p.1 p.2) = [] := by
            rw [List.filter_eq_nil_iff]
            intro p _
            rw [hno p.1 p.2]
            exact Bool.false_ne_true
          rw [hf] at hcols
          exact List.map_eq_nil_iff.mp hcols
      · intro i j hch
        obtain ⟨v, hv, _⟩ := mem_bestColumns.mp (choose_mem hch)
        have hmem : (i, j) ∈ vs.map (fun p => p.1) := List.mem_map.mpr ⟨_, hv, rfl⟩
        rw [hcols] at hmem
        exact (List.mem_filter.mp hmem).2

theorem pick_move_full_witness :
    BoardInv fullBoard ∧ InRange emptyCache ∧
    (∀ i j, is_valid_move fullBoard i j = false) ∧
    pick_move winlines emptyCache fullBoard 0 = .ok (none, emptyCache, fullBoard) :=
  have h := pick_move_full winlines emptyCache fullBoard 0 (by decide) InRange.empty
  ⟨by decide, InRange.empty, h.1.2.mp (by decide), h.2.1 (by decide)⟩

/-- C20: with a cache reached from the empty cache by calls of `solve`, on a board
that satisfies the invariant and has a valid column that is a winning move: a
column scores `+27` exactly when it is a winning move, and `pick_move`, for every
value `r` of `rand()`, stops only at the assertion `cache_size < MAXCACHE`, or
returns true with a valid column that is a winning move, the board unchanged and
a cache that is again reached from the empty cache by calls of `solve`. -/
theorem pick_move_takes_win (W : WinTable) (c : Cache) (b : Board) (r : Nat)
    (hc : SolveCalls W emptyCache c) (hb : BoardInv b)
    (hw : ∃ i j, is_valid_move b i j = true ∧ is_winning_move W b i j = some true) :
    (∀ vs c1, scores W b columns c = .ok (vs, c1) →
      ∀ p ∈ vs, (p.2 = 27 ↔ is_winning_move W b p.1.1 p.1.2 = some true)) ∧
    (pick_move W c b r = .error .cache_full ∨
      ∃ i j c1, pick_move W c b r = .ok (some (i, j), c1, b) ∧
        is_valid_move b i j = true ∧ is_winning_move W b i j = some true ∧
        SolveCalls W emptyCache c1) := by
  have hp := calls_parity W hc ParityOK.of_emptyCache
  have hin := hp.inRange
  have hiff : ∀ vs c1, scores W b columns c = .ok (vs, c1) →
      ∀ p ∈ vs, (p.2 = 27 ↔ is_winning_move W b p.1.1 p.1.2 = some true) := by
    intro vs c1 hs p hp1
    rcases (scores_parity W hb columns c vs c1 hp hs).2.2 p hp1 with ⟨h1, h2⟩ | ⟨h1, h2⟩
    · exact ⟨fun _ => h1, fun _ => h2⟩
    · constructor
      · intro h; omega
      · intro h; rw [h1] at h; simp at h
  refine ⟨hiff, ?_⟩
  rw [pick_move_eq W c b hb hin r]
  rcases scores_total W hb columns c hin with he | ⟨vs, c1, hs⟩
  · left; rw [he]
  · right
    rw [hs]
    obtain ⟨_, hrange, hcols⟩ := scores_range W hb columns c vs c1 hin hs
    obtain ⟨_, hcalls, _⟩ := scores_parity W hb columns c vs c1 hp hs
    obtain ⟨i, j, hv, hwin⟩ := hw
    have hmem : (i, j) ∈ vs.map (fun p => p.1) := by
      rw [hcols]
      exact List.mem_filter.mpr ⟨valid_mem_columns hv, hv⟩
    obtain ⟨p, hp1, hp2⟩ := List.mem_map.mp hmem
    have hp27 : p.2 = 27 := (hiff vs c1 hs p hp1).mpr (by rw [hp2]; exact hwin)
    have hne : vs.map (fun q => q.2) ≠ [] := by
      intro h
      rw [List.map_eq_nil_iff.mp h] at hp1
      simp at hp1
    have hmax : maxValue (vs.map (fun q => q.2)) = 27 := by
      apply le_antisymm
      · obtain ⟨q, hq, hqv⟩ := List.mem_map.mp (maxValue_mem hne)
        rw [← hqv]
        exact (hrange q hq).2
      · rw [← hp27]
        exact le_maxValue (List.mem_map_of_mem _ hp1)
    cases hch : choose vs r with
    | none =>
      rw [choose_eq_none] at hch
      rw [hch] at hp1
      simp at hp1
    | some col =>
      obtain ⟨v, hv1, hv2⟩ := mem_bestColumns.mp (choose_mem hch)
      rw [hmax] at hv2
      have hcw := (hiff vs c1 hs (col, v) hv1).mp hv2
      have hcm : col ∈ vs.map (fun p => p.1) := List.mem_map.mpr ⟨_, hv1, rfl⟩
      rw [hcols] at hcm
      refine ⟨col.1, col.2, c1, ?_, (List.mem_filter.mp hcm).2, hcw, calls_chain W hc hcalls⟩
      simp only [hch]

theorem pick_move_takes_win_witness :
    SolveCalls winlines emptyCache emptyCache ∧ BoardInv posB ∧
    is_valid_move posB 0 0 = true ∧ is_winning_move winlines posB 0 0 = some true ∧
    (pick_move winlines emptyCache posB 1 = .error .cache_full ∨
      ∃ i j c1, pick_move winlines emptyCache posB 1 = .ok (some (i, j), c1, posB) ∧
        is_valid_move posB i j = true ∧ is_winning_move winlines posB i j = some true ∧
        SolveCalls winlines emptyCache c1) ∧
    picked (pick_move winlines emptyCache posB 1) = some (some (2, 0)) := by
  have hwin : is_winning_move winlines posB 0 0 = some true := by
    rw [winlines_eq]; decide!
  refine ⟨SolveCalls.done _, by decide, by decide, hwin, ?_, by rw [winlines_eq]; decide!⟩
  exact (pick_move_takes_win winlines emptyCache posB 1 (SolveCalls.done _) (by decide)
    ⟨0, 0, by decide, hwin⟩).2

end ThreeEI
